import Mathlib

/-!
# nash: the command evaluation core (eval.c, exec.c, main.c)

A shallow embedding of the tree evaluator of the shell and of the command
cache it consults.  Every C function that is embedded keeps its name.  The
global variables of the C program are the fields of `State`; code that lives
in other modules of the shell (expansion, variables, redirection, jobs,
traps, the parser, the operating system) is reached through the record `Ext`
of external operations, so every theorem holds for all behaviours of those
modules.

Control leaves a C function in one of three ways, which `Out` distinguishes:
it returns (`ok`), it stops the evaluation (`stop`: a `longjmp` to the
current handler, a call of `exitshell`, a successful `execve`, or undefined
behaviour), or the recursion bound of the embedding is exhausted (`timeout`).
-/

namespace Nash

/-! ## Parse tree (nodes.h) -/

/-- A word of the parse tree (`struct narg`): its raw text. -/
structure Word where
  text : String
deriving DecidableEq

/-- Node types of redirections. -/
inductive RedirType where
  | NTO | NFROM | NAPPEND | NTOFD | NFROMFD | NHERE | NXHERE
deriving DecidableEq

/-- One redirection (`struct nfile` / `struct ndup`); `expfname` is filled in by `expredir`. -/
structure Redir where
  type : RedirType
  fd : Int
  fname : Word
  dupfd : Int
  expfname : Option String
deriving DecidableEq

/-- Node types that use `struct nbinary`. -/
inductive BinType where
  | NSEMI | NAND | NOR | NWHILE | NUNTIL
deriving DecidableEq

/-- Node types that use `struct nredir`. -/
inductive RedirNodeType where
  | NREDIR | NSUBSHELL | NBACKGND
deriving DecidableEq

/-- The parse tree (`union node`); a child pointer that may be `NULL` is an `Option`. -/
inductive Node where
  | nbinary (type : BinType) (ch1 ch2 : Option Node)
  | nredir (type : RedirNodeType) (n : Option Node) (redirect : List Redir)
  | nif (test ifpart elsepart : Option Node)
  | nfor (args : List Word) (body : Option Node) (var : String)
  | ncase (expr : Word) (cases : List (List Word × Option Node))
  | ndefun (text : String) (body : Option Node)
  | npipe (backgnd : Int) (cmdlist : List (Option Node))
  | ncmd (backgnd : Int) (args : List Word) (redirect : List Redir)
  | nother (type : Int)

/-! ## Constants -/

/-- Flag of `evaltree`: exit after evaluating tree. -/
def EV_EXIT : Nat := 1
/-- Flag of `evaltree`: exit status is checked; ignore -e flag. -/
def EV_TESTED : Nat := 2
/-- Flag of `evaltree`: command executing within back quotes. -/
def EV_BACKCMD : Nat := 4

/-- Reason for skipping commands: `break`. -/
def SKIPBREAK : Int := 1
/-- Reason for skipping commands: `continue`. -/
def SKIPCONT : Int := 2
/-- Reason for skipping commands: `return`. -/
def SKIPFUNC : Int := 3

/-- Exception: SIGINT received. -/
def EXINT : Int := 0
/-- Exception: a generic error. -/
def EXERROR : Int := 1
/-- Exception: execute a shell procedure. -/
def EXSHELLPROC : Int := 2

/-- Signal number of SIGINT. -/
def SIGINT : Int := 2

/-- Mode of `redirect`: save the previous descriptors. -/
def REDIR_PUSH : Nat := 1
/-- Mode of `redirect`: standard output goes to the memory buffer. -/
def REDIR_BACKQ : Nat := 2

/-- Mode of `forkshell`: no job is recorded. -/
def FORK_NOJOB : Int := 2

/-- Size of the command hash table. -/
def CMDTABLESIZE : Nat := 31

/-! ## Outcomes -/

/-- The ways in which an evaluation stops without returning to its caller. -/
inductive Stop where
  | raise (e : Int)
  | exitshell (status : Int)
  | exec
  | fault
deriving DecidableEq

/-- Outcome of running a piece of the shell from a state of type `σ`. -/
inductive Out (σ α : Type) where
  | ok (a : α) (s : σ)
  | stop (r : Stop) (s : σ)
  | timeout

/-- Go on with `f` when the outcome is a return; keep the outcome otherwise. -/
def Out.andThen {σ α β : Type} (r : Out σ α) (f : α → σ → Out σ β) : Out σ β :=
  match r with
  | Out.ok a s => f a s
  | Out.stop x s => Out.stop x s
  | Out.timeout => Out.timeout

/-! ## Command cache entries (exec.c) -/

/-- Values of `cmdtype`. -/
inductive CmdType where
  | CMDUNKNOWN | CMDNORMAL | CMDBUILTIN | CMDFUNCTION
deriving DecidableEq

/-- The C `union param`: an index or a function body. -/
inductive Param where
  | index (i : Int)
  | func (n : Option Node)

/-- The by-value descriptor handed to callers (`struct cmdentry`). -/
structure CmdEntry where
  cmdtype : CmdType
  u : Param

/-- An entry of the hash table (`struct tblentry`); the chain link is the list structure. -/
structure TblEntry where
  param : Param
  cmdtype : CmdType
  rehash : Bool
  cmdname : String

/-- Positional parameters (`struct shparam`). -/
structure ShParam where
  nparam : Int
  malloc : Bool
  p : List String
  optnext : Option (List String)

/-- Result of a command substitution (`struct backcmd`). -/
structure BackCmd where
  fd : Int
  buf : Option String
  nleft : Int
  jp : Option Nat

/-! ## The state of the shell -/

/-- The global variables read or written by the embedded code; `world` is everything else
(variables, descriptors, jobs, the file system, output buffers).  `nstat` is a ghost value with
no counterpart in the C code: the number of calls of `stat` made by `find_command` so far;
nothing reads it. -/
structure State (W : Type) where
  evalskip : Int
  skipcount : Int
  loopnest : Int
  funcnest : Int
  exitstatus : Int
  commandname : Option String
  cmdenviron : List String
  pendingsig : Int
  eflag : Bool
  iflag : Bool
  xflag : Bool
  nflag : Bool
  bigIflag : Bool
  shellparam : ShParam
  localvars : List String
  argptr : List String
  cmdtable : Nat → List TblEntry
  builtinloc : Int
  lastcmdentry : Nat × Nat
  pathopt : Option String
  curcmd : Option Node
  prevcmd : Option Node
  nstat : Nat
  world : W

/-- A piece of the shell: a function from the state to an outcome. -/
def M (W α : Type) : Type := State W → Out (State W) α

/-- Return a value without touching the state. -/
def M.pure {W α : Type} (a : α) : M W α := fun s => Out.ok a s

/-- Sequencing: the second part runs only when the first one returns. -/
def M.bind {W α β : Type} (m : M W α) (f : α → M W β) : M W β := fun s =>
  (m s).andThen f

instance (W : Type) : Monad (M W) where
  pure := M.pure
  bind := M.bind

/-- Read the state. -/
def getS {W : Type} : M W (State W) := fun s => Out.ok s s

/-- Update the state. -/
def modS {W : Type} (f : State W → State W) : M W Unit := fun s => Out.ok () (f s)

/-- Stop the evaluation. -/
def stopM {W α : Type} (r : Stop) : M W α := fun s => Out.stop r s

/-- Run an operation that only concerns the world. -/
def liftW {W α : Type} (f : W → Out W α) : M W α := fun s =>
  match f s.world with
  | Out.ok a w => Out.ok a { s with world := w }
  | Out.stop r w => Out.stop r { s with world := w }
  | Out.timeout => Out.timeout

/-- Run a total operation on the world. -/
def modW {W : Type} (f : W → W) : M W Unit := fun s => Out.ok () { s with world := f s.world }

/-! ## External operations -/

/-- Result of `stat`. -/
structure StatBuf where
  st_mode : Nat
  st_uid : Nat
  st_gid : Nat
deriving DecidableEq

/-- Messages written to the output streams. -/
inductive Msg where
  | nodetype (type : Int)
  | xtrace (vars args : List String)
  | notfound (name : String)
  | cmderror (name : String) (errno : Int)
  | useexit
  | entry (text : String) (rehash : Bool)

/-- Result of the parser: end of input, or a command (possibly empty). -/
inductive ParseResult where
  | neof
  | node (n : Option Node)

/-- Functions of the built-in table; those defined in eval.c and main.c are named. -/
inductive BuiltinFn where
  | bltincmd | breakcmd | returncmd | truecmd | evalcmd | execcmd | dotcmd | exitcmd | lccmd
  | other (k : Nat)
deriving DecidableEq

/-- Everything the embedded code calls but does not define: the other modules of the shell,
the tables generated at build time, the C library and the operating system.  Operations that
can run shell code (expansion with command substitution, traps, other built-ins, the parser)
act on the whole state; the rest act on the world only. -/
structure Ext (W : Type) where
  is_name : Char → Bool
  is_in_name : Char → Bool
  goodname : String → Bool
  number : String → Option Int
  expandarg_full : Word → M W (List String)
  expandarg_word : Word → M W String
  casematch : Word → String → M W Bool
  setvar : String → String → Nat → W → W
  setvareq : String → Nat → W → W
  listsetvar : List String → W → W
  mklocal : String → List String → W → Out W (List String)
  poplocalvars : List String → W → W
  pathval : W → String
  environment : W → List String
  redirect : List Redir → Nat → W → Out W Unit
  popredir : W → W
  clearredir : W → W
  makejob : Option Node → Nat → W → Nat × W
  forkshell : Nat → Option Node → Int → W → Out W Int
  waitforjob : Nat → W → Out W Int
  pipe : W → Option (Int × Int) × W
  close : Int → W → W
  copyfd : Int → Int → W → W
  dotrap : M W Unit
  raise : Int → M W Unit
  emit : Msg → W → W
  memout_reset : W → W
  memout_take : W → (String × Int) × W
  freestdout : W → W
  stat : String → W → Except Int StatBuf × W
  geteuid : W → Nat
  getegid : W → Nat
  execve : String → List String → List String → W → Option Int × W
  shellproc : String → List String → M W Unit
  builtincmd : List (String × Int)
  BLTINCMD : Int
  DOTCMD : Int
  EVALCMD : Int
  EXECCMD : Int
  builtinfunc : Int → BuiltinFn
  builtin_other : Nat → List String → M W Int
  ptr_as_int : Option Node → Int
  freefunc : Option Node → W → W
  parsecmd : Int → M W ParseResult
  setinputstring : String → W → W
  setinputfile : String → W → Out W Unit
  openfile : String → W → Int × W
  setinputfd : Int → W → W
  popfile : W → W
  showjobs : W → W
  chkmail : W → W
  setinteractive : Int → W → W
  VEXPORT : Nat
  VSTACK : Nat
  sigpending : W → Bool
  nextopt : String → List String → W → Out W (Char × List String)

/-- Errno value: no such file or directory. -/
def ENOENT : Int := 2
/-- Errno value: exec format error. -/
def ENOEXEC : Int := 8
/-- Errno value: permission denied. -/
def EACCES : Int := 13
/-- Errno value: not a directory. -/
def ENOTDIR : Int := 20

/-- The C call `error(...)`: raise `EXERROR`. -/
def error {W α : Type} : M W α := stopM (Stop.raise EXERROR)

/-- The C call `exitshell(status)`. -/
def exitshell {W α : Type} (status : Int) : M W α := stopM (Stop.exitshell status)

/-! ## The command cache (exec.c) -/

/-- The bytes of a C string, as values of a signed `char`. -/
def cbytes (name : String) : List Int :=
  name.toUTF8.data.toList.map (fun b => if b.toNat < 128 then (b.toNat : Int) else (b.toNat : Int) - 256)

/-- The hash value computed by `cmdlookup`: `(*p << 4)` plus the sum of the bytes, masked with `0x7FFF`. -/
def hashval (name : String) : Int :=
  (((cbytes name).headD 0) * 16 + (cbytes name).sum) % 32768

/-- The bucket selected by `cmdlookup`: `hashval % CMDTABLESIZE`. -/
def bucket (name : String) : Nat :=
  (hashval name % (CMDTABLESIZE : Int)).toNat

/-- Position in a chain of the first entry called `name`; the length of the chain when there is none. -/
def chainpos (name : String) : List TblEntry → Nat
  | [] => 0
  | e :: rest => if e.cmdname = name then 0 else chainpos name rest + 1

/-- The entry a table position points to. -/
def entryat {W : Type} (s : State W) (pos : Nat × Nat) : Option TblEntry :=
  (s.cmdtable pos.1).get? pos.2

/-- Overwrite the entry at a table position (an assignment through `cmdp`). -/
def setentry {W : Type} (pos : Nat × Nat) (f : TblEntry → TblEntry) (s : State W) : State W :=
  { s with cmdtable := Function.update s.cmdtable pos.1 ((s.cmdtable pos.1).modify f pos.2) }

/-- Embedding of `cmdlookup`: the result is the position of the entry (`cmdp`), `none` for `NULL`.
A new entry is linked at the end of the chain; its `param` is not initialised by the C code. -/
def cmdlookup {W : Type} (name : String) (add : Bool) : M W (Option (Nat × Nat)) := fun s =>
  let b := bucket name
  let chain := s.cmdtable b
  let i := chainpos name chain
  if i < chain.length then
    Out.ok (some (b, i)) { s with lastcmdentry := (b, i) }
  else if add then
    Out.ok (some (b, i))
      { s with
        cmdtable := Function.update s.cmdtable b
          (chain ++ [{ param := Param.index 0, cmdtype := CmdType.CMDUNKNOWN, rehash := false, cmdname := name }])
        lastcmdentry := (b, i) }
  else
    Out.ok none { s with lastcmdentry := (b, i) }

/-- Embedding of `delete_cmd_entry`: unlink the entry `lastcmdentry` points to, if any. -/
def delete_cmd_entry {W : Type} : M W Unit := fun s =>
  let pos := s.lastcmdentry
  if pos.2 < (s.cmdtable pos.1).length then
    Out.ok () { s with cmdtable := Function.update s.cmdtable pos.1 ((s.cmdtable pos.1).eraseIdx pos.2) }
  else
    Out.ok () s

/-- Embedding of `addcmdentry`. -/
def addcmdentry {W : Type} (E : Ext W) (name : String) (entry : CmdEntry) : M W Unit := do
  let cmdp ← cmdlookup name true
  match cmdp with
  | none => stopM Stop.fault
  | some pos =>
    let s ← getS
    match entryat s pos with
    | none => stopM Stop.fault
    | some e =>
      (match e.cmdtype, e.param with
       | CmdType.CMDFUNCTION, Param.func f => modW (E.freefunc f)
       | CmdType.CMDFUNCTION, Param.index _ => modW (E.freefunc none)
       | _, _ => pure ())
      modS (setentry pos (fun e => { e with cmdtype := entry.cmdtype, param := entry.u }))

/-- Embedding of `defun`; `copyfunc` yields a clone, equal as a tree. -/
def defun {W : Type} (E : Ext W) (name : String) (func : Option Node) : M W Unit :=
  addcmdentry E name { cmdtype := CmdType.CMDFUNCTION, u := Param.func func }

/-- Embedding of `find_builtin`: the code of the first table entry called `name`, or -1. -/
def find_builtin {W : Type} (E : Ext W) (name : String) : Int :=
  match E.builtincmd.find? (fun bp => bp.1 = name) with
  | some bp => bp.2
  | none => -1

/-- The C function `prefix(pfx, string)`: does `string` start with `pfx`. -/
def pfxmatch (pfx : List Char) (string : List Char) : Bool :=
  pfx.isPrefixOf string

/-- Embedding of `padvance`: from the rest of the path, the next candidate `elem/name`, the new
rest of the path (`none` for `NULL`) and the new value of `pathopt`. -/
def padvance (path : Option (List Char)) (name : String) :
    Option (String × Option (List Char) × Option String) :=
  match path with
  | none => none
  | some start =>
    let elem := start.takeWhile (fun c => c ≠ ':' ∧ c ≠ '%')
    let p := start.dropWhile (fun c => c ≠ ':' ∧ c ≠ '%')
    let q := if elem = [] then name else String.mk elem ++ "/" ++ name
    let pathopt : Option String :=
      match p with
      | '%' :: rest => some (String.mk rest)
      | _ => none
    let p2 :=
      match p with
      | '%' :: rest => rest.dropWhile (fun c => c ≠ ':')
      | _ => p
    match p2 with
    | ':' :: rest => some (q, some rest, pathopt)
    | _ => some (q, none, pathopt)

/-- The macro `S_ISREG` of `sys/stat.h`. -/
def S_ISREG (mode : Nat) : Bool := mode &&& 0o170000 == 0o100000

/-- The `success:` label of `find_command`: clear `rehash` and copy the entry out. -/
def find_command_success {W : Type} (cmdp : Option (Nat × Nat)) : M W CmdEntry := do
  match cmdp with
  | none => stopM Stop.fault
  | some pos =>
    modS (setentry pos (fun e => { e with rehash := false }))
    let s ← getS
    match entryat s pos with
    | none => stopM Stop.fault
    | some e => pure { cmdtype := e.cmdtype, u := e.param }

/-- Store a built-in or an external command in the cache and succeed. -/
def find_command_install {W : Type} (name : String) (cmdtype : CmdType) (i : Int) : M W CmdEntry := do
  let cmdp ← cmdlookup name true
  match cmdp with
  | none => stopM Stop.fault
  | some pos =>
    modS (setentry pos (fun e => { e with cmdtype := cmdtype, param := Param.index i }))
    find_command_success cmdp

/-- The path search of `find_command` (the code between `loop:` and the end of the `while`).
The result is `none` when the path is exhausted.  The bound is on the number of calls of
`padvance`: a path has at most one element more than it has characters, and one more call
finds it exhausted.  Each call of `stat` is counted in the ghost field `nstat`. -/
def find_command_loop {W : Type} (E : Ext W) (readcmdfile : String → M W Unit) (name : String)
    (cmdp : Option (Nat × Nat)) (prev : Int) :
    Nat → Option (List Char) → Int → Int → M W (Option CmdEntry × Int)
  | 0, _, _, _ => fun _ => Out.timeout
  | k + 1, path, index0, e0 =>
    match padvance path name with
    | none => pure (none, e0)
    | some (fullname, path1, pathopt) => do
      modS (fun s => { s with pathopt := pathopt })
      let index := index0 + 1
      let again (e : Int) : M W (Option CmdEntry × Int) :=
        find_command_loop E readcmdfile name cmdp prev k path1 index e
      let isbuiltin := match pathopt with
        | some o => pfxmatch "builtin".data o.data
        | none => false
      let isfunc := match pathopt with
        | some o => pfxmatch "func".data o.data
        | none => false
      if isbuiltin then
        let i := find_builtin E name
        if i < 0 then again e0
        else do
          let r ← find_command_install name CmdType.CMDBUILTIN i
          pure (some r, e0)
      else if pathopt.isSome ∧ ¬ isfunc then again e0
      else if fullname.data.head? = some '/' ∧ index ≤ prev then
        if index < prev then again e0
        else do
          let r ← find_command_success cmdp
          pure (some r, e0)
      else do
        let st ← (fun s => Out.ok (E.stat fullname s.world).1
            { s with world := (E.stat fullname s.world).2, nstat := s.nstat + 1 })
        match st with
        | Except.error errno =>
          again (if errno ≠ ENOENT ∧ errno ≠ ENOTDIR then errno else e0)
        | Except.ok statb =>
          if ¬ S_ISREG statb.st_mode then again EACCES
          else if pathopt.isSome then do
            readcmdfile fullname
            let cmdp1 ← cmdlookup name false
            let s ← getS
            match cmdp1 with
            | none => error
            | some pos =>
              match entryat s pos with
              | none => stopM Stop.fault
              | some ent =>
                if ent.cmdtype ≠ CmdType.CMDFUNCTION then error
                else do
                  let r ← find_command_success cmdp1
                  pure (some r, EACCES)
          else do
            let s ← getS
            let executable :=
              if statb.st_uid = E.geteuid s.world then statb.st_mode &&& 0o100 ≠ 0
              else if statb.st_gid = E.getegid s.world then statb.st_mode &&& 0o10 ≠ 0
              else statb.st_mode &&& 0o1 ≠ 0
            if ¬ executable then again EACCES
            else do
              let r ← find_command_install name CmdType.CMDNORMAL index
              pure (some r, EACCES)

/-- Embedding of `find_command`. -/
def find_command {W : Type} (E : Ext W) (readcmdfile : String → M W Unit) (name : String)
    (printerr : Bool) : M W CmdEntry := do
  if '/' ∈ name.data then
    pure { cmdtype := CmdType.CMDNORMAL, u := Param.index 0 }
  else
    let cmdp ← cmdlookup name false
    let s ← getS
    let found := cmdp.bind (entryat s)
    if (found.map (fun ent => ent.rehash)) = some false then
      find_command_success cmdp
    else if s.builtinloc < 0 ∧ find_builtin E name ≥ 0 then
      find_command_install name CmdType.CMDBUILTIN (find_builtin E name)
    else
      let prev : Int :=
        match found with
        | none => -1
        | some ent =>
          if ent.cmdtype = CmdType.CMDBUILTIN then s.builtinloc
          else match ent.param with
            | Param.index i => i
            | Param.func f => E.ptr_as_int f
      let path := (E.pathval s.world).data
      let r ← find_command_loop E readcmdfile name cmdp prev (path.length + 2) (some path) (-1) ENOENT
      match r with
      | (some ce, _) => pure ce
      | (none, e) =>
        (if found.isSome then delete_cmd_entry else pure ())
        (if printerr then modW (E.emit (Msg.cmderror name e)) else pure ())
        pure { cmdtype := CmdType.CMDUNKNOWN, u := Param.index 0 }

/-- The value read as `cmdp->param.index`; for an entry that holds a function it is the
pointer, read as an integer. -/
def param_index {W : Type} (E : Ext W) (p : Param) : Int :=
  match p with
  | Param.index i => i
  | Param.func f => E.ptr_as_int f

/-- The call `freefunc(cmdp->param.func)`. -/
def freeparam_func {W : Type} (E : Ext W) (p : Param) : M W Unit :=
  match p with
  | Param.func f => modW (E.freefunc f)
  | Param.index _ => modW (E.freefunc none)

/-- The condition under which `hashcd` and `hashcmd` treat an entry as depending on the path. -/
def pathbound {W : Type} (s : State W) (cmdp : TblEntry) : Bool :=
  decide (cmdp.cmdtype = CmdType.CMDNORMAL
    ∨ (cmdp.cmdtype = CmdType.CMDBUILTIN ∧ s.builtinloc ≥ 0))

/-- Embedding of `hashcd`, called by `cd`: mark the entries that depend on the path. -/
def hashcd {W : Type} : M W Unit :=
  modS (fun s => { s with
    cmdtable := fun b =>
      if b < CMDTABLESIZE then
        (s.cmdtable b).map (fun cmdp => if pathbound s cmdp then { cmdp with rehash := true } else cmdp)
      else s.cmdtable b })

/-- The condition under which `clearcmdentry` deletes an entry. -/
def cleared {W : Type} (E : Ext W) (s : State W) (firstchange : Int) (cmdp : TblEntry) : Bool :=
  decide ((cmdp.cmdtype = CmdType.CMDNORMAL ∧ param_index E cmdp.param ≥ firstchange)
    ∨ (cmdp.cmdtype = CmdType.CMDBUILTIN ∧ s.builtinloc ≥ firstchange))

/-- Embedding of `clearcmdentry`. -/
def clearcmdentry {W : Type} (E : Ext W) (firstchange : Int) : M W Unit :=
  modS (fun s => { s with
    cmdtable := fun b =>
      if b < CMDTABLESIZE then (s.cmdtable b).filter (fun cmdp => ! cleared E s firstchange cmdp)
      else s.cmdtable b })

/-- The loop of `changepath` over the characters of the new path; `old` and `new` are the
two pointers (the end of a list is the terminating NUL).  The result is `firstchange` and
`bltin`. -/
def changepath_loop : List Char → List Char → Int → Int → Int → Int × Int
  | old, [], index, firstchange, bltin =>
    (if old.head? ≠ none then (if old.head? = some ':' then index + 1 else index) else firstchange,
      bltin)
  | old, c :: rest, index, firstchange, bltin =>
    changepath_loop
      (if old.head? ≠ some c then rest else old.tail)
      rest
      (if c = ':' then index + 1 else index)
      (if old.head? ≠ some c then (if old.head? = none ∧ c = ':' then index + 1 else index)
        else firstchange)
      (if c = '%' ∧ bltin < 0 ∧ pfxmatch "builtin".data rest then index else bltin)

/-- Embedding of `changepath`, called before the variable `PATH` takes the value `newval`. -/
def changepath {W : Type} (E : Ext W) (newval : String) : M W Unit := do
  let s ← getS
  let r := changepath_loop (E.pathval s.world).data newval.data 0 9999 (-1)
  (if s.builtinloc < 0 ∧ r.2 ≥ 0 then modS (fun s => { s with builtinloc := r.2 }) else pure ())
  let s ← getS
  clearcmdentry E (if s.builtinloc ≥ 0 ∧ r.2 < 0 then 0 else r.1)
  modS (fun s => { s with builtinloc := r.2 })

/-- Embedding of `deletefuncs`: the functions are freed bucket by bucket, in chain order. -/
def deletefuncs {W : Type} (E : Ext W) : M W Unit :=
  modS (fun s => { s with
    world := (((List.range CMDTABLESIZE).flatMap s.cmdtable).filter
        (fun cmdp => decide (cmdp.cmdtype = CmdType.CMDFUNCTION))).foldl
      (fun w cmdp => match cmdp.param with
        | Param.func f => E.freefunc f w
        | Param.index _ => E.freefunc none w) s.world
    cmdtable := fun b =>
      if b < CMDTABLESIZE then
        (s.cmdtable b).filter (fun cmdp => decide (cmdp.cmdtype ≠ CmdType.CMDFUNCTION))
      else s.cmdtable b })

/-- Embedding of `unsetfunc`. -/
def unsetfunc {W : Type} (E : Ext W) (name : String) : M W Unit := do
  let cmdp ← cmdlookup name false
  let s ← getS
  match cmdp.bind (entryat s) with
  | none => pure ()
  | some e =>
    if e.cmdtype = CmdType.CMDFUNCTION then do
      freeparam_func E e.param
      delete_cmd_entry
    else pure ()

/-- The `do ... while (--index >= 0)` loop of `printentry`: `count` calls of `padvance`; the
result is the last `name` (`none` for `NULL`) and the value left in `pathopt`. -/
def printentry_path (cmdname : String) :
    Nat → Option (List Char) → Option String → Option String → Option String × Option String
  | 0, _, name, pathopt => (name, pathopt)
  | k + 1, path, _, pathopt =>
    match padvance path cmdname with
    | none => printentry_path cmdname k none none pathopt
    | some (q, path1, po) => printentry_path cmdname k path1 (some q) po

/-- Embedding of `printentry`; the line it prints is one message. -/
def printentry {W : Type} (E : Ext W) (cmdp : TblEntry) : M W Unit :=
  match cmdp.cmdtype with
  | CmdType.CMDNORMAL => do
    let s ← getS
    let r := printentry_path cmdp.cmdname ((param_index E cmdp.param).toNat + 1)
      (some (E.pathval s.world).data) none s.pathopt
    modS (fun s => { s with pathopt := r.2 })
    match r.1 with
    | none => stopM Stop.fault
    | some name => modW (E.emit (Msg.entry name cmdp.rehash))
  | CmdType.CMDBUILTIN => modW (E.emit (Msg.entry ("builtin " ++ cmdp.cmdname) cmdp.rehash))
  | CmdType.CMDFUNCTION => modW (E.emit (Msg.entry ("function " ++ cmdp.cmdname) cmdp.rehash))
  | CmdType.CMDUNKNOWN => modW (E.emit (Msg.entry "" cmdp.rehash))

/-- The loop of `hashcmd` that prints every entry. -/
def printentries {W : Type} (E : Ext W) : List TblEntry → M W Unit
  | [] => pure ()
  | cmdp :: rest => do
    printentry E cmdp
    printentries E rest

/-- The call `nextopt(optstring)` (options.c), which steps through the words `argptr` points to. -/
def nextopt {W : Type} (E : Ext W) (optstring : String) : M W Char := fun s =>
  match E.nextopt optstring s.argptr s.world with
  | Out.ok r w => Out.ok r.1 { s with argptr := r.2, world := w }
  | Out.stop x w => Out.stop x { s with world := w }
  | Out.timeout => Out.timeout

/-- The first loop of `hashcmd`, over the options; the result is `verbose`. -/
def hashcmd_opts {W : Type} (E : Ext W) : Nat → Nat → M W Nat
  | 0, _ => fun _ => Out.timeout
  | k + 1, verbose => do
    let c ← nextopt E "rv"
    if c = Char.ofNat 0 then pure verbose
    else if c = 'r' then do
      clearcmdentry E 0
      hashcmd_opts E k verbose
    else if c = 'v' then hashcmd_opts E k (verbose + 1)
    else hashcmd_opts E k verbose

/-- The second loop of `hashcmd`, over the names. -/
def hashcmd_names {W : Type} (E : Ext W) (readcmdfile : String → M W Unit) (verbose : Nat) :
    Nat → M W Unit
  | 0 => fun _ => Out.timeout
  | k + 1 => do
    let s ← getS
    match s.argptr with
    | [] => pure ()
    | name :: _ => do
      let cmdp ← cmdlookup name false
      let s ← getS
      (match cmdp.bind (entryat s) with
        | some e => if pathbound s e then delete_cmd_entry else pure ()
        | none => pure ())
      let entry ← find_command E readcmdfile name true
      (if verbose ≠ 0 ∧ entry.cmdtype ≠ CmdType.CMDUNKNOWN then do
          let cmdp ← cmdlookup name false
          let s ← getS
          match cmdp.bind (entryat s) with
          | some e => printentry E e
          | none => stopM Stop.fault
        else pure ())
      modS (fun s => { s with argptr := s.argptr.tail })
      hashcmd_names E readcmdfile verbose k

/-- Embedding of `hashcmd`, the built-in `hash`.  The bounds are on the number of options and
of names: no more than the words of the command have characters, and no more than it has
words. -/
def hashcmd {W : Type} (E : Ext W) (readcmdfile : String → M W Unit) (argv : List String) :
    M W Int := do
  if argv.length ≤ 1 then do
    let s ← getS
    printentries E ((List.range CMDTABLESIZE).flatMap s.cmdtable)
    pure 0
  else do
    let verbose ← hashcmd_opts E ((argv.map String.length).sum + 1) 0
    hashcmd_names E readcmdfile verbose (argv.length + 1)
    pure 0

/-! ## The evaluator (eval.c) and the command loop (main.c) -/

/-- The C call `number(s)`: the value of a numeric string, an error otherwise. -/
def number {W : Type} (E : Ext W) (txt : String) : M W Int :=
  match E.number txt with
  | some n => pure n
  | none => error

/-- Embedding of `bltincmd`. -/
def bltincmd {W : Type} (E : Ext W) (_argv : List String) : M W Int := do
  let s ← getS
  modW (E.listsetvar s.cmdenviron)
  pure s.exitstatus

/-- Embedding of `breakcmd`, the built-in behind both `break` and `continue`. -/
def breakcmd {W : Type} (E : Ext W) (argv : List String) : M W Int := do
  match argv with
  | [] => stopM Stop.fault
  | name :: rest =>
    let n0 ← (match rest with
      | [] => pure 1
      | a :: _ => number E a)
    let s ← getS
    let n := if n0 > s.loopnest then s.loopnest else n0
    (if n > 0 then
      modS (fun s => { s with
        evalskip := if name.data.head? = some 'c' then SKIPCONT else SKIPBREAK
        skipcount := n })
    else pure ())
    pure 0

/-- Embedding of `returncmd`. -/
def returncmd {W : Type} (E : Ext W) (argv : List String) : M W Int := do
  let s ← getS
  let ret ← (match argv with
    | _ :: a :: _ => number E a
    | _ => pure s.exitstatus)
  let s ← getS
  (if s.funcnest ≠ 0 then
    modS (fun s => { s with evalskip := SKIPFUNC, skipcount := 1 })
  else pure ())
  pure ret

/-- Embedding of `truecmd`. -/
def truecmd {W : Type} (_argv : List String) : M W Int := pure 0

/-- Embedding of `exitcmd` (main.c). -/
def exitcmd {W : Type} (E : Ext W) (argv : List String) : M W Int := do
  (match argv with
    | _ :: a :: _ => do
      let n ← number E a
      modS (fun s => { s with exitstatus := n })
    | _ => pure ())
  let s ← getS
  exitshell s.exitstatus

/-- Embedding of `tryexec`: it returns the error number when `execve` fails for a reason other
than `ENOEXEC`. -/
def tryexec {W : Type} (E : Ext W) (cmd : String) (argv envp : List String) : M W Int := fun s =>
  match E.execve cmd argv envp s.world with
  | (none, w) => Out.stop Stop.exec { s with world := w }
  | (some e, w) =>
    if e = ENOEXEC then
      (do E.shellproc cmd argv; stopM (Stop.raise EXSHELLPROC) : M W Int) { s with world := w }
    else Out.ok e { s with world := w }

/-- The `while` loop of `shellexec` over the elements of the path. -/
def shellexec_loop {W : Type} (E : Ext W) (argv envp : List String) (name : String) :
    Nat → Option (List Char) → Int → Int → M W Int
  | 0, _, _, _ => fun _ => Out.timeout
  | k + 1, path, index0, e0 =>
    match padvance path name with
    | none => pure e0
    | some (cmdname, path1, pathopt) => do
      modS (fun s => { s with pathopt := pathopt })
      let index := index0 - 1
      if index < 0 ∧ pathopt = none then
        let errno ← tryexec E cmdname argv envp
        shellexec_loop E argv envp name k path1 index
          (if errno ≠ ENOENT ∧ errno ≠ ENOTDIR then errno else e0)
      else
        shellexec_loop E argv envp name k path1 index e0

/-- Embedding of `shellexec`; it never returns. -/
def shellexec {W α : Type} (E : Ext W) (argv envp : List String) (path : String) (index : Int) :
    M W α := do
  match argv with
  | [] => stopM Stop.fault
  | name :: _ =>
    let e ← (if '/' ∈ name.data then tryexec E name argv envp
      else shellexec_loop E argv envp name (path.length + 2) (some path.data) index ENOENT)
    modW (E.emit (Msg.cmderror name e))
    error

/-- Embedding of `execcmd`. -/
def execcmd {W : Type} (E : Ext W) (argv : List String) : M W Int := do
  match argv with
  | _ :: a :: rest =>
    modS (fun s => { s with iflag := false })
    modW (E.setinteractive 0)
    let s ← getS
    shellexec E (a :: rest) (E.environment s.world) (E.pathval s.world) 0
  | _ => pure 0

/-- The loop of `evalstring`. -/
def evalstring_loop {W : Type} (E : Ext W) (ev : Option Node → Nat → M W Unit) : Nat → M W Unit
  | 0 => fun _ => Out.timeout
  | k + 1 => do
    let r ← E.parsecmd 0
    match r with
    | ParseResult.neof => pure ()
    | ParseResult.node n => do
      ev n 0
      evalstring_loop E ev k

/-- Embedding of `evalstring`. -/
def evalstring {W : Type} (E : Ext W) (ev : Option Node → Nat → M W Unit) (fuel : Nat)
    (str : String) : M W Unit := do
  modW (E.setinputstring str)
  evalstring_loop E ev fuel
  modW E.popfile

/-- Embedding of `evalcmd` (the version that joins its arguments with blanks). -/
def evalcmd {W : Type} (E : Ext W) (ev : Option Node → Nat → M W Unit) (fuel : Nat)
    (argv : List String) : M W Int := do
  (match argv with
    | _ :: a :: rest => evalstring E ev fuel (" ".intercalate (a :: rest))
    | _ => pure ())
  let s ← getS
  pure s.exitstatus

/-- The loop of `cmdloop`. -/
def cmdloop_iter {W : Type} (E : Ext W) (ev : Option Node → Nat → M W Unit) (top : Bool) :
    Nat → Int → M W Unit
  | 0, _ => fun _ => Out.timeout
  | k + 1, numeof => do
    let s ← getS
    (if E.sigpending s.world then E.dotrap else pure ())
    let s ← getS
    let inter := s.iflag ∧ top
    (if inter then modW (fun w => E.chkmail (E.showjobs w)) else pure ())
    let n ← E.parsecmd (if inter then 1 else 0)
    let s ← getS
    match n with
    | ParseResult.neof =>
      if s.bigIflag = false ∨ numeof ≥ 50 then pure ()
      else do
        modW (E.emit Msg.useexit)
        cmdloop_iter E ev top k (numeof + 1)
    | ParseResult.node none => cmdloop_iter E ev top k numeof
    | ParseResult.node (some nd) =>
      if s.nflag = false then do
        (if inter then do
            (if s.prevcmd.isSome then modW (E.freefunc s.prevcmd) else pure ())
            modS (fun s => { s with prevcmd := s.curcmd, curcmd := some nd })
          else pure ())
        ev (some nd) 0
        cmdloop_iter E ev top k numeof
      else cmdloop_iter E ev top k numeof

/-- Embedding of `cmdloop`; `copyfunc` yields a clone, equal as a tree. -/
def cmdloop {W : Type} (E : Ext W) (ev : Option Node → Nat → M W Unit) (fuel : Nat) (top : Bool) :
    M W Unit :=
  cmdloop_iter E ev top fuel 0

/-- Embedding of `readcmdfile` (main.c). -/
def readcmdfile {W : Type} (E : Ext W) (ev : Option Node → Nat → M W Unit) (fuel : Nat)
    (name : String) : M W Unit := do
  let s ← getS
  let fd := (E.openfile name s.world).1
  modW (fun w => (E.openfile name w).2)
  (if fd ≥ 0 then modW (E.setinputfd fd) else error)
  cmdloop E ev fuel false
  modW E.popfile

/-- Embedding of `dotcmd` (main.c). -/
def dotcmd {W : Type} (E : Ext W) (ev : Option Node → Nat → M W Unit) (fuel : Nat)
    (argv : List String) : M W Int := do
  modS (fun s => { s with exitstatus := 0 })
  (match argv with
    | _ :: a :: _ => do
      liftW (E.setinputfile a)
      modS (fun s => { s with commandname := some a })
      cmdloop E ev fuel false
      modW E.popfile
    | _ => pure ())
  let s ← getS
  pure s.exitstatus

/-- Embedding of `lccmd` (main.c), the built-in that runs the previous command again or makes
a function of it. -/
def lccmd {W : Type} (E : Ext W) (ev : Option Node → Nat → M W Unit) (argv : List String) :
    M W Int := do
  match argv with
  | _ :: a :: _ => do
    let s ← getS
    defun E a s.prevcmd
    pure 0
  | _ => do
    let s ← getS
    modW (E.freefunc s.curcmd)
    modS (fun s => { s with curcmd := s.prevcmd, prevcmd := none })
    let s ← getS
    ev s.curcmd 0
    let s ← getS
    pure s.exitstatus

/-- The call `(*builtinfunc[index])(argc, argv)`. -/
def callbuiltin {W : Type} (E : Ext W) (ev : Option Node → Nat → M W Unit) (fuel : Nat)
    (fn : BuiltinFn) (argv : List String) : M W Int :=
  match fn with
  | BuiltinFn.bltincmd => bltincmd E argv
  | BuiltinFn.breakcmd => breakcmd E argv
  | BuiltinFn.returncmd => returncmd E argv
  | BuiltinFn.truecmd => truecmd argv
  | BuiltinFn.evalcmd => evalcmd E ev fuel argv
  | BuiltinFn.execcmd => execcmd E argv
  | BuiltinFn.dotcmd => dotcmd E ev fuel argv
  | BuiltinFn.exitcmd => exitcmd E argv
  | BuiltinFn.lccmd => lccmd E ev argv
  | BuiltinFn.other k => E.builtin_other k argv

/-- The checks a loop makes on the skip marker after evaluating its test or its body (the same
four lines at each such place of `evalloop` and `evalfor`).  The result tells whether the loop
goes on with its next iteration (`continue`) or is left (`break`), and gives the new state. -/
def loopskip {W : Type} (s : State W) : Bool × State W :=
  if s.evalskip = SKIPCONT then
    if s.skipcount - 1 ≤ 0 then
      (true, { s with skipcount := s.skipcount - 1, evalskip := 0 })
    else
      (false, { s with skipcount := s.skipcount - 1 })
  else if s.evalskip = SKIPBREAK then
    if s.skipcount - 1 ≤ 0 then
      (false, { s with skipcount := s.skipcount - 1, evalskip := 0 })
    else
      (false, { s with skipcount := s.skipcount - 1 })
  else
    (false, s)

/-- The `for (;;)` loop of `evalloop`.  `status` is the C local of that name.  `trail` is a
ghost value with no counterpart in the C code: the exit statuses left by the evaluations of the
body so far, oldest first; nothing reads it. -/
def evalloop_iter {W : Type} (ev : Option Node → Nat → M W Unit) (type : BinType)
    (ch1 ch2 : Option Node) : Nat → Int → List Int → M W (Int × List Int)
  | 0, _, _ => fun _ => Out.timeout
  | k + 1, status, trail => do
    ev ch1 EV_TESTED
    let s ← getS
    if s.evalskip ≠ 0 then
      modS (fun s => (loopskip s).2)
      if (loopskip s).1 then evalloop_iter ev type ch1 ch2 k status trail
      else pure (status, trail)
    else if (if type = BinType.NWHILE then s.exitstatus ≠ 0 else s.exitstatus = 0) then
      pure (status, trail)
    else do
      ev ch2 0
      let s ← getS
      if s.evalskip ≠ 0 then
        modS (fun s => (loopskip s).2)
        if (loopskip s).1 then evalloop_iter ev type ch1 ch2 k s.exitstatus (trail ++ [s.exitstatus])
        else pure (s.exitstatus, trail ++ [s.exitstatus])
      else evalloop_iter ev type ch1 ch2 k s.exitstatus (trail ++ [s.exitstatus])

/-- Embedding of `evalloop`; the value returned is the ghost trail of `evalloop_iter`. -/
def evalloop {W : Type} (ev : Option Node → Nat → M W Unit) (fuel : Nat) (type : BinType)
    (ch1 ch2 : Option Node) : M W (List Int) := do
  modS (fun s => { s with loopnest := s.loopnest + 1 })
  let r ← evalloop_iter ev type ch1 ch2 fuel 0 []
  modS (fun s => { s with loopnest := s.loopnest - 1 })
  modS (fun s => { s with exitstatus := r.1 })
  pure r.2

/-- The first loop of `evalfor`: expand the words; `none` stands for the early `return` taken
when an expansion leaves the skip marker set. -/
def evalfor_args {W : Type} (E : Ext W) : List Word → List String → M W (Option (List String))
  | [], arglist => pure (some arglist)
  | argp :: rest, arglist => do
    let l ← E.expandarg_full argp
    let s ← getS
    if s.evalskip ≠ 0 then pure none
    else evalfor_args E rest (arglist ++ l)

/-- The second loop of `evalfor`: one iteration for each word. -/
def evalfor_loop {W : Type} (E : Ext W) (ev : Option Node → Nat → M W Unit) (var : String)
    (body : Option Node) : List String → M W Unit
  | [] => pure ()
  | text :: rest => do
    modW (E.setvar var text 0)
    ev body 0
    let s ← getS
    if s.evalskip ≠ 0 then
      modS (fun s => (loopskip s).2)
      if (loopskip s).1 then evalfor_loop E ev var body rest
      else pure ()
    else evalfor_loop E ev var body rest

/-- Embedding of `evalfor`. -/
def evalfor {W : Type} (E : Ext W) (ev : Option Node → Nat → M W Unit) (args : List Word)
    (body : Option Node) (var : String) : M W Unit := do
  let r ← evalfor_args E args []
  match r with
  | none => pure ()
  | some arglist =>
    modS (fun s => { s with exitstatus := 0 })
    modS (fun s => { s with loopnest := s.loopnest + 1 })
    evalfor_loop E ev var body arglist
    modS (fun s => { s with loopnest := s.loopnest - 1 })

/-- The inner loop of `evalcase` over the patterns of one arm; `true` stands for the `return`
taken at the first pattern that matches. -/
def evalcase_patterns {W : Type} (E : Ext W) (ev : Option Node → Nat → M W Unit) (text : String)
    (body : Option Node) (flags : Nat) : List Word → M W Bool
  | [] => pure false
  | patp :: rest => do
    let m ← E.casematch patp text
    if m then
      let s ← getS
      (if s.evalskip = 0 then ev body flags else pure ())
      pure true
    else evalcase_patterns E ev text body flags rest

/-- The outer loop of `evalcase` over the arms. -/
def evalcase_cases {W : Type} (E : Ext W) (ev : Option Node → Nat → M W Unit) (text : String)
    (flags : Nat) : List (List Word × Option Node) → M W Unit
  | [] => pure ()
  | cp :: rest => do
    let s ← getS
    if s.evalskip ≠ 0 then pure ()
    else
      let returned ← evalcase_patterns E ev text cp.2 flags cp.1
      if returned then pure ()
      else evalcase_cases E ev text flags rest

/-- Embedding of `evalcase`. -/
def evalcase {W : Type} (E : Ext W) (ev : Option Node → Nat → M W Unit) (expr : Word)
    (cases : List (List Word × Option Node)) (flags : Nat) : M W Unit := do
  let text ← E.expandarg_word expr
  evalcase_cases E ev text flags cases

/-- Embedding of `expredir`: the list with the expanded file names filled in. -/
def expredir {W : Type} (E : Ext W) : List Redir → M W (List Redir)
  | [] => pure []
  | redir :: rest => do
    let r ← (if redir.type = RedirType.NFROM ∨ redir.type = RedirType.NTO
        ∨ redir.type = RedirType.NAPPEND then do
        let t ← E.expandarg_word redir.fname
        pure { redir with expfname := some t }
      else pure redir)
    let rs ← expredir E rest
    pure (r :: rs)

/-- The call `makejob(n, nprocs)`. -/
def makejob {W : Type} (E : Ext W) (n : Option Node) (nprocs : Nat) : M W Nat := fun s =>
  Out.ok (E.makejob n nprocs s.world).1 { s with world := (E.makejob n nprocs s.world).2 }

/-- The statements `INTOFF; exitstatus = waitforjob(jp); INTON;`. -/
def waitjob {W : Type} (E : Ext W) (jp : Nat) : M W Unit := do
  let st ← liftW (E.waitforjob jp)
  modS (fun s => { s with exitstatus := st })

/-- Embedding of `evalsubshell`; `flags &= ~EV_TESTED` is written with an exclusive or. -/
def evalsubshell {W : Type} (E : Ext W) (ev : Option Node → Nat → M W Unit) (type : RedirNodeType)
    (n : Option Node) (redirect : List Redir) (flags : Nat) : M W Unit := do
  let backgnd := type = RedirNodeType.NBACKGND
  let redirs ← expredir E redirect
  let jp ← makejob E (some (Node.nredir type n redirect)) 1
  let pid ← liftW (E.forkshell jp (some (Node.nredir type n redirect)) (if backgnd then 1 else 0))
  (if pid = 0 then do
    liftW (E.redirect redirs 0)
    ev n ((if backgnd then flags ^^^ (flags &&& EV_TESTED) else flags) ||| EV_EXIT)
  else pure ())
  (if ¬ backgnd then waitjob E jp else pure ())

/-- Embedding of `prehash`. -/
def prehash {W : Type} (E : Ext W) (rcf : String → M W Unit) (n : Option Node) : M W Unit :=
  match n with
  | none => stopM Stop.fault
  | some (Node.ncmd _ [] _) => stopM Stop.fault
  | some (Node.ncmd _ (arg :: _) _) =>
    if E.goodname arg.text then do
      let _ ← find_command E rcf arg.text false
      pure ()
    else pure ()
  | some _ => pure ()

/-- The statements of a pipeline stage that copy a descriptor `fd` onto `target`. -/
def movefd {W : Type} (E : Ext W) (fd target : Int) : M W Unit :=
  modW (fun w => E.close fd (E.copyfd fd target (E.close target w)))

/-- The loop of `evalpipe` over the stages; `prevfd` and `pip0` are the C variables `prevfd`
and `pip[0]`. -/
def evalpipe_loop {W : Type} (E : Ext W) (rcf : String → M W Unit) (ev : Option Node → Nat → M W Unit)
    (jp : Nat) (backgnd : Int) : List (Option Node) → Int → Int → M W Unit
  | [], _, _ => pure ()
  | n :: rest, prevfd, pip0 => do
    prehash E rcf n
    let pip ← (if rest.isEmpty = false then do
        let s ← getS
        modW (fun w => (E.pipe w).2)
        match (E.pipe s.world).1 with
        | none => do
          (if prevfd ≥ 0 then modW (E.close prevfd) else pure ())
          error
        | some fds => pure fds
      else pure (pip0, -1))
    let pid ← liftW (E.forkshell jp n backgnd)
    (if pid = 0 then do
      (if prevfd > 0 then movefd E prevfd 0 else pure ())
      (if pip.2 ≥ 0 then do
        modW (E.close pip.1)
        (if pip.2 ≠ 1 then movefd E pip.2 1 else pure ())
      else pure ())
      ev n EV_EXIT
    else pure ())
    (if prevfd ≥ 0 then modW (E.close prevfd) else pure ())
    (if pip.2 ≥ 0 then modW (E.close pip.2) else pure ())
    evalpipe_loop E rcf ev jp backgnd rest pip.1 pip.1

/-- Embedding of `evalpipe`; `pip[0]` is not initialised by the C code, the value 0 stands
for whatever it holds. -/
def evalpipe {W : Type} (E : Ext W) (rcf : String → M W Unit) (ev : Option Node → Nat → M W Unit)
    (backgnd : Int) (cmdlist : List (Option Node)) : M W Unit := do
  let jp ← makejob E (some (Node.npipe backgnd cmdlist)) cmdlist.length
  evalpipe_loop E rcf ev jp backgnd cmdlist (-1) 0
  (if backgnd = 0 then waitjob E jp else pure ())

/-- The test `is_name(*p)`, then `p++` while `is_in_name(*p)`, then `*p == '='` made by
`evalcommand` on the raw text of a word (both macros are false on the terminating NUL). -/
def isassign {W : Type} (E : Ext W) (text : List Char) : Bool :=
  match text with
  | [] => false
  | c :: rest => E.is_name c && decide ((rest.dropWhile E.is_in_name).head? = some '=')

/-- The first loop of `evalcommand`: expand the words into `arglist` and `varlist`. -/
def evalcommand_args {W : Type} (E : Ext W) :
    List Word → Bool → List String → List String → M W (List String × List String)
  | [], _, arglist, varlist => pure (arglist, varlist)
  | argp :: rest, varflag, arglist, varlist =>
    if varflag && isassign E argp.text.data then do
      let t ← E.expandarg_word argp
      evalcommand_args E rest varflag arglist (varlist ++ [t])
    else do
      let l ← E.expandarg_full argp
      evalcommand_args E rest false (arglist ++ l) varlist

/-- The loop of `evalcommand` that steps over leading `bltin` words; the argument is `argv`
before `argv++`.  The result is the index found and the new `argv`, or the name that is not a
built-in. -/
def evalcommand_bltin {W : Type} (E : Ext W) : List String → Except String (Int × List String)
  | [] => Except.ok (E.BLTINCMD, [])
  | _ :: tl =>
    match tl with
    | [] => Except.ok (E.BLTINCMD, [])
    | a :: _ =>
      if find_builtin E a < 0 then Except.error a
      else if find_builtin E a ≠ E.BLTINCMD then Except.ok (find_builtin E a, tl)
      else evalcommand_bltin E tl

/-- The value of `cmdentry.u.index`. -/
def entry_index {W : Type} (E : Ext W) (c : CmdEntry) : Int :=
  match c.u with
  | Param.index i => i
  | Param.func f => E.ptr_as_int f

/-- The part of `evalcommand` that finds the command: `none` stands for the early `return`
taken when the command is not found. -/
def evalcommand_resolve {W : Type} (E : Ext W) (rcf : String → M W Unit) (argv : List String) :
    M W (Option (CmdEntry × List String)) :=
  match argv with
  | [] => pure (some ({ cmdtype := CmdType.CMDBUILTIN, u := Param.index E.BLTINCMD }, []))
  | name :: _ => do
    let cmdentry ← find_command E rcf name true
    if cmdentry.cmdtype = CmdType.CMDUNKNOWN then do
      modS (fun s => { s with exitstatus := 2 })
      pure none
    else if cmdentry.cmdtype = CmdType.CMDBUILTIN ∧ entry_index E cmdentry = E.BLTINCMD then
      match evalcommand_bltin E argv with
      | Except.error a => do
        modW (E.emit (Msg.notfound a))
        modS (fun s => { s with exitstatus := 2 })
        pure none
      | Except.ok (i, argv1) => pure (some ({ cmdentry with u := Param.index i }, argv1))
    else pure (some (cmdentry, argv))

/-- The statement `if (lastarg) setvar("_", lastarg, 0);`. -/
def setlastarg {W : Type} (E : Ext W) (lastarg : Option String) : M W Unit :=
  match lastarg with
  | some a => modW (E.setvar "_" a 0)
  | none => pure ()

/-- The condition under which `evalcommand` forks. -/
def forkcond {W : Type} (E : Ext W) (backgnd : Int) (flags : Nat) (cmdentry : CmdEntry) : Prop :=
  backgnd ≠ 0
  ∨ (cmdentry.cmdtype = CmdType.CMDNORMAL ∧ flags &&& EV_EXIT = 0)
  ∨ (flags &&& EV_BACKCMD ≠ 0
      ∧ (cmdentry.cmdtype ≠ CmdType.CMDBUILTIN ∨ entry_index E cmdentry = E.DOTCMD
          ∨ entry_index E cmdentry = E.EVALCMD))

instance {W : Type} (E : Ext W) (backgnd : Int) (flags : Nat) (cmdentry : CmdEntry) :
    Decidable (forkcond E backgnd flags cmdentry) := by
  unfold forkcond; infer_instance

/-- The block of `evalcommand` entered when it forks.  `Sum.inl` stands for the `return` in the
parent, `Sum.inr` carries the flags with which the child goes on. -/
def evalcommand_fork {W : Type} (E : Ext W) (cmd : Node) (backgnd : Int) (flags : Nat)
    (backcmd : Option BackCmd) (lastarg : Option String) : M W (Sum (Option BackCmd) Nat) := do
  let jp ← makejob E (some cmd) 1
  let s ← getS
  let mp ← (if flags &&& EV_BACKCMD ≠ 0 then do
      modW (fun w => (E.pipe w).2)
      match (E.pipe s.world).1 with
      | none => error
      | some fds => pure (FORK_NOJOB, some fds)
    else pure (backgnd, none) : M W (Int × Option (Int × Int)))
  let pid ← liftW (E.forkshell jp (some cmd) mp.1)
  if pid ≠ 0 then do
    let bc ← (if mp.1 = 0 then do
        waitjob E jp
        pure backcmd
      else if mp.1 = 2 then
        match backcmd, mp.2 with
        | some b, some fds => do
          modW (E.close fds.2)
          pure (some { b with fd := fds.1, jp := some jp })
        | _, _ => stopM Stop.fault
      else pure backcmd : M W (Option BackCmd))
    setlastarg E lastarg
    pure (Sum.inl bc)
  else do
    (if flags &&& EV_BACKCMD ≠ 0 then
      match mp.2 with
      | some fds => do
        modW (E.close fds.1)
        (if fds.2 ≠ 1 then movefd E fds.2 1 else pure ())
      | none => stopM Stop.fault
    else pure ())
    pure (Sum.inr (flags ||| EV_EXIT))

/-- The pair `setjmp` / `longjmp`: run `body`; when it raises an exception, go on with
`handler` from the state in which it was raised. -/
def trycatch {W α : Type} (body : M W α) (handler : Int → M W α) : M W α := fun s =>
  match body s with
  | Out.stop (Stop.raise e) s1 => handler e s1
  | r => r

/-- The loop `for (sp = varlist.list; sp; sp = sp->next) mklocal(sp->text);`. -/
def mklocals {W : Type} (E : Ext W) : List String → M W Unit
  | [] => pure ()
  | text :: rest => do
    let s ← getS
    let lv ← liftW (E.mklocal text s.localvars)
    modS (fun s => { s with localvars := lv })
    mklocals E rest

/-- The statements `poplocalvars(); localvars = savelocalvars;`. -/
def poplocals {W : Type} (E : Ext W) (savelocalvars : List String) : M W Unit :=
  modS (fun s => { s with world := E.poplocalvars s.localvars s.world, localvars := savelocalvars })

/-- The branch of `evalcommand` that calls a shell function. -/
def evalcommand_function {W : Type} (E : Ext W) (ev : Option Node → Nat → M W Unit)
    (redirs : List Redir) (flags : Nat) (func : Option Node) (argv varlist : List String) :
    M W Unit := do
  liftW (E.redirect redirs REDIR_PUSH)
  let s0 ← getS
  modS (fun s => { s with
    shellparam := { nparam := (argv.length : Int) - 1, malloc := false, p := argv.tail, optnext := none } })
  modS (fun s => { s with localvars := [] })
  trycatch
    (do
      mklocals E varlist
      modS (fun s => { s with funcnest := s.funcnest + 1 })
      ev func 0
      modS (fun s => { s with funcnest := s.funcnest - 1 }))
    (fun e => do
      (if e = EXSHELLPROC then pure ()
        else modS (fun s => { s with shellparam := s0.shellparam }))
      poplocals E s0.localvars
      stopM (Stop.raise e))
  poplocals E s0.localvars
  modS (fun s => { s with shellparam := s0.shellparam })
  modW E.popredir
  let s ← getS
  (if s.evalskip = SKIPFUNC then modS (fun s => { s with evalskip := 0, skipcount := 0 })
    else pure ())
  (if flags &&& EV_EXIT ≠ 0 then do
      let s ← getS
      exitshell s.exitstatus
    else pure ())

/-- The branch of `evalcommand` that runs a built-in. -/
def evalcommand_builtin {W : Type} (E : Ext W) (ev : Option Node → Nat → M W Unit) (fuel : Nat)
    (redirs : List Redir) (flags : Nat) (backcmd : Option BackCmd) (index : Int)
    (argv varlist : List String) : M W (Option BackCmd) := do
  (if flags = EV_BACKCMD then modW E.memout_reset else pure ())
  liftW (E.redirect redirs
    ((if index = E.EXECCMD then 0 else REDIR_PUSH) ||| (if flags = EV_BACKCMD then REDIR_BACKQ else 0)))
  let s0 ← getS
  modS (fun s => { s with cmdenviron := varlist })
  let e ← trycatch
    (do
      modS (fun s => { s with commandname := argv.head?, argptr := argv.tail })
      let st ← callbuiltin E ev fuel (E.builtinfunc index) argv
      modS (fun s => { s with exitstatus := st })
      pure (-1))
    (fun e => do
      modS (fun s => { s with exitstatus := if e = EXINT then SIGINT + 128 else 2 })
      pure e)
  modW E.freestdout
  (if e ≠ EXSHELLPROC then do
      modS (fun s => { s with commandname := s0.commandname })
      (if flags &&& EV_EXIT ≠ 0 then do
          let s ← getS
          exitshell s.exitstatus
        else pure ())
    else pure ())
  (if e ≠ -1 then
      (if e ≠ EXERROR ∨ index = E.BLTINCMD ∨ index = E.DOTCMD ∨ index = E.EVALCMD
          ∨ index = E.EXECCMD then E.raise e
        else pure ())
    else pure ())
  (if index ≠ E.EXECCMD then modW E.popredir else pure ())
  if flags = EV_BACKCMD then
    match backcmd with
    | none => stopM Stop.fault
    | some b => do
      let s ← getS
      modW (fun w => (E.memout_take w).2)
      pure (some { b with buf := some (E.memout_take s.world).1.1, nleft := (E.memout_take s.world).1.2 })
  else pure backcmd

/-- The branch of `evalcommand` that executes a program; it never returns. -/
def evalcommand_normal {W α : Type} (E : Ext W) (redirs : List Redir) (index : Int)
    (argv varlist : List String) : M W α := do
  modW E.clearredir
  liftW (E.redirect redirs 0)
  let s ← getS
  modW (fun w => varlist.foldl (fun w text => E.setvareq text (E.VEXPORT ||| E.VSTACK) w) w)
  let s1 ← getS
  shellexec E argv (E.environment s1.world) (E.pathval s.world) index

/-- Embedding of `evalcommand`.  The C function stores its result through the pointer
`backcmd`; here the structure is passed in (`none` for `NULL`) and returned. -/
def evalcommand {W : Type} (E : Ext W) (ev : Option Node → Nat → M W Unit) (fuel : Nat)
    (backgnd : Int) (args : List Word) (redirect : List Redir) (flags : Nat)
    (backcmd : Option BackCmd) : M W (Option BackCmd) := do
  let av ← evalcommand_args E args true [] []
  let redirs ← expredir E redirect
  let s ← getS
  let lastarg := if s.iflag ∧ s.funcnest = 0 then av.1.getLast? else none
  (if s.xflag then modW (E.emit (Msg.xtrace av.2 av.1)) else pure ())
  let r ← evalcommand_resolve E (readcmdfile E ev fuel) av.1
  match r with
  | none => pure backcmd
  | some (cmdentry, argv) =>
    let fk ← (if forkcond E backgnd flags cmdentry then
        evalcommand_fork E (Node.ncmd backgnd args redirect) backgnd flags backcmd lastarg
      else pure (Sum.inr flags))
    match fk with
    | Sum.inl bc => pure bc
    | Sum.inr flags1 =>
      let bc ← (match cmdentry.cmdtype, cmdentry.u with
        | CmdType.CMDFUNCTION, Param.func func => do
          evalcommand_function E ev redirs flags1 func argv av.2
          pure backcmd
        | CmdType.CMDFUNCTION, Param.index _ => stopM Stop.fault
        | CmdType.CMDBUILTIN, _ =>
          evalcommand_builtin E ev fuel redirs flags1 backcmd (entry_index E cmdentry) argv av.2
        | _, _ => evalcommand_normal E redirs (entry_index E cmdentry) argv av.2)
      setlastarg E lastarg
      pure bc

/-- The `switch` of `evaltree`: the work done for each node type.  `ev` is `evaltree` itself
for the recursive calls and `fuel` bounds the loops. -/
def evalswitch {W : Type} (E : Ext W) (ev : Option Node → Nat → M W Unit) (fuel : Nat)
    (n : Node) (flags : Nat) : M W Unit :=
  match n with
  | Node.nbinary BinType.NSEMI ch1 ch2 => do
    ev ch1 0
    let s ← getS
    if s.evalskip = 0 then ev ch2 flags else pure ()
  | Node.nbinary BinType.NAND ch1 ch2 => do
    ev ch1 EV_TESTED
    let s ← getS
    if s.evalskip = 0 ∧ s.exitstatus = 0 then ev ch2 flags else pure ()
  | Node.nbinary BinType.NOR ch1 ch2 => do
    ev ch1 EV_TESTED
    let s ← getS
    if s.evalskip = 0 ∧ s.exitstatus ≠ 0 then ev ch2 flags else pure ()
  | Node.nredir RedirNodeType.NREDIR n1 redirect => do
    let redirs ← expredir E redirect
    liftW (E.redirect redirs REDIR_PUSH)
    ev n1 flags
    modW E.popredir
  | Node.nredir type n1 redirect => evalsubshell E ev type n1 redirect flags
  | Node.nif test ifpart elsepart => do
    ev test EV_TESTED
    let s ← getS
    if s.evalskip = 0 then
      if s.exitstatus = 0 then ev ifpart flags
      else if elsepart.isSome then ev elsepart flags
      else pure ()
    else pure ()
  | Node.nbinary type ch1 ch2 => do
    let _ ← evalloop ev fuel type ch1 ch2
    pure ()
  | Node.nfor args body var => evalfor E ev args body var
  | Node.ncase expr cases => evalcase E ev expr cases flags
  | Node.ndefun text body => do
    defun E text body
    modS (fun s => { s with exitstatus := 0 })
  | Node.npipe backgnd cmdlist => evalpipe E (readcmdfile E ev fuel) ev backgnd cmdlist
  | Node.ncmd backgnd args redirect => do
    let _ ← evalcommand E ev fuel backgnd args redirect flags none
    pure ()
  | Node.nother type => modW (E.emit (Msg.nodetype type))

/-- The checks at the end of `evaltree`, made when the `switch` has finished: pending traps,
then `EV_EXIT` and the `-e` flag. -/
def evalboundary {W : Type} (E : Ext W) (flags : Nat) : M W Unit := do
  let s ← getS
  (if s.pendingsig ≠ 0 then E.dotrap else pure ())
  let s ← getS
  if flags &&& EV_EXIT ≠ 0 ∨ (s.eflag = true ∧ s.exitstatus ≠ 0 ∧ flags &&& EV_TESTED = 0) then
    exitshell s.exitstatus
  else pure ()

/-- Embedding of `evaltree`.  The first argument bounds the depth of the recursion and the
number of iterations of each loop. -/
def evaltree {W : Type} (E : Ext W) : Nat → Option Node → Nat → M W Unit
  | _, none, _ => pure ()
  | 0, some _, _ => fun _ => Out.timeout
  | k + 1, some n, flags => do
    evalswitch E (evaltree E k) k n flags
    evalboundary E flags

/-- The part of `reset()` that eval.c contributes (its `RESET` block), run by `main` after an
exception has unwound to the top level. -/
def reset {W : Type} (s : State W) : State W :=
  { s with evalskip := 0, loopnest := 0, funcnest := 0 }

/-! ## The input routines (input.c)

The routines read characters for the parser.  The macro `pgetc_macro` behind `pgetc` is
defined in input.h, which is not among the sources; it is taken to be
`--parsenleft >= 0 ? *parsenextc++ : preadbuffer()`, the statement `preadbuffer` itself uses
for a string that was pushed back.  The blocks under `#ifdef BSD` and `#ifdef SYSV` are not
compiled.  A character is the number of its byte: the conversion of a `char` to the `int`
that is returned is not modelled, and `none` stands for `PEOF`, which input.h defines. -/

/-- Value of `parsenleft` when EOF has been pushed back. -/
def EOF_NLEFT : Int := -99

/-- Errno value: interrupted system call. -/
def EINTR : Int := 4

/-- What one call of `read` (or of `input_readline`) yields: the bytes it has put at the start
of the buffer, their number being the value returned (none of them for end of file), or a
failure with an error number (the value returned is negative). -/
inductive ReadResult where
  | got (bytes : List Nat)
  | fail (errno : Int)
deriving DecidableEq

/-- What the input routines call: `read`, `isatty(0)`, the line editor `input_readline` (which
reads the terminal) and the two calls of `flushout`. -/
structure InExt (W : Type) where
  read : Int → W → ReadResult × W
  isatty0 : W → Bool
  input_readline : W → ReadResult × W
  flushout : W → W

/-- A pointer to characters: into a string (`mem` is its text; a NUL follows) or, for `none`,
into the buffer `parsefile->buf`; `off` is the offset. -/
structure Ptr where
  mem : Option (List Nat)
  off : Int
deriving DecidableEq

/-- The variables of input.c, with the fields `fd` and `buf` of the current `parsefile`. -/
structure InState (W : Type) where
  parsenleft : Int
  parsenextc : Ptr
  pushedstring : Option Ptr
  pushednleft : Int
  fd : Int
  buf : Option (List Nat)
  world : W

/-- The character a pointer points to. -/
def InState.deref {W : Type} (st : InState W) (p : Ptr) : Nat :=
  match p.mem with
  | some t => if 0 ≤ p.off then t.getD p.off.toNat 0 else 0
  | none =>
    match st.buf with
    | some b => if 0 ≤ p.off then b.getD p.off.toNat 0 else 0
    | none => 0

/-- The statement `return *parsenextc++;`. -/
def nextchar {W : Type} (st : InState W) : Out (InState W) (Option Nat) :=
  Out.ok (some (st.deref st.parsenextc))
    { st with parsenextc := { st.parsenextc with off := st.parsenextc.off + 1 } }

/-- The first loop of `preadbuffer` over the buffer `b`, from the position `p` with `i` bytes
left: `none` stands for the `return` taken when there is no NUL, otherwise the result is `p`
and `i` at the `break`. -/
def nulscan (b : List Nat) : Nat → Nat → Int → Option (Nat × Int)
  | 0, _, _ => none
  | k + 1, p, i =>
    if b.getD p 0 = 0 then some (p + 1, i)
    else if i - 1 ≤ 0 then none
    else nulscan b k (p + 1) (i - 1)

/-- The second loop of `preadbuffer`, `while (--i > 0)`: the bytes other than NUL are moved
down to `q`; the result is the buffer and `q`. -/
def nulcopy : Nat → List Nat → Nat → Nat → Int → List Nat × Nat
  | 0, b, _, q, _ => (b, q)
  | k + 1, b, p, q, i =>
    if i - 1 > 0 then
      if b.getD p 0 ≠ 0 then nulcopy k (b.set q (b.getD p 0)) (p + 1) (q + 1) (i - 1)
      else nulcopy k b (p + 1) q (i - 1)
    else (b, q)

/-- The read after the label `retry` of `preadbuffer`: `input_readline` for a terminal on
descriptor 0, `read` otherwise. -/
def readsource {W : Type} (R : InExt W) (fd : Int) (w : W) : ReadResult × W :=
  if fd = 0 ∧ R.isatty0 w = true then R.input_readline w else R.read fd w

/-- The part of `preadbuffer` from the label `retry` on; the first argument bounds the number
of calls of `read`. -/
def preadbuffer_fill {W : Type} (R : InExt W) : Nat → InState W → Out (InState W) (Option Nat)
  | 0, _ => Out.timeout
  | k + 1, st =>
    let r := readsource R st.fd st.world
    match r.1 with
    | ReadResult.fail errno =>
      if errno = EINTR then
        preadbuffer_fill R k { st with parsenextc := { mem := none, off := 0 }, world := r.2 }
      else
        Out.ok none { st with parsenextc := { mem := none, off := 0 }, world := r.2,
                              parsenleft := EOF_NLEFT }
    | ReadResult.got bytes =>
      if bytes.length = 0 then
        Out.ok none { st with parsenextc := { mem := none, off := 0 }, world := r.2,
                              parsenleft := EOF_NLEFT }
      else
        match nulscan (bytes ++ (st.buf.getD []).drop bytes.length) bytes.length 0 bytes.length with
        | none =>
          nextchar { st with parsenextc := { mem := none, off := 0 }, world := r.2,
                             buf := some (bytes ++ (st.buf.getD []).drop bytes.length),
                             parsenleft := (bytes.length : Int) - 1 }
        | some (p, i) =>
          if (nulcopy i.toNat (bytes ++ (st.buf.getD []).drop bytes.length) p (p - 1) i).2 = 0 then
            preadbuffer_fill R k { st with
              parsenextc := { mem := none, off := 0 }, world := r.2,
              buf := some (nulcopy i.toNat (bytes ++ (st.buf.getD []).drop bytes.length) p (p - 1) i).1,
              parsenleft := (bytes.length : Int) - 1 }
          else
            nextchar { st with
              parsenextc := { mem := none, off := 0 }, world := r.2,
              buf := some (nulcopy i.toNat (bytes ++ (st.buf.getD []).drop bytes.length) p (p - 1) i).1,
              parsenleft :=
                ((nulcopy i.toNat (bytes ++ (st.buf.getD []).drop bytes.length) p (p - 1) i).2 : Int) - 1 }

/-- The part of `preadbuffer` after the pushed-back string has been dealt with. -/
def preadbuffer_read {W : Type} (R : InExt W) (fuel : Nat) (st : InState W) :
    Out (InState W) (Option Nat) :=
  if st.parsenleft = EOF_NLEFT ∨ st.buf = none then Out.ok none st
  else preadbuffer_fill R fuel { st with world := R.flushout (R.flushout st.world) }

/-- Embedding of `preadbuffer`; `none` stands for `PEOF`. -/
def preadbuffer {W : Type} (R : InExt W) (fuel : Nat) (st : InState W) :
    Out (InState W) (Option Nat) :=
  match st.pushedstring with
  | some ps =>
    if st.pushednleft - 1 ≥ 0 then
      nextchar { st with parsenextc := ps, pushedstring := none, parsenleft := st.pushednleft - 1 }
    else
      preadbuffer_read R fuel
        { st with parsenextc := ps, pushedstring := none, parsenleft := st.pushednleft - 1 }
  | none => preadbuffer_read R fuel st

/-- Embedding of `pgetc`, that is, of the macro `pgetc_macro`. -/
def pgetc {W : Type} (R : InExt W) (fuel : Nat) (st : InState W) : Out (InState W) (Option Nat) :=
  if st.parsenleft - 1 ≥ 0 then nextchar { st with parsenleft := st.parsenleft - 1 }
  else preadbuffer R fuel { st with parsenleft := st.parsenleft - 1 }

/-- Embedding of `pungetc`. -/
def pungetc {W : Type} (st : InState W) : InState W :=
  { st with parsenleft := st.parsenleft + 1,
            parsenextc := { st.parsenextc with off := st.parsenextc.off - 1 } }

/-- Embedding of `ppushback`. -/
def ppushback {W : Type} (string : List Nat) (length : Int) (st : InState W) : InState W :=
  { st with pushedstring := some st.parsenextc, pushednleft := st.parsenleft,
            parsenextc := { mem := some string, off := 0 }, parsenleft := length }

/-- Embedding of `setinputstring(string, 0)`; `strlen` stops at the first NUL. -/
def setinputstring {W : Type} (string : List Nat) (st : InState W) : InState W :=
  { st with parsenextc := { mem := some string, off := 0 },
            parsenleft := ((string.takeWhile (fun c => decide (c ≠ 0))).length : Int), buf := none }

/-- Embedding of `setinputfd(fd, 0)`; `close` and `ckmalloc` are left to the world and the fresh
buffer is empty. -/
def setinputfd {W : Type} (fd : Int) (st : InState W) : InState W :=
  { st with fd := fd, buf := some (st.buf.getD []), parsenleft := 0 }

/-- `n` calls of `pgetc` in a row: the characters they return. -/
def pgetcs {W : Type} (R : InExt W) (fuel : Nat) : Nat → InState W → Out (InState W) (List (Option Nat))
  | 0, st => Out.ok [] st
  | n + 1, st =>
    (pgetc R fuel st).andThen fun c st1 =>
      (pgetcs R fuel n st1).andThen fun cs st2 => Out.ok (c :: cs) st2

/-- A world for the input routines: the results the coming calls of `read` will have; once
they are used up `read` reports the end of the file. -/
def scriptIn : InExt (List ReadResult) where
  read := fun _ w => (w.headD (ReadResult.got []), w.tail)
  isatty0 := fun _ => false
  input_readline := fun w => (w.headD (ReadResult.got []), w.tail)
  flushout := fun w => w

/-- A file source that has not read anything yet, in the world `w`. -/
def fileSource (w : List ReadResult) : InState (List ReadResult) where
  parsenleft := 0
  parsenextc := { mem := none, off := 0 }
  pushedstring := none
  pushednleft := 0
  fd := 10
  buf := some []
  world := w

/-- What a run of the input routines is observed by: the value returned, `parsenleft`, the
offset of `parsenextc` and the world. -/
def observeIn {α : Type} (r : Out (InState (List ReadResult)) α) :
    Option (α × Int × Int × List ReadResult) :=
  match r with
  | Out.ok a st => some (a, st.parsenleft, st.parsenextc.off, st.world)
  | _ => none

/-! ## Notions used to state the claims -/

/-- Spec of the `For` row: for each word in order, assign it to the variable and evaluate the
body. -/
def forRuns {W : Type} (E : Ext W) (ev : Option Node → Nat → M W Unit) (var : String)
    (body : Option Node) : List String → M W Unit
  | [] => pure ()
  | text :: rest => do
    modW (E.setvar var text 0)
    ev body 0
    forRuns E ev var body rest

/-- Along the iterations of a `for` loop over `words` that start in state `s`, every evaluation
of the body that returns satisfies `P before after`. -/
def ForBodies {W : Type} (E : Ext W) (ev : Option Node → Nat → M W Unit) (var : String)
    (body : Option Node) (P : State W → State W → Prop) : List String → State W → Prop
  | [], _ => True
  | text :: rest, s =>
    ∀ s2, ev body 0 { s with world := E.setvar var text 0 s.world } = Out.ok () s2 →
      P { s with world := E.setvar var text 0 s.world } s2 ∧ ForBodies E ev var body P rest s2

/-- Executable form of `ForBodies` for a property given as a Boolean function. -/
def ForBodies.check {W : Type} (E : Ext W) (ev : Option Node → Nat → M W Unit) (var : String)
    (body : Option Node) (P : State W → State W → Bool) : List String → State W → Bool
  | [], _ => true
  | text :: rest, s =>
    match ev body 0 { s with world := E.setvar var text 0 s.world } with
    | Out.ok _ s2 =>
      P { s with world := E.setvar var text 0 s.world } s2 && ForBodies.check E ev var body P rest s2
    | _ => true

/-- Spec of the `Case` row: the patterns in the order in which they are tried, arms top to
bottom and the patterns of an arm left to right, each with the body of its arm. -/
def caseAlternatives (cases : List (List Word × Option Node)) : List (Word × Option Node) :=
  cases.flatMap (fun cp => cp.1.map (fun patp => (patp, cp.2)))

/-- Spec of the `Case` row: try the alternatives in order and stop at the first pattern that
matches; the result is the body it selects, `none` when no pattern matches. -/
def firstMatch {W : Type} (E : Ext W) (text : String) :
    List (Word × Option Node) → M W (Option (Option Node))
  | [] => pure none
  | alt :: rest => do
    let m ← E.casematch alt.1 text
    if m then pure (some alt.2) else firstMatch E text rest

/-- Spec of the `Case` row together with the checks `evalcase` makes on the skip marker: the
arms are tried top to bottom for as long as the skip marker is clear, the patterns of an arm
left to right, and the search stops at the first pattern that matches; the result is the body
of its arm, `none` when the search ends without a match. -/
def firstMatchArms {W : Type} (E : Ext W) (text : String) :
    List (List Word × Option Node) → M W (Option (Option Node))
  | [] => pure none
  | cp :: rest => do
    let s ← getS
    if s.evalskip ≠ 0 then pure none
    else
      let r ← firstMatch E text (cp.1.map (fun patp => (patp, cp.2)))
      match r with
      | some b => pure (some b)
      | none => firstMatchArms E text rest

/-- Whether an outcome is a return. -/
def Out.isOk {σ α : Type} : Out σ α → Bool
  | Out.ok _ _ => true
  | _ => false

/-- The state an outcome carries (`d` for a timeout). -/
def Out.state {σ α : Type} (d : σ) : Out σ α → σ
  | Out.ok _ s => s
  | Out.stop _ s => s
  | Out.timeout => d

/-- The value a return carries (`d` for the other outcomes). -/
def Out.value {σ α : Type} (d : α) : Out σ α → α
  | Out.ok a _ => a
  | _ => d

/-- Spec of the path walk: the elements of a path without `%` markers, the texts between its
colons, from left to right. -/
def pathElems (path : List Char) : List (List Char) :=
  path.foldr (fun c acc =>
    if c = ':' then [] :: acc
    else match acc with
      | e :: r => (c :: e) :: r
      | [] => [[c]]) [[]]

/-- Spec of the path walk: the candidate `elem/name` of a path element, `name` itself for the
empty element. -/
def candidate (elem : List Char) (name : String) : String :=
  if elem = [] then name else String.mk elem ++ "/" ++ name

/-- Spec of the executability test: if the owner of the file is the effective user only the
user-execute bit decides; otherwise, if the group of the file is the effective group, only the
group-execute bit decides; otherwise the other-execute bit decides. -/
def executable (euid egid : Nat) (sb : StatBuf) : Bool :=
  if sb.st_uid = euid then sb.st_mode &&& 0o100 != 0
  else if sb.st_gid = egid then sb.st_mode &&& 0o10 != 0
  else sb.st_mode &&& 0o1 != 0

/-- Spec of the path walk: the candidate of a path element is a regular file that passes the
executability test. -/
def qualifies {W : Type} (E : Ext W) (w : W) (name : String) (elem : List Char) : Bool :=
  match (E.stat (candidate elem name) w).1 with
  | Except.ok sb => S_ISREG sb.st_mode && executable (E.geteuid w) (E.getegid w) sb
  | Except.error _ => false

/-- The state after `n` more path elements without `%` markers have been looked up with `stat`
in a file system that `stat` does not change. -/
def walked {W : Type} (s : State W) (n : Nat) : State W :=
  { s with pathopt := none, nstat := s.nstat + n }

/-- A property of the evaluation `m`: from a state that satisfies `P`, a return leaves a state
that satisfies `P`, and a stop for the reason `r` leaves a state that satisfies `Q r`. -/
structure Holds {W α : Type} (P : State W → Prop) (Q : Stop → State W → Prop) (m : M W α) :
    Prop where
  run : ∀ s, P s →
    match m s with
    | Out.ok _ s1 => P s1
    | Out.stop r s1 => Q r s1
    | Out.timeout => True

/-- What `Holds P Q` needs of the two properties: `Q` holds wherever `P` does, and `P` does not
depend on the world. -/
structure Law {W : Type} (P : State W → Prop) (Q : Stop → State W → Prop) : Prop where
  stop : ∀ r s, P s → Q r s
  world : ∀ s w, P s → P { s with world := w }

/-- Spec of `firstchange`: the earliest position at which two lists of path elements differ,
`none` when they are the same list. -/
def firstDiff : List (List Char) → List (List Char) → Option Nat
  | [], [] => none
  | [], _ :: _ => some 0
  | _ :: _, [] => some 0
  | a :: as, b :: bs => if a = b then (firstDiff as bs).map (fun j => j + 1) else some 0

/-- Spec of `firstchange` for two paths; 9999 stands for "no change", as in the C code. -/
def firstChange (old new : List Char) : Int :=
  (firstDiff (pathElems old) (pathElems new)).elim 9999 (fun j => (j : Int))

/-- A path element holds the marker `%builtin`. -/
def hasMarker : List Char → Bool
  | [] => false
  | c :: rest => (decide (c = '%') && pfxmatch "builtin".data rest) || hasMarker rest

/-- The position of the first element that holds the marker `%builtin`. -/
def markerIdx : List (List Char) → Option Nat
  | [] => none
  | e :: rest => if hasMarker e then some 0 else (markerIdx rest).map (fun j => j + 1)

/-- Spec of `builtinloc`: the position of the marker `%builtin` in a path, -1 without one. -/
def markerPos (path : List Char) : Int :=
  (markerIdx (pathElems path)).elim (-1) (fun j => (j : Int))

/-- A stage of a pipeline that `prehash` can look at: a node, with a first word when it is a
simple command (the C code dereferences `n->ncmd.args` without a test). -/
def hasWord : Option Node → Bool
  | some (Node.ncmd _ [] _) => false
  | some _ => true
  | none => false

/-- A property of the state that depends on no more than the skip marker and its count, the
two nesting counters and the exit status. -/
structure Frame {W : Type} (P : State W → Prop) : Prop where
  keep : ∀ s s1 : State W, s1.evalskip = s.evalskip → s1.skipcount = s.skipcount →
    s1.loopnest = s.loopnest → s1.funcnest = s.funcnest → s1.exitstatus = s.exitstatus →
    P s → P s1

/-- The invariant of the command cache: every entry is chained in the bucket that its name
hashes to, and no chain holds two entries of one name. -/
def CacheOK (t : Nat → List TblEntry) : Prop :=
  ∀ b, (∀ e ∈ t b, bucket e.cmdname = b) ∧ ((t b).map (fun e => e.cmdname)).Nodup

/-- The evaluation `m` keeps the invariant of the cache, whether it returns or stops. -/
abbrev CacheKept {W α : Type} (m : M W α) : Prop :=
  Holds (fun s : State W => CacheOK s.cmdtable) (fun _ s => CacheOK s.cmdtable) m

/-- The operations of exec.c on the command cache. -/
inductive CacheOp where
  | find_command (name : String) (printerr : Bool)
  | defun (name : String) (func : Option Node)
  | addcmdentry (name : String) (entry : CmdEntry)
  | unsetfunc (name : String)
  | hashcd
  | changepath (newval : String)
  | clearcmdentry (firstchange : Int)
  | deletefuncs
  | hashcmd (argv : List String)

/-- Run one operation on the cache; `hashcmd` finds `argptr` set by its caller. -/
def CacheOp.run {W : Type} (E : Ext W) (readcmdfile : String → M W Unit) : CacheOp → M W Unit
  | CacheOp.find_command name printerr => do
    let _ ← Nash.find_command E readcmdfile name printerr
    pure ()
  | CacheOp.defun name func => Nash.defun E name func
  | CacheOp.addcmdentry name entry => Nash.addcmdentry E name entry
  | CacheOp.unsetfunc name => Nash.unsetfunc E name
  | CacheOp.hashcd => Nash.hashcd
  | CacheOp.changepath newval => Nash.changepath E newval
  | CacheOp.clearcmdentry firstchange => Nash.clearcmdentry E firstchange
  | CacheOp.deletefuncs => Nash.deletefuncs E
  | CacheOp.hashcmd argv => do
    modS (fun s => { s with argptr := argv.tail })
    let _ ← Nash.hashcmd E readcmdfile argv
    pure ()

/-- The states reached from an empty table by operations on the cache, whether they return or
stop, and by anything else that leaves the table alone. -/
inductive Reachable {W : Type} (E : Ext W) (readcmdfile : String → M W Unit) : State W → Prop where
  | empty (s : State W) : (∀ b, s.cmdtable b = []) → Reachable E readcmdfile s
  | step (s : State W) (op : CacheOp) :
    Reachable E readcmdfile s → Reachable E readcmdfile ((op.run E readcmdfile s).state s)
  | other (s s1 : State W) :
    Reachable E readcmdfile s → s1.cmdtable = s.cmdtable → Reachable E readcmdfile s1

/-- The two ways in which the input routines return: with a character, `parsenleft` being at
least 0 then and the character being the one before `parsenextc`; or with end of file, no string
being pushed back then and `parsenleft` being negative, with the value `EOF_NLEFT` unless the
source is a string. -/
def Delivered {W : Type} (c : Option Nat) (st1 : InState W) : Prop :=
  (0 ≤ st1.parsenleft
    ∧ c = some (st1.deref { st1.parsenextc with off := st1.parsenextc.off - 1 }))
  ∨ (c = none ∧ st1.parsenleft < 0 ∧ st1.pushedstring = none
    ∧ (st1.parsenleft = EOF_NLEFT ∨ st1.buf = none))

/-- The world after `n` calls of `pgetc` each of which flushes the two outputs and reads the
source `fd` once. -/
def eofWorld {W : Type} (R : InExt W) (fd : Int) : Nat → W → W
  | 0, w => w
  | n + 1, w => eofWorld R fd n (readsource R fd (R.flushout (R.flushout w))).2

/-- The bytes other than NUL, in their order. -/
def nonNul (bytes : List Nat) : List Nat := bytes.filter (fun c => decide (c ≠ 0))

/-- An event of the shell that concerns its descriptors and its children: a call of `pipe`
that returned the two descriptors, a call of `close`, a call of `forkshell` that returned in
the parent. -/
inductive FdEvent where
  | pipe (r w : Int)
  | close (fd : Int)
  | fork
deriving DecidableEq

/-- What is seen of a world as far as descriptors go: the events so far, and the set of the
descriptors that are open. -/
structure FdView (W : Type) where
  trace : W → List FdEvent
  opened : W → Set Int

/-- What the operations behind `evalpipe` do to what is seen of the world: `stat`, `emit`,
`makejob` and a `waitforjob` that returns leave it alone; a call of `pipe` that succeeds returns
two different descriptors, neither negative nor open before, and opens them; `close` closes its
descriptor; `forkshell`, where it returns in the parent, leaves the descriptors alone.  The
last three are recorded as events. -/
structure FdLaws {W : Type} (E : Ext W) (V : FdView W) : Prop where
  stat : ∀ name w, V.trace (E.stat name w).2 = V.trace w ∧ V.opened (E.stat name w).2 = V.opened w
  makejob : ∀ n k w,
    V.trace (E.makejob n k w).2 = V.trace w ∧ V.opened (E.makejob n k w).2 = V.opened w
  waitforjob : ∀ jp w st w1, E.waitforjob jp w = Out.ok st w1 →
    V.trace w1 = V.trace w ∧ V.opened w1 = V.opened w
  pipe : ∀ w r wr, (E.pipe w).1 = some (r, wr) →
    0 ≤ r ∧ 0 ≤ wr ∧ r ≠ wr ∧ r ∉ V.opened w ∧ wr ∉ V.opened w
    ∧ V.opened (E.pipe w).2 = V.opened w ∪ {r, wr}
    ∧ V.trace (E.pipe w).2 = V.trace w ++ [FdEvent.pipe r wr]
  close : ∀ fd w,
    V.opened (E.close fd w) = V.opened w \ {fd}
    ∧ V.trace (E.close fd w) = V.trace w ++ [FdEvent.close fd]
  fork : ∀ jp n bg w pid w1, E.forkshell jp n bg w = Out.ok pid w1 → pid ≠ 0 →
    V.opened w1 = V.opened w ∧ V.trace w1 = V.trace w ++ [FdEvent.fork]

/-- Follow a list of events with the list `live` of the descriptors that were obtained from
`pipe` and are not closed yet: the result is that list at the end, and `none` when a descriptor
is closed that is not in it (one that did not come from these calls of `pipe`, or one that has
been closed already). -/
def fdrun : List Int → List FdEvent → Option (List Int)
  | live, [] => some live
  | live, FdEvent.pipe r w :: es => fdrun (r :: w :: live) es
  | live, FdEvent.close fd :: es => if fd ∈ live then fdrun (live.erase fd) es else none
  | live, FdEvent.fork :: es => fdrun live es

/-- The number of forks among the events. -/
def countForks (es : List FdEvent) : Nat := es.count FdEvent.fork

/-- The number of calls of `pipe` among the events. -/
def countPipes (es : List FdEvent) : Nat :=
  es.countP (fun e => match e with
    | FdEvent.pipe _ _ => true
    | _ => false)

/-- The events of a pipeline in the parent, from the descriptors `ps` that its calls of `pipe`
return, one pair for each stage but the last, and the read end `prevfd` left by the stage
before (negative when there is none): for a stage that is not the last, the pipe, the fork,
the close of `prevfd` and the close of the write end; for the last stage, the fork and the close
of `prevfd`. -/
def stageEvents : Int → List (Int × Int) → List FdEvent
  | prevfd, [] => FdEvent.fork :: (if prevfd ≥ 0 then [FdEvent.close prevfd] else [])
  | prevfd, p :: ps =>
    FdEvent.pipe p.1 p.2 :: FdEvent.fork
      :: ((if prevfd ≥ 0 then [FdEvent.close prevfd] else [])
        ++ FdEvent.close p.2 :: stageEvents p.1 ps)

/-- A property of the state that depends on the world only and that a call of `stat` keeps. -/
structure StatFrame {W : Type} (E : Ext W) (P : State W → Prop) : Prop where
  keep : ∀ s s1 : State W, s1.world = s.world → P s → P s1
  stat : ∀ (s s1 : State W) (name : String), s1.world = (E.stat name s.world).2 → P s → P s1

/-- The evaluations of the body that a `while` or `until` loop makes, as the claim on its exit
status speaks of them.  `LoopRun ev type ch1 ch2 s bodies e` says that the loop, about to
evaluate its test in the state `s`, evaluates its body `bodies.length` times, that `bodies`
lists the states in which these evaluations returned, in order, and that the loop is left in
the state `e`.  The five cases: the test ends the loop by its status; the test ends the loop by
the skip marker; the test asks for the next iteration by the skip marker; the body is evaluated
and ends the loop by the skip marker; the body is evaluated and the loop goes on. -/
inductive LoopRun {W : Type} (ev : Option Node → Nat → M W Unit) (type : BinType)
    (ch1 ch2 : Option Node) : State W → List (State W) → State W → Prop where
  | test_ends (s s1 : State W) :
    ev ch1 EV_TESTED s = Out.ok () s1 → s1.evalskip = 0 →
    (if type = BinType.NWHILE then s1.exitstatus ≠ 0 else s1.exitstatus = 0) →
    LoopRun ev type ch1 ch2 s [] s1
  | test_skips (s s1 : State W) :
    ev ch1 EV_TESTED s = Out.ok () s1 → s1.evalskip ≠ 0 → (loopskip s1).1 = false →
    LoopRun ev type ch1 ch2 s [] (loopskip s1).2
  | test_continues (s s1 : State W) (bodies : List (State W)) (e : State W) :
    ev ch1 EV_TESTED s = Out.ok () s1 → s1.evalskip ≠ 0 → (loopskip s1).1 = true →
    LoopRun ev type ch1 ch2 (loopskip s1).2 bodies e →
    LoopRun ev type ch1 ch2 s bodies e
  | body_ends (s s1 s2 : State W) :
    ev ch1 EV_TESTED s = Out.ok () s1 → s1.evalskip = 0 →
    ¬ (if type = BinType.NWHILE then s1.exitstatus ≠ 0 else s1.exitstatus = 0) →
    ev ch2 0 s1 = Out.ok () s2 → s2.evalskip ≠ 0 → (loopskip s2).1 = false →
    LoopRun ev type ch1 ch2 s [s2] (loopskip s2).2
  | body_goes_on (s s1 s2 : State W) (bodies : List (State W)) (e : State W) :
    ev ch1 EV_TESTED s = Out.ok () s1 → s1.evalskip = 0 →
    ¬ (if type = BinType.NWHILE then s1.exitstatus ≠ 0 else s1.exitstatus = 0) →
    ev ch2 0 s1 = Out.ok () s2 → (s2.evalskip ≠ 0 → (loopskip s2).1 = true) →
    LoopRun ev type ch1 ch2 (if s2.evalskip ≠ 0 then (loopskip s2).2 else s2) bodies e →
    LoopRun ev type ch1 ch2 s (s2 :: bodies) e

/-- The exit status left by the last of the evaluations `bodies`, and 0 when there is none. -/
def lastStatus {W : Type} (bodies : List (State W)) : Int :=
  (bodies.getLast?.map (fun b => b.exitstatus)).getD 0

/-! ## A small world for concrete runs

In this world every program is found in `/bin`; a forked child that runs `false` ends with
status 1 and every other child with status 0; `echo` is a built-in that appends its arguments
to `output`; a word whose raw text is `$?` expands to the exit status and `$name` to the
value of the variable `name`; a pattern matches when it is `*` or expands to the subject, and
every pattern that is tried is appended to `tried`.  The fields `fds` and `events` are for the
world with descriptors below: nothing touches them here. -/

/-- The world of the concrete runs. -/
structure Sim where
  vars : List (String × String)
  jobs : List String
  output : List (List String)
  tried : List String
  fds : List Int := []
  events : List FdEvent := []
deriving DecidableEq

/-- Value of a variable in the small world. -/
def Sim.lookup (w : Sim) (name : String) : String :=
  match w.vars.find? (fun p => p.1 = name) with
  | some p => p.2
  | none => ""

/-- The program a node runs, as far as the small world cares: the raw text of its first word. -/
def Sim.program : Option Node → String
  | some (Node.ncmd _ (w :: _) _) => w.text
  | _ => ""

/-- Decimal value of a string of digits. -/
def Sim.digits : List Char → Option Nat
  | [] => none
  | cs => cs.foldl (fun acc c =>
      match acc with
      | none => none
      | some n => if c.isDigit then some (n * 10 + (c.toNat - 48)) else none) (some 0)

/-- Expansion of a word in the small world. -/
def Sim.expand (s : State Sim) (w : Word) : String :=
  match w.text.data with
  | ['$', '?'] => toString s.exitstatus
  | '$' :: name => s.world.lookup (String.mk name)
  | _ => w.text

/-- The external operations of the small world. -/
def simExt : Ext Sim where
  is_name := fun c => c.isAlpha || c == '_'
  is_in_name := fun c => c.isAlphanum || c == '_'
  goodname := fun _ => true
  number := fun t => (Sim.digits t.data).map (fun n => (n : Int))
  expandarg_full := fun w s => Out.ok [Sim.expand s w] s
  expandarg_word := fun w s => Out.ok (Sim.expand s w) s
  casematch := fun p t s => Out.ok (decide (p.text = "*" ∨ Sim.expand s p = t))
    { s with world := { s.world with tried := s.world.tried ++ [p.text] } }
  setvar := fun name val _ w => { w with vars := (name, val) :: w.vars }
  setvareq := fun _ _ w => w
  listsetvar := fun _ w => w
  mklocal := fun _ lv w => Out.ok lv w
  poplocalvars := fun _ w => w
  pathval := fun _ => "/bin"
  environment := fun _ => []
  redirect := fun _ _ w => Out.ok () w
  popredir := fun w => w
  clearredir := fun w => w
  makejob := fun _ _ w => (w.jobs.length, w)
  forkshell := fun _ n _ w => Out.ok 1 { w with jobs := w.jobs ++ [Sim.program n] }
  waitforjob := fun jp w => Out.ok (if w.jobs.get? jp = some "false" then 1 else 0) w
  pipe := fun w => (some (3, 4), w)
  close := fun _ w => w
  copyfd := fun _ _ w => w
  dotrap := fun s => Out.ok () { s with pendingsig := 0 }
  raise := fun _ s => Out.ok () s
  emit := fun _ w => w
  memout_reset := fun w => w
  memout_take := fun w => (("", 0), w)
  freestdout := fun w => w
  stat := fun _ w => (Except.ok { st_mode := 0o100755, st_uid := 0, st_gid := 0 }, w)
  geteuid := fun _ => 0
  getegid := fun _ => 0
  execve := fun _ _ _ w => (none, w)
  shellproc := fun _ _ s => Out.ok () s
  builtincmd := [("bltin", 0), (".", 1), ("eval", 2), ("exec", 3), ("break", 4), ("continue", 4),
    ("return", 5), ("true", 6), (":", 6), ("exit", 7), ("echo", 8)]
  BLTINCMD := 0
  DOTCMD := 1
  EVALCMD := 2
  EXECCMD := 3
  builtinfunc := fun i =>
    if i = 0 then BuiltinFn.bltincmd else if i = 1 then BuiltinFn.dotcmd
    else if i = 2 then BuiltinFn.evalcmd else if i = 3 then BuiltinFn.execcmd
    else if i = 4 then BuiltinFn.breakcmd else if i = 5 then BuiltinFn.returncmd
    else if i = 6 then BuiltinFn.truecmd else if i = 7 then BuiltinFn.exitcmd
    else BuiltinFn.other 0
  builtin_other := fun _ argv s =>
    Out.ok 0 { s with world := { s.world with output := s.world.output ++ [argv.tail] } }
  ptr_as_int := fun _ => 0
  freefunc := fun _ w => w
  parsecmd := fun _ s => Out.ok ParseResult.neof s
  setinputstring := fun _ w => w
  setinputfile := fun _ w => Out.ok () w
  openfile := fun _ w => (3, w)
  setinputfd := fun _ w => w
  popfile := fun w => w
  showjobs := fun w => w
  chkmail := fun w => w
  setinteractive := fun _ w => w
  VEXPORT := 1
  VSTACK := 16
  sigpending := fun _ => false
  nextopt := fun _ argptr w => Out.ok (Char.ofNat 0, argptr) w

/-- The state of a shell that has just started, in the small world. -/
def simInit : State Sim where
  evalskip := 0
  skipcount := 0
  loopnest := 0
  funcnest := 0
  exitstatus := 0
  commandname := none
  cmdenviron := []
  pendingsig := 0
  eflag := false
  iflag := false
  xflag := false
  nflag := false
  bigIflag := false
  shellparam := { nparam := 0, malloc := false, p := [], optnext := none }
  localvars := []
  argptr := []
  cmdtable := fun _ => []
  builtinloc := -1
  lastcmdentry := (0, 0)
  pathopt := none
  curcmd := none
  prevcmd := none
  nstat := 0
  world := { vars := [], jobs := [], output := [], tried := [] }

/-- A simple command without redirections: the words are taken literally. -/
def simCmd (words : List String) : Option Node :=
  some (Node.ncmd 0 (words.map (fun t => { text := t })) [])

/-- What a concrete run is observed by: the outcome, the exit status, the skip marker and its
count, the two nesting counters and the world. -/
def observe {α : Type} (r : Out (State Sim) α) : String × Int × Int × Int × Int × Int × Sim :=
  match r with
  | Out.ok _ s => ("ok", s.exitstatus, s.evalskip, s.skipcount, s.loopnest, s.funcnest, s.world)
  | Out.stop (Stop.exitshell st) s =>
    ("exit", st, s.evalskip, s.skipcount, s.loopnest, s.funcnest, s.world)
  | Out.stop (Stop.raise e) s =>
    ("raise", e, s.evalskip, s.skipcount, s.loopnest, s.funcnest, s.world)
  | Out.stop Stop.exec s =>
    ("exec", s.exitstatus, s.evalskip, s.skipcount, s.loopnest, s.funcnest, s.world)
  | Out.stop Stop.fault s =>
    ("fault", s.exitstatus, s.evalskip, s.skipcount, s.loopnest, s.funcnest, s.world)
  | Out.timeout => ("timeout", 0, 0, 0, 0, 0, { vars := [], jobs := [], output := [], tried := [] })

/-! ## A small world with descriptors

The small world, except that it keeps the list `fds` of the descriptors that are open and the
list `events` of the calls of `pipe`, `close` and `forkshell`; `pipe` returns the two numbers
after the largest descriptor that is open (after 2 at least). -/

/-- The external operations of the small world with descriptors. -/
def fdExt : Ext Sim :=
  { simExt with
    pipe := fun w =>
      (some (w.fds.foldl max 2 + 1, w.fds.foldl max 2 + 2),
        { w with fds := (w.fds.foldl max 2 + 1) :: (w.fds.foldl max 2 + 2) :: w.fds
                 events := w.events ++ [FdEvent.pipe (w.fds.foldl max 2 + 1) (w.fds.foldl max 2 + 2)] })
    close := fun fd w =>
      { w with fds := w.fds.filter (fun x => decide (x ≠ fd))
               events := w.events ++ [FdEvent.close fd] }
    forkshell := fun _ n _ w =>
      Out.ok 1 { w with jobs := w.jobs ++ [Sim.program n], events := w.events ++ [FdEvent.fork] } }

/-- What is seen of the small world with descriptors. -/
def simView : FdView Sim where
  trace := fun w => w.events
  opened := fun w => { fd | fd ∈ w.fds }

/-! ## A small world with a file system

The same world, except that `PATH` is the variable of that name, that the files are the
four of `Sim.stat`, that a redirection fails, that `raise` unwinds like `error` does, and that
`lc` is a built-in; `ptr` is the number a function pointer reads as. -/

/-- The files of the small world: two programs, one file that nobody may execute, and one
that only its owner (user 5, not the shell's user 0) may execute. -/
def Sim.stat (f : String) : Except Int StatBuf :=
  if f = "/bin/ls" ∨ f = "/usr/bin/cc" then Except.ok { st_mode := 0o100755, st_uid := 0, st_gid := 0 }
  else if f = "/bin/cc" then Except.ok { st_mode := 0o100644, st_uid := 0, st_gid := 0 }
  else if f = "/bin/su" then Except.ok { st_mode := 0o100700, st_uid := 5, st_gid := 0 }
  else if f = "/bin" ∨ f = "/usr/bin" then Except.ok { st_mode := 0o040755, st_uid := 0, st_gid := 0 }
  else Except.error ENOENT

/-- The external operations of the small world with a file system. -/
def fsExt (ptr : Int) : Ext Sim :=
  { simExt with
    pathval := fun w => w.lookup "PATH"
    stat := fun f w => (Sim.stat f, w)
    redirect := fun redirs _ w => if redirs.isEmpty then Out.ok () w else Out.stop (Stop.raise EXERROR) w
    raise := fun e => stopM (Stop.raise e)
    builtincmd := simExt.builtincmd ++ [("lc", 9)]
    builtinfunc := fun i => if i = 9 then BuiltinFn.lccmd else simExt.builtinfunc i
    ptr_as_int := fun _ => ptr }

/-- The state of a shell that has just started with the given `PATH`. -/
def fsInit (path : String) : State Sim :=
  { simInit with world := { vars := [("PATH", path)], jobs := [], output := [], tried := [] } }

/-- What the cache holds for `name`: for each entry of that name in the 31 buckets, its bucket,
its type, its index (`none` for a function) and its `rehash` mark. -/
def cacheview {W : Type} (s : State W) (name : String) : List (Nat × CmdType × Option Int × Bool) :=
  (List.range CMDTABLESIZE).flatMap fun b =>
    ((s.cmdtable b).filter (fun cmdp => decide (cmdp.cmdname = name))).map fun cmdp =>
      (b, cmdp.cmdtype, (match cmdp.param with
        | Param.index i => some i
        | Param.func _ => none), cmdp.rehash)

/-- The type and index of a descriptor (`none` for a function). -/
def CmdEntry.view (c : CmdEntry) : CmdType × Option Int :=
  (c.cmdtype, match c.u with
    | Param.index i => some i
    | Param.func _ => none)

/-- Run `m` from the state an earlier step left (nothing is run after a step that did not
return). -/
def Out.next {σ α β : Type} (r : Out σ α) (m : σ → Out σ β) : Out σ β :=
  r.andThen fun _ s => m s

/-- A session in the small world with `PATH=/bin`: run `ls`, then (when `cd` is set) change
directory, then define a function `ls`, then run `ls` again. -/
def lsSession (ptr : Int) (cd : Bool) : Out (State Sim) Unit :=
  (((evaltree (fsExt ptr) 3 (simCmd ["ls"]) 0 (fsInit "/bin")).next
        (if cd then hashcd else (pure () : M Sim Unit))).next
      (evaltree (fsExt ptr) 3 (some (Node.ndefun "ls" (simCmd ["echo", "hi"]))) 0)).next
    (evaltree (fsExt ptr) 3 (simCmd ["ls"]) 0)

/-- The state an operation on the cache leaves in the small world with a file system, whether
it returns or stops; no file of function definitions is read. -/
def cacheStep (op : CacheOp) (s : State Sim) : State Sim :=
  (op.run (fsExt 0) (fun _ => error) s).state s

/-- The assignment of `path` to `PATH`, once `changepath` has been run. -/
def setPath (path : String) (s : State Sim) : State Sim :=
  { s with world := simExt.setvar "PATH" path 0 s.world }

/-- The state after a search for `ls`, the definition of a function `f`, a change of
directory, the assignment `PATH=/usr/bin`, `unset -f f` and `hash cc`, starting with
`PATH=/bin`. -/
def cacheSession : State Sim :=
  cacheStep (CacheOp.hashcmd ["hash", "cc"])
    (cacheStep (CacheOp.unsetfunc "f")
      (setPath "/usr/bin" (cacheStep (CacheOp.changepath "/usr/bin")
        (cacheStep CacheOp.hashcd
          (cacheStep (CacheOp.defun "f" (simCmd ["ls"]))
            (cacheStep (CacheOp.find_command "ls" true) (fsInit "/bin")))))))

/-- A path of 10000 elements: 9999 empty ones, then `/bin`. -/
def longPath : String := String.mk (List.replicate 9999 ':' ++ "/bin".data)

/-- The state of a shell with the path `longPath` that has found `ls` in the last element of
the path, the one with index 9999. -/
def longPathState : State Sim :=
  { fsInit longPath with
    cmdtable := Function.update (fun _ => []) (bucket "ls")
      [{ param := Param.index 9999, cmdtype := CmdType.CMDNORMAL, rehash := false,
         cmdname := "ls" }] }

/-- The small world with a file system in which, in addition, no file can be opened for
reading commands: `setinputfile` raises an error. -/
def noFileExt : Ext Sim :=
  { fsExt 0 with setinputfile := fun _ w => Out.stop (Stop.raise EXERROR) w }

/-- The loop `while true; do true <x; done`, whose body fails in the small world with a file
system: the redirection raises an error before `true` is run. -/
def failingLoop : Option Node :=
  some (Node.nbinary BinType.NWHILE (simCmd ["true"])
    (some (Node.ncmd 0 [{ text := "true" }]
      [{ type := RedirType.NFROM, fd := 0, fname := { text := "x" }, dupfd := 0, expfname := none }])))

/-- The state of an interactive shell in which `failingLoop` has been typed, has unwound to the
top level and been followed by `reset`, and `lc` has just been read: `cmdloop` has made the
loop the previous command and `lc` the current one. -/
def lcState : State Sim :=
  { fsInit "/bin" with iflag := true, prevcmd := failingLoop, curcmd := simCmd ["lc"] }

/-- A state whose cache holds the function `f` and nothing else. -/
def fState : State Sim :=
  { fsInit "/bin" with
    cmdtable := Function.update (fun _ => []) (bucket "f")
      ([] ++ [{ param := Param.func (simCmd ["ls"]), cmdtype := CmdType.CMDFUNCTION, rehash := false,
                cmdname := "f" }]) }

/-- What a search is observed by: the type and index of the answer and the count of the calls
of `stat` so far (`none` when the search does not return). -/
def observeFind {W : Type} (r : Out (State W) CmdEntry) : Option (CmdType × Option Int × Nat) :=
  match r with
  | Out.ok c s => some (c.cmdtype, c.view.2, s.nstat)
  | _ => none

/-! ## Basic facts about sequencing -/

theorem bind_apply {W α β : Type} (m : M W α) (f : α → M W β) (s : State W) :
    (m >>= f) s = (m s).andThen f := rfl

theorem pure_apply {W α : Type} (a : α) (s : State W) : (pure a : M W α) s = Out.ok a s := rfl

theorem andThen_ok {σ α β : Type} (a : α) (s : σ) (f : α → σ → Out σ β) :
    (Out.ok a s).andThen f = f a s := rfl

theorem andThen_stop {σ α β : Type} (r : Stop) (s : σ) (f : α → σ → Out σ β) :
    (Out.stop r s : Out σ α).andThen f = Out.stop r s := rfl

theorem andThen_timeout {σ α β : Type} (f : α → σ → Out σ β) :
    (Out.timeout : Out σ α).andThen f = Out.timeout := rfl

theorem getS_apply {W : Type} (s : State W) : (getS : M W (State W)) s = Out.ok s s := rfl

theorem modS_apply {W : Type} (f : State W → State W) (s : State W) :
    modS f s = Out.ok () (f s) := rfl

theorem modW_apply {W : Type} (f : W → W) (s : State W) :
    modW f s = Out.ok () { s with world := f s.world } := rfl

theorem exitshell_apply {W α : Type} (st : Int) (s : State W) :
    (exitshell st : M W α) s = Out.stop (Stop.exitshell st) s := rfl

theorem error_apply {W α : Type} (s : State W) :
    (error : M W α) s = Out.stop (Stop.raise EXERROR) s := rfl

theorem ite_apply_state {W α : Type} (c : Prop) [Decidable c] (m1 m2 : M W α) (s : State W) :
    (if c then m1 else m2) s = if c then m1 s else m2 s := by
  split_ifs <;> rfl

theorem Out.eq_ok_of_isOk {σ α : Type} (r : Out σ α) (ds : σ) (da : α) (h : r.isOk = true) :
    r = Out.ok (r.value da) (r.state ds) := by
  cases r <;> simp_all [Out.isOk, Out.value, Out.state]

theorem evaltree_succ {W : Type} (E : Ext W) (k : Nat) (n : Node) (flags : Nat) (s : State W) :
    evaltree E (k + 1) (some n) flags s =
      (evalswitch E (evaltree E k) k n flags s).andThen fun _ s1 => evalboundary E flags s1 := by
  rw [evaltree, bind_apply]

theorem evalloop_iter_succ {W : Type} (ev : Option Node → Nat → M W Unit) (type : BinType)
    (ch1 ch2 : Option Node) (k : Nat) (status : Int) (trail : List Int) (s : State W) :
    evalloop_iter ev type ch1 ch2 (k + 1) status trail s =
      (ev ch1 EV_TESTED s).andThen fun _ s1 =>
        if s1.evalskip ≠ 0 then
          if (loopskip s1).1 = true then
            evalloop_iter ev type ch1 ch2 k status trail (loopskip s1).2
          else Out.ok (status, trail) (loopskip s1).2
        else if (if type = BinType.NWHILE then s1.exitstatus ≠ 0 else s1.exitstatus = 0) then
          Out.ok (status, trail) s1
        else (ev ch2 0 s1).andThen fun _ s2 =>
          if s2.evalskip ≠ 0 then
            if (loopskip s2).1 = true then
              evalloop_iter ev type ch1 ch2 k s2.exitstatus (trail ++ [s2.exitstatus]) (loopskip s2).2
            else Out.ok (s2.exitstatus, trail ++ [s2.exitstatus]) (loopskip s2).2
          else evalloop_iter ev type ch1 ch2 k s2.exitstatus (trail ++ [s2.exitstatus]) s2 := by
  rw [evalloop_iter, bind_apply]
  congr 1
  funext _ s1
  simp only [bind_apply, getS_apply, andThen_ok, ite_apply_state, pure_apply, modS_apply]
  split_ifs <;> try rfl
  all_goals
    congr 1
    funext _ s2
    simp only [bind_apply, getS_apply, andThen_ok, ite_apply_state, pure_apply, modS_apply]

/-! ## Claims -/

/-! ### The binary nodes and the statement boundary -/

/-- C1: for a node `op(a, b)` with `op` one of `NSEMI`, `NAND`, `NOR`, `evaltree` first evaluates
`a`, with flags 0 for `NSEMI` and with `EV_TESTED` for `NAND` and `NOR`.  When `a` returns with a
clear skip marker and, for `NAND`, exit status 0 or, for `NOR`, a nonzero exit status, it then
evaluates `b` with the flags given for the node, from the state `a` left.  In every other case
in which `a` returns, `b` is not evaluated: the checks at the end of `evaltree` are made on the
very state `a` left, exit status included.  When `a` does not return, neither does the node. -/
theorem evaltree_binary {W : Type} (E : Ext W) (k : Nat) (type : BinType) (ch1 ch2 : Option Node)
    (flags : Nat) (s : State W)
    (htype : type = BinType.NSEMI ∨ type = BinType.NAND ∨ type = BinType.NOR) :
    evaltree E (k + 1) (some (Node.nbinary type ch1 ch2)) flags s =
      (evaltree E k ch1 (if type = BinType.NSEMI then 0 else EV_TESTED) s).andThen fun _ s1 =>
        if s1.evalskip = 0 ∧ (type = BinType.NAND → s1.exitstatus = 0)
            ∧ (type = BinType.NOR → s1.exitstatus ≠ 0) then
          (evaltree E k ch2 flags s1).andThen fun _ s2 => evalboundary E flags s2
        else evalboundary E flags s1 := by
  rw [evaltree_succ]
  rcases htype with h | h | h <;> subst h <;>
    simp only [evalswitch, bind_apply, if_true, if_false, reduceCtorEq] <;>
    cases evaltree E k ch1 _ s <;>
    simp only [andThen_ok, andThen_stop, andThen_timeout, bind_apply, getS_apply, ite_apply_state,
      pure_apply, true_implies, false_implies, and_true, reduceCtorEq] <;>
    split_ifs <;> first | rfl | (exfalso; simp_all)

/-- Witness for C1: `false && echo x || echo y` forks `false` only, prints `y` only and ends
with status 0. -/
theorem evaltree_binary_witness :
    (BinType.NOR = BinType.NSEMI ∨ BinType.NOR = BinType.NAND ∨ BinType.NOR = BinType.NOR)
    ∧ observe (evaltree simExt 3
        (some (Node.nbinary BinType.NOR
          (some (Node.nbinary BinType.NAND (simCmd ["false"]) (simCmd ["echo", "x"])))
          (simCmd ["echo", "y"]))) 0 simInit)
      = ("ok", 0, 0, 0, 0, 0, { vars := [], jobs := ["false"], output := [["y"]], tried := [] }) :=
  ⟨Or.inr (Or.inr rfl), by
    rw [evaltree_binary simExt 2 BinType.NOR _ _ 0 simInit (Or.inr (Or.inr rfl))]
    decide!⟩

/-- C2: when the `switch` of `evaltree` has finished for a node, pending traps are delivered
first; then `exitshell` is called with the current exit status when `EV_EXIT` is set; otherwise
it is called exactly when the `-e` flag is on, the exit status is nonzero and `EV_TESTED` is not
set; in the remaining case `evaltree` returns. -/
theorem evaltree_statement_boundary {W : Type} (E : Ext W) (k : Nat) (n : Node) (flags : Nat)
    (s : State W) :
    evaltree E (k + 1) (some n) flags s =
      (evalswitch E (evaltree E k) k n flags s).andThen fun _ s1 =>
        (if s1.pendingsig ≠ 0 then E.dotrap s1 else Out.ok () s1).andThen fun _ s2 =>
          if flags &&& EV_EXIT ≠ 0 then Out.stop (Stop.exitshell s2.exitstatus) s2
          else if s2.eflag = true ∧ s2.exitstatus ≠ 0 ∧ flags &&& EV_TESTED = 0 then
            Out.stop (Stop.exitshell s2.exitstatus) s2
          else Out.ok () s2 := by
  rw [evaltree_succ]
  congr 1
  funext _ s1
  simp only [evalboundary, bind_apply, getS_apply, andThen_ok, ite_apply_state, pure_apply]
  congr 1
  funext _ s2
  simp only [bind_apply, getS_apply, andThen_ok, ite_apply_state, pure_apply, exitshell_apply]
  split_ifs <;> first | rfl | (exfalso; simp_all)

theorem evalloop_iter_trail {W : Type} (ev : Option Node → Nat → M W Unit) (type : BinType)
    (ch1 ch2 : Option Node) (k : Nat) :
    ∀ (status : Int) (trail : List Int) (s s' : State W) (r : Int × List Int),
      evalloop_iter ev type ch1 ch2 k status trail s = Out.ok r s' →
      status = trail.getLast?.getD 0 →
      (∀ x ∈ trail, ∃ sb sa, ev ch2 0 sb = Out.ok () sa ∧ sa.exitstatus = x) →
      r.1 = r.2.getLast?.getD 0
        ∧ (∀ x ∈ r.2, ∃ sb sa, ev ch2 0 sb = Out.ok () sa ∧ sa.exitstatus = x) := by
  induction k with
  | zero =>
    intro status trail s s' r h
    simp [evalloop_iter] at h
  | succ k ih =>
    intro status trail s s' r h hst htr
    rw [evalloop_iter_succ] at h
    cases h1 : ev ch1 EV_TESTED s with
    | stop x s1 => simp [h1, andThen_stop] at h
    | timeout => simp [h1, andThen_timeout] at h
    | ok a s1 =>
      simp only [h1, andThen_ok] at h
      by_cases c1 : s1.evalskip ≠ 0
      · rw [if_pos c1] at h
        by_cases c2 : (loopskip s1).1 = true
        · rw [if_pos c2] at h
          exact ih _ _ _ _ _ h hst htr
        · rw [if_neg c2] at h
          cases h; exact ⟨hst, htr⟩
      · rw [if_neg c1] at h
        by_cases c3 : (if type = BinType.NWHILE then s1.exitstatus ≠ 0 else s1.exitstatus = 0)
        · rw [if_pos c3] at h
          cases h; exact ⟨hst, htr⟩
        · rw [if_neg c3] at h
          cases h2 : ev ch2 0 s1 with
          | stop x s2 => simp [h2, andThen_stop] at h
          | timeout => simp [h2, andThen_timeout] at h
          | ok a2 s2 =>
            simp only [h2, andThen_ok] at h
            have hlast : s2.exitstatus = (trail ++ [s2.exitstatus]).getLast?.getD 0 := by simp
            have hmem : ∀ x ∈ trail ++ [s2.exitstatus],
                ∃ sb sa, ev ch2 0 sb = Out.ok () sa ∧ sa.exitstatus = x := by
              intro x hx
              rcases List.mem_append.mp hx with hx | hx
              · exact htr x hx
              · simp only [List.mem_singleton] at hx
                subst hx
                exact ⟨s1, s2, h2, rfl⟩
            split_ifs at h with d1 d2
            · exact ih _ _ _ _ _ h hlast hmem
            · cases h; exact ⟨hlast, hmem⟩
            · exact ih _ _ _ _ _ h hlast hmem

theorem getLast_cons_status {W : Type} (b : State W) (bodies : List (State W)) (d : Int) :
    (((b :: bodies).getLast?).map (fun x => x.exitstatus)).getD d
      = ((bodies.getLast?).map (fun x => x.exitstatus)).getD b.exitstatus := by
  cases bodies with
  | nil => rfl
  | cons c cs =>
    rw [List.getLast?_cons_cons]
    obtain ⟨x, hx⟩ : ∃ x, (c :: cs).getLast? = some x :=
      ⟨_, List.getLast?_eq_getLast _ (List.cons_ne_nil c cs)⟩
    rw [hx]
    rfl

/-- The loop of `evalloop` makes the evaluations that `LoopRun` lists; the status it hands
back is the one the last of them left, and the one it was given when there is none. -/
theorem evalloop_iter_run {W : Type} (ev : Option Node → Nat → M W Unit) (type : BinType)
    (ch1 ch2 : Option Node) (k : Nat) :
    ∀ (status : Int) (trail : List Int) (s s' : State W) (r : Int × List Int),
      evalloop_iter ev type ch1 ch2 k status trail s = Out.ok r s' →
      ∃ bodies : List (State W), LoopRun ev type ch1 ch2 s bodies s'
        ∧ r.2 = trail ++ bodies.map (fun b => b.exitstatus)
        ∧ r.1 = ((bodies.getLast?).map (fun b => b.exitstatus)).getD status := by
  induction k with
  | zero =>
    intro status trail s s' r h
    simp [evalloop_iter] at h
  | succ k ih =>
    intro status trail s s' r h
    rw [evalloop_iter_succ] at h
    cases h1 : ev ch1 EV_TESTED s with
    | stop x s1 => simp [h1, andThen_stop] at h
    | timeout => simp [h1, andThen_timeout] at h
    | ok a s1 =>
      simp only [h1, andThen_ok] at h
      by_cases c1 : s1.evalskip ≠ 0
      · rw [if_pos c1] at h
        by_cases c2 : (loopskip s1).1 = true
        · rw [if_pos c2] at h
          obtain ⟨bodies, hrun, h2, h3⟩ := ih _ _ _ _ _ h
          exact ⟨bodies, LoopRun.test_continues s s1 bodies s' h1 c1 c2 hrun, h2, h3⟩
        · rw [if_neg c2] at h
          cases h
          exact ⟨[], LoopRun.test_skips s s1 h1 c1 (by simpa using c2), by simp, rfl⟩
      · rw [if_neg c1] at h
        have c1' : s1.evalskip = 0 := by simpa using c1
        by_cases c3 : (if type = BinType.NWHILE then s1.exitstatus ≠ 0 else s1.exitstatus = 0)
        · rw [if_pos c3] at h
          cases h
          exact ⟨[], LoopRun.test_ends s s' h1 c1' c3, by simp, rfl⟩
        · rw [if_neg c3] at h
          cases h2 : ev ch2 0 s1 with
          | stop x s2 => simp [h2, andThen_stop] at h
          | timeout => simp [h2, andThen_timeout] at h
          | ok a2 s2 =>
            simp only [h2, andThen_ok] at h
            by_cases d1 : s2.evalskip ≠ 0
            · rw [if_pos d1] at h
              by_cases d2 : (loopskip s2).1 = true
              · rw [if_pos d2] at h
                obtain ⟨bodies, hrun, h3, h4⟩ := ih _ _ _ _ _ h
                refine ⟨s2 :: bodies, LoopRun.body_goes_on s s1 s2 bodies s' h1 c1' c3 h2
                  (fun _ => d2) (by rw [if_pos d1]; exact hrun), ?_, ?_⟩
                · rw [h3]; simp
                · rw [h4, getLast_cons_status]
              · rw [if_neg d2] at h
                cases h
                exact ⟨[s2], LoopRun.body_ends s s1 s2 h1 c1' c3 h2 d1 (by simpa using d2),
                  by simp, rfl⟩
            · rw [if_neg d1] at h
              obtain ⟨bodies, hrun, h3, h4⟩ := ih _ _ _ _ _ h
              refine ⟨s2 :: bodies, LoopRun.body_goes_on s s1 s2 bodies s' h1 c1' c3 h2
                (fun hc => absurd hc d1) (by rw [if_neg d1]; exact hrun), ?_, ?_⟩
              · rw [h3]; simp
              · rw [h4, getLast_cons_status]

/-- C4: when the evaluation of a `while` or `until` loop returns, the loop has made the
evaluations of its body that `LoopRun` lists, one after the other, from the state on entry with
`loopnest` incremented; the exit status after the loop is the one left by the last of these
evaluations, and 0 when the body was never evaluated, whatever the status the last evaluation
of the test left; the rest of the state is the one in which the loop was left, with `loopnest`
decremented.  The ghost trail is the list of the statuses these evaluations left. -/
theorem evalloop_exitstatus {W : Type} (ev : Option Node → Nat → M W Unit) (fuel : Nat)
    (type : BinType) (ch1 ch2 : Option Node) (s s' : State W) (trail : List Int)
    (h : evalloop ev fuel type ch1 ch2 s = Out.ok trail s') :
    ∃ (bodies : List (State W)) (e : State W),
      LoopRun ev type ch1 ch2 { s with loopnest := s.loopnest + 1 } bodies e
      ∧ s'.exitstatus = lastStatus bodies
      ∧ (bodies = [] → s'.exitstatus = 0)
      ∧ (∀ b, bodies.getLast? = some b → s'.exitstatus = b.exitstatus)
      ∧ s' = { e with loopnest := e.loopnest - 1, exitstatus := lastStatus bodies }
      ∧ trail = bodies.map (fun b => b.exitstatus) := by
  simp only [evalloop, bind_apply, modS_apply, andThen_ok, pure_apply] at h
  cases h1 : evalloop_iter ev type ch1 ch2 fuel 0 [] { s with loopnest := s.loopnest + 1 } with
  | stop x s1 => simp [h1, andThen_stop] at h
  | timeout => simp [h1, andThen_timeout] at h
  | ok r s1 =>
    simp only [h1, andThen_ok, modS_apply, pure_apply] at h
    obtain ⟨bodies, hrun, h2, h3⟩ := evalloop_iter_run ev type ch1 ch2 fuel 0 [] _ _ _ h1
    cases h
    refine ⟨bodies, s1, hrun, h3, ?_, ?_, ?_, by simpa using h2⟩
    · intro hb
      show r.1 = 0
      rw [h3, hb]
      rfl
    · intro b hb
      show r.1 = b.exitstatus
      rw [h3, hb]
      rfl
    · show _ = { s1 with loopnest := s1.loopnest - 1, exitstatus := lastStatus bodies }
      unfold lastStatus
      rw [← h3]

/-- Witness for C4: inside a function, the loop
`while true; do case $j in a) return 3;; *) for j in a; do false; done;; esac; done` evaluates
its body twice: the first evaluation leaves the status 1, the second the status 3, and the loop
ends with the status 3, that of the last evaluation, not with the 1 of the first nor with the 0
of the test. -/
theorem evalloop_exitstatus_witness :
    ∃ (s1 b1 b2 e : State Sim),
      evalloop (evaltree simExt 4) 4 BinType.NWHILE (simCmd ["true"])
          (some (Node.ncase { text := "$j" }
            [([{ text := "a" }], simCmd ["return", "3"]),
             ([{ text := "*" }], some (Node.nfor [{ text := "a" }] (simCmd ["false"]) "j"))]))
          { simInit with funcnest := 1 } = Out.ok [1, 3] s1
      ∧ LoopRun (evaltree simExt 4) BinType.NWHILE (simCmd ["true"])
          (some (Node.ncase { text := "$j" }
            [([{ text := "a" }], simCmd ["return", "3"]),
             ([{ text := "*" }], some (Node.nfor [{ text := "a" }] (simCmd ["false"]) "j"))]))
          { simInit with funcnest := 1, loopnest := 1 } [b1, b2] e
      ∧ b1.exitstatus = 1 ∧ b2.exitstatus = 3 ∧ s1.exitstatus = 3 := by
  have h := Out.eq_ok_of_isOk
    (evalloop (evaltree simExt 4) 4 BinType.NWHILE (simCmd ["true"])
      (some (Node.ncase { text := "$j" }
        [([{ text := "a" }], simCmd ["return", "3"]),
         ([{ text := "*" }], some (Node.nfor [{ text := "a" }] (simCmd ["false"]) "j"))]))
      { simInit with funcnest := 1 }) simInit [] (by decide!)
  have hv : (evalloop (evaltree simExt 4) 4 BinType.NWHILE (simCmd ["true"])
      (some (Node.ncase { text := "$j" }
        [([{ text := "a" }], simCmd ["return", "3"]),
         ([{ text := "*" }], some (Node.nfor [{ text := "a" }] (simCmd ["false"]) "j"))]))
      { simInit with funcnest := 1 }).value [] = [1, 3] := by decide!
  rw [hv] at h
  obtain ⟨bodies, e, hrun, _, _, hlast, _, htr⟩ := evalloop_exitstatus _ _ _ _ _ _ _ _ h
  rcases bodies with _ | ⟨b1, _ | ⟨b2, _ | ⟨b3, rest⟩⟩⟩
  · simp at htr
  · simp at htr
  · simp only [List.map_cons, List.map_nil, List.cons.injEq, and_true] at htr
    exact ⟨_, b1, b2, e, h, hrun, htr.1.symm, htr.2.symm, (hlast b2 rfl).trans htr.2.symm⟩
  · simp at htr

/-- C6: with the count `min n loopnest`, where `n` is the numeric argument (1 when there is
none), `breakcmd` sets the skip marker to `SKIPBREAK`, or to `SKIPCONT` when the name it was
called by starts with `c`, and the skip count to that count when the count is positive; it
leaves the state unchanged when the count is not positive; it returns 0 in both cases. -/
theorem breakcmd_count {W : Type} (E : Ext W) (name : String) (rest : List String) (n : Int)
    (s : State W)
    (hn : match rest with
      | [] => n = 1
      | a :: _ => E.number a = some n) :
    breakcmd E (name :: rest) s = Out.ok 0
      (if min n s.loopnest > 0 then
        { s with evalskip := if name.data.head? = some 'c' then SKIPCONT else SKIPBREAK,
                 skipcount := min n s.loopnest }
       else s) := by
  have key : (if n > s.loopnest then s.loopnest else n) = min n s.loopnest := by
    rw [min_def]; split_ifs <;> omega
  cases rest with
  | nil =>
    simp only [] at hn
    subst hn
    simp only [breakcmd, bind_apply, pure_apply, getS_apply, andThen_ok, key, ite_apply_state,
      modS_apply]
    split_ifs <;> rfl
  | cons a rest =>
    simp only [] at hn
    simp only [breakcmd, bind_apply, pure_apply, getS_apply, andThen_ok, number, hn, key,
      ite_apply_state, modS_apply]
    split_ifs <;> rfl

/-- Witness for C6: `continue 5` inside three loops asks for count 3, and `break` outside any
loop changes nothing. -/
theorem breakcmd_count_witness :
    simExt.number "5" = some 5
    ∧ observe (breakcmd simExt ["continue", "5"] { simInit with loopnest := 3 })
        = ("ok", 0, 2, 3, 3, 0, { vars := [], jobs := [], output := [], tried := [] }) :=
  ⟨by decide, by rw [breakcmd_count simExt "continue" ["5"] 5 _ (by decide)]; decide⟩

/-! ### `continue` in a loop -/

theorem evalfor_loop_cons {W : Type} (E : Ext W) (ev : Option Node → Nat → M W Unit) (var : String)
    (body : Option Node) (text : String) (rest : List String) (s : State W) :
    evalfor_loop E ev var body (text :: rest) s =
      (ev body 0 { s with world := E.setvar var text 0 s.world }).andThen fun _ s2 =>
        if s2.evalskip ≠ 0 then
          if (loopskip s2).1 = true then evalfor_loop E ev var body rest (loopskip s2).2
          else Out.ok () (loopskip s2).2
        else evalfor_loop E ev var body rest s2 := by
  rw [evalfor_loop]
  simp only [bind_apply, modW_apply, andThen_ok]
  congr 1
  funext _ s2
  simp only [bind_apply, getS_apply, andThen_ok, ite_apply_state, pure_apply, modS_apply]

theorem loopskip_cont {W : Type} (s : State W) (n : Int) (h1 : s.evalskip = SKIPCONT) (h2 : s.skipcount = n)
    (hn : 1 ≤ n) :
    loopskip s = if n = 1 then (true, { s with skipcount := 0, evalskip := 0 })
      else (false, { s with skipcount := n - 1 }) := by
  simp only [loopskip, h1, h2, if_true]
  by_cases h : n = 1
  · subst h
    simp
  · have : ¬ (n - 1 ≤ 0) := by omega
    rw [if_neg this, if_neg h]

/-- C7: let the skip marker be `SKIPCONT` with count `n ≥ 1` when the test of a `while` or
`until` loop returns, or when its body returns, or when the body of a `for` loop returns.  When
`n = 1` the marker is cleared and the loop goes on with its next iteration, which starts with
the test, or with the next word, so that nothing more of the current iteration is evaluated.
When `n ≥ 2` the loop is left with the marker still `SKIPCONT` and the count `n - 1`. -/
theorem loop_continue {W : Type} (E : Ext W) (ev : Option Node → Nat → M W Unit) (type : BinType)
    (ch1 ch2 body : Option Node) (var : String) (k : Nat) (status : Int) (trail : List Int)
    (text : String) (rest : List String) (n : Int) (hn : 1 ≤ n) :
    (∀ s s1 : State W, ev ch1 EV_TESTED s = Out.ok () s1 →
      s1.evalskip = SKIPCONT → s1.skipcount = n →
      evalloop_iter ev type ch1 ch2 (k + 1) status trail s =
        if n = 1 then
          evalloop_iter ev type ch1 ch2 k status trail { s1 with skipcount := 0, evalskip := 0 }
        else Out.ok (status, trail) { s1 with skipcount := n - 1 })
    ∧ (∀ s s1 s2 : State W, ev ch1 EV_TESTED s = Out.ok () s1 → s1.evalskip = 0 →
      ¬ (if type = BinType.NWHILE then s1.exitstatus ≠ 0 else s1.exitstatus = 0) →
      ev ch2 0 s1 = Out.ok () s2 → s2.evalskip = SKIPCONT → s2.skipcount = n →
      evalloop_iter ev type ch1 ch2 (k + 1) status trail s =
        if n = 1 then
          evalloop_iter ev type ch1 ch2 k s2.exitstatus (trail ++ [s2.exitstatus])
            { s2 with skipcount := 0, evalskip := 0 }
        else Out.ok (s2.exitstatus, trail ++ [s2.exitstatus]) { s2 with skipcount := n - 1 })
    ∧ (∀ s s2 : State W,
      ev body 0 { s with world := E.setvar var text 0 s.world } = Out.ok () s2 →
      s2.evalskip = SKIPCONT → s2.skipcount = n →
      evalfor_loop E ev var body (text :: rest) s =
        if n = 1 then evalfor_loop E ev var body rest { s2 with skipcount := 0, evalskip := 0 }
        else Out.ok () { s2 with skipcount := n - 1 }) := by
  have hc : SKIPCONT ≠ (0 : Int) := by decide
  refine ⟨?_, ?_, ?_⟩
  · intro s s1 h1 he hc1
    rw [evalloop_iter_succ, h1, andThen_ok, if_pos (by rw [he]; exact hc),
      loopskip_cont s1 n he hc1 hn]
    by_cases h : n = 1
    · simp only [h, if_true]
    · simp only [h, if_false, Bool.false_eq_true]
  · intro s s1 s2 h1 he hcond h2 he2 hc2
    rw [evalloop_iter_succ, h1, andThen_ok, if_neg (by rw [he]; simp), if_neg hcond, h2, andThen_ok,
      if_pos (by rw [he2]; exact hc), loopskip_cont s2 n he2 hc2 hn]
    by_cases h : n = 1
    · simp only [h, if_true]
    · simp only [h, if_false, Bool.false_eq_true]
  · intro s s2 h2 he2 hc2
    rw [evalfor_loop_cons, h2, andThen_ok, if_pos (by rw [he2]; exact hc),
      loopskip_cont s2 n he2 hc2 hn]
    by_cases h : n = 1
    · simp only [h, if_true]
    · simp only [h, if_false, Bool.false_eq_true]

/-- Witness for C7: in `for i in a b; do continue 2; done`, run inside another loop, the
first evaluation of the body ends the loop with the marker `SKIPCONT` and the count 1; `b` is
never assigned. -/
theorem loop_continue_witness :
    (1 : Int) ≤ 2
    ∧ observe (evalfor_loop simExt (evaltree simExt 2) "i" (simCmd ["continue", "2"]) ["a", "b"]
        { simInit with loopnest := 2 })
      = ("ok", 0, 2, 1, 2, 0, { vars := [("i", "a")], jobs := [], output := [], tried := [] }) := by
  refine ⟨by decide, ?_⟩
  have h2 := Out.eq_ok_of_isOk
    (evaltree simExt 2 (simCmd ["continue", "2"]) 0
      { ({ simInit with loopnest := 2 } : State Sim) with
        world := simExt.setvar "i" "a" 0 ({ simInit with loopnest := 2 } : State Sim).world })
    simInit () (by decide!)
  rw [(loop_continue simExt (evaltree simExt 2) BinType.NWHILE none none
    (simCmd ["continue", "2"]) "i" 0 0 [] "a" ["b"] 2 (by decide)).2.2 _ _ h2
    (by decide!) (by decide!)]
  decide!

/-! ### The `for` loop -/

theorem forRuns_cons {W : Type} (E : Ext W) (ev : Option Node → Nat → M W Unit) (var : String)
    (body : Option Node) (text : String) (rest : List String) (s : State W) :
    forRuns E ev var body (text :: rest) s =
      (ev body 0 { s with world := E.setvar var text 0 s.world }).andThen fun _ s2 =>
        forRuns E ev var body rest s2 := by
  rw [forRuns]
  simp only [bind_apply, modW_apply, andThen_ok]

theorem evalfor_loop_eq_forRuns {W : Type} (E : Ext W) (ev : Option Node → Nat → M W Unit) (var : String)
    (body : Option Node) :
    ∀ (words : List String) (s : State W),
      ForBodies E ev var body (fun _ s2 => s2.evalskip = 0) words s →
      evalfor_loop E ev var body words s = forRuns E ev var body words s := by
  intro words
  induction words with
  | nil => intro s _; rw [evalfor_loop, forRuns]
  | cons text rest ih =>
    intro s h
    rw [evalfor_loop_cons, forRuns_cons]
    cases h2 : ev body 0 { s with world := E.setvar var text 0 s.world } with
    | stop r s2 => rfl
    | timeout => rfl
    | ok a s2 =>
      obtain ⟨hz, hrest⟩ := h s2 h2
      simp only [andThen_ok]
      rw [if_neg (by simpa using hz)]
      exact ih s2 hrest

theorem forRuns_loopnest {W : Type} (E : Ext W) (ev : Option Node → Nat → M W Unit) (var : String)
    (body : Option Node) :
    ∀ (words : List String) (s s1 : State W),
      ForBodies E ev var body (fun s1 s2 => s2.loopnest = s1.loopnest) words s →
      forRuns E ev var body words s = Out.ok () s1 → s1.loopnest = s.loopnest := by
  intro words
  induction words with
  | nil =>
    intro s s1 _ h
    rw [forRuns] at h
    cases h
    rfl
  | cons text rest ih =>
    intro s s1 h hr
    rw [forRuns_cons] at hr
    cases h2 : ev body 0 { s with world := E.setvar var text 0 s.world } with
    | stop r s2 => rw [h2] at hr; cases hr
    | timeout => rw [h2] at hr; cases hr
    | ok a s2 =>
      obtain ⟨hz, hrest⟩ := h s2 h2
      rw [h2, andThen_ok] at hr
      rw [ih s2 s1 hrest hr, hz]

theorem ForBodies_of_check {W : Type} (E : Ext W) (ev : Option Node → Nat → M W Unit)
    (var : String) (body : Option Node) (P : State W → State W → Prop)
    [∀ a b, Decidable (P a b)] :
    ∀ (words : List String) (s : State W),
      ForBodies.check E ev var body (fun a b => decide (P a b)) words s = true →
      ForBodies E ev var body P words s := by
  intro words
  induction words with
  | nil => intro s _; trivial
  | cons text rest ih =>
    intro s h s2 h2
    rw [ForBodies.check, h2] at h
    simp only [Bool.and_eq_true, decide_eq_true_eq] at h
    exact ⟨h.1, ih s2 h.2⟩

/-- The iterations of a `for` loop: let the expansion of the words yield the list `words`, and let no
evaluation of the body set the skip marker.  Then `evalfor` sets the exit status to 0,
increments `loopnest`, and for each word in order assigns it to the variable and evaluates the
body (`forRuns`): the body is evaluated once for each word, right after the assignment; then
`loopnest` is decremented.  When the list is empty the body is not evaluated and the exit
status is 0.  When the evaluations of the body leave `loopnest` as they find it, `loopnest` is
the same after the loop as before it. -/
theorem evalfor_runs {W : Type} (E : Ext W) (ev : Option Node → Nat → M W Unit) (args : List Word)
    (body : Option Node) (var : String) (s s0 : State W) (words : List String)
    (hargs : evalfor_args E args [] s = Out.ok (some words) s0)
    (hskip : ForBodies E ev var body (fun _ s2 => s2.evalskip = 0) words
      { s0 with exitstatus := 0, loopnest := s0.loopnest + 1 })
    (hnest : ForBodies E ev var body (fun s1 s2 => s2.loopnest = s1.loopnest) words
      { s0 with exitstatus := 0, loopnest := s0.loopnest + 1 }) :
    evalfor E ev args body var s =
        (forRuns E ev var body words { s0 with exitstatus := 0, loopnest := s0.loopnest + 1 }).andThen
          (fun _ s2 => Out.ok () { s2 with loopnest := s2.loopnest - 1 })
    ∧ (words = [] → evalfor E ev args body var s = Out.ok () { s0 with exitstatus := 0 })
    ∧ (∀ s1, evalfor E ev args body var s = Out.ok () s1 → s1.loopnest = s0.loopnest) := by
  have main : evalfor E ev args body var s =
      (forRuns E ev var body words { s0 with exitstatus := 0, loopnest := s0.loopnest + 1 }).andThen
        (fun _ s2 => Out.ok () { s2 with loopnest := s2.loopnest - 1 }) := by
    simp only [evalfor, bind_apply, hargs, andThen_ok, modS_apply]
    rw [evalfor_loop_eq_forRuns E ev var body words _ hskip]
    rfl
  refine ⟨main, ?_, ?_⟩
  · intro hw
    subst hw
    rw [main, forRuns]
    simp only [pure_apply, andThen_ok, add_sub_cancel_right]
  · intro s1 h1
    rw [main] at h1
    cases hr : forRuns E ev var body words { s0 with exitstatus := 0, loopnest := s0.loopnest + 1 } with
    | stop r s2 => rw [hr] at h1; cases h1
    | timeout => rw [hr] at h1; cases h1
    | ok a s2 =>
      rw [hr, andThen_ok] at h1
      cases h1
      have := forRuns_loopnest E ev var body words _ s2 hnest hr
      simp only [this, add_sub_cancel_right]

/-- An instance: `for i in 1 2 3; do echo $i; done` assigns 1, 2, 3 to `i` in this order and
prints each value right after the assignment. -/
theorem evalfor_runs_witness :
    observe (evalfor simExt (evaltree simExt 2) [⟨"1"⟩, ⟨"2"⟩, ⟨"3"⟩] (simCmd ["echo", "$i"]) "i"
        simInit)
      = ("ok", 0, 0, 0, 0, 0,
          { vars := [("i", "3"), ("i", "2"), ("i", "1")], jobs := [],
            output := [["1"], ["2"], ["3"]], tried := [] }) := by
  have h := evalfor_runs simExt (evaltree simExt 2) [⟨"1"⟩, ⟨"2"⟩, ⟨"3"⟩] (simCmd ["echo", "$i"])
    "i" simInit simInit ["1", "2", "3"] rfl
    (ForBodies_of_check _ _ _ _ _ _ _ (by decide!))
    (ForBodies_of_check _ _ _ _ _ _ _ (by decide!))
  rw [h.1]
  decide!

/-! ### `case` -/

theorem firstMatch_cons {W : Type} (E : Ext W) (text : String) (alt : Word × Option Node)
    (rest : List (Word × Option Node)) (s : State W) :
    firstMatch E text (alt :: rest) s =
      (E.casematch alt.1 text s).andThen fun m s1 =>
        if m = true then Out.ok (some alt.2) s1 else firstMatch E text rest s1 := by
  rw [firstMatch, bind_apply]
  congr 1
  funext m s1
  simp only [ite_apply_state, pure_apply]

theorem firstMatch_append {W : Type} (E : Ext W) (text : String) (l2 : List (Word × Option Node)) :
    ∀ (l1 : List (Word × Option Node)) (s : State W),
      firstMatch E text (l1 ++ l2) s =
        (firstMatch E text l1 s).andThen fun r s1 =>
          match r with
          | some b => Out.ok (some b) s1
          | none => firstMatch E text l2 s1 := by
  intro l1
  induction l1 with
  | nil => intro s; rw [firstMatch]; rfl
  | cons alt rest ih =>
    intro s
    rw [List.cons_append, firstMatch_cons, firstMatch_cons]
    cases E.casematch alt.1 text s with
    | stop r s1 => rfl
    | timeout => rfl
    | ok m s1 =>
      simp only [andThen_ok]
      cases m with
      | true => rfl
      | false => simp only [Bool.false_eq_true, if_false]; exact ih s1

theorem firstMatch_evalskip {W : Type} (E : Ext W) (text : String)
    (hcm : ∀ p t (s1 : State W) m s2, E.casematch p t s1 = Out.ok m s2 → s2.evalskip = s1.evalskip) :
    ∀ (l : List (Word × Option Node)) (s s1 : State W) (r : Option (Option Node)),
      firstMatch E text l s = Out.ok r s1 → s1.evalskip = s.evalskip := by
  intro l
  induction l with
  | nil =>
    intro s s1 r h
    rw [firstMatch] at h
    cases h
    rfl
  | cons alt rest ih =>
    intro s s1 r h
    rw [firstMatch_cons] at h
    cases hm : E.casematch alt.1 text s with
    | stop x s2 => rw [hm] at h; cases h
    | timeout => rw [hm] at h; cases h
    | ok m s2 =>
      rw [hm, andThen_ok] at h
      have h2 := hcm _ _ _ _ _ hm
      cases m with
      | true =>
        simp only [if_true] at h
        cases h
        exact h2
      | false =>
        simp only [Bool.false_eq_true, if_false] at h
        rw [ih s2 s1 r h, h2]

theorem evalcase_patterns_eq {W : Type} (E : Ext W) (ev : Option Node → Nat → M W Unit) (text : String)
    (body : Option Node) (flags : Nat) :
    ∀ (pats : List Word) (s : State W),
      evalcase_patterns E ev text body flags pats s =
        (firstMatch E text (pats.map (fun patp => (patp, body))) s).andThen fun r s1 =>
          match r with
          | some b =>
            (if s1.evalskip = 0 then ev b flags s1 else Out.ok () s1).andThen fun _ s2 =>
              Out.ok true s2
          | none => Out.ok false s1 := by
  intro pats
  induction pats with
  | nil =>
    intro s
    rw [evalcase_patterns, List.map_nil, firstMatch]
    rfl
  | cons patp rest ih =>
    intro s
    rw [evalcase_patterns, List.map_cons, firstMatch_cons, bind_apply]
    cases hm : E.casematch patp text s with
    | stop r s1 => rfl
    | timeout => rfl
    | ok m s1 =>
      simp only [andThen_ok]
      cases m with
      | true =>
        simp only [if_true, bind_apply, getS_apply, andThen_ok, pure_apply, ite_apply_state]
        rfl
      | false =>
        simp only [Bool.false_eq_true, if_false]
        exact ih s1

theorem evalcase_cases_eq {W : Type} (E : Ext W) (ev : Option Node → Nat → M W Unit) (text : String)
    (flags : Nat) :
    ∀ (cases : List (List Word × Option Node)) (s : State W),
      evalcase_cases E ev text flags cases s =
        (firstMatchArms E text cases s).andThen fun r s1 =>
          match r with
          | some b => if s1.evalskip = 0 then ev b flags s1 else Out.ok () s1
          | none => Out.ok () s1 := by
  intro cases
  induction cases with
  | nil =>
    intro s
    rw [evalcase_cases, firstMatchArms]
    rfl
  | cons cp rest ih =>
    intro s
    rw [evalcase_cases, firstMatchArms]
    simp only [bind_apply, getS_apply, andThen_ok, ite_apply_state, pure_apply]
    by_cases h0 : s.evalskip ≠ 0
    · rw [if_pos h0, if_pos h0]
      rfl
    · rw [if_neg h0, if_neg h0, evalcase_patterns_eq]
      cases hf : firstMatch E text (cp.1.map (fun patp => (patp, cp.2))) s with
      | stop r s1 => rfl
      | timeout => rfl
      | ok r s1 =>
        simp only [andThen_ok]
        cases r with
        | some b =>
          simp only [andThen_ok, pure_apply]
          by_cases h1 : s1.evalskip = 0
          · rw [if_pos h1]
            cases hev : ev b flags s1 <;>
              simp only [andThen_ok, andThen_stop, andThen_timeout, if_true, pure_apply]
          · rw [if_neg h1]
            simp only [andThen_ok, if_true, pure_apply]
        | none =>
          simp only [andThen_ok, Bool.false_eq_true, if_false]
          exact ih s1

theorem firstMatchArms_eq {W : Type} (E : Ext W) (text : String)
    (hcm : ∀ p t (s1 : State W) m s2, E.casematch p t s1 = Out.ok m s2 → s2.evalskip = s1.evalskip) :
    ∀ (cases : List (List Word × Option Node)) (s : State W), s.evalskip = 0 →
      firstMatchArms E text cases s = firstMatch E text (caseAlternatives cases) s := by
  intro cases
  induction cases with
  | nil =>
    intro s _
    rw [firstMatchArms]
    rfl
  | cons cp rest ih =>
    intro s h0
    have halt : caseAlternatives (cp :: rest)
        = cp.1.map (fun patp => (patp, cp.2)) ++ caseAlternatives rest := by
      simp only [caseAlternatives, List.flatMap_cons]
    rw [firstMatchArms, halt, firstMatch_append]
    simp only [bind_apply, getS_apply, andThen_ok, h0, ne_eq, not_true_eq_false, if_false]
    cases hf : firstMatch E text (cp.1.map (fun patp => (patp, cp.2))) s with
    | stop r s1 => rfl
    | timeout => rfl
    | ok r s1 =>
      have h1 : s1.evalskip = 0 := by rw [firstMatch_evalskip E text hcm _ _ _ _ hf, h0]
      simp only [andThen_ok]
      cases r with
      | some b => rfl
      | none => exact ih s1 h1

/-- C9: `evalcase` expands the subject and then searches the arms top to bottom, the patterns
of an arm left to right, stopping at the first pattern that matches (`firstMatchArms`): no
pattern after it is tried.  Only then is a body evaluated, and it can only be the body of the
arm of that pattern, with the flags of the node; when no pattern matches no body is evaluated.
When moreover the `case` is evaluated with a clear skip marker, which the expansion of the
subject and the matching of patterns leave as it is, the search is the plain first-match scan
over all patterns in order (`firstMatch` over `caseAlternatives`) and the body it selects is
evaluated. -/
theorem evalcase_first_match {W : Type} (E : Ext W) (ev : Option Node → Nat → M W Unit) (expr : Word)
    (cases : List (List Word × Option Node)) (flags : Nat) (s : State W) :
    evalcase E ev expr cases flags s =
        (E.expandarg_word expr s).andThen (fun text s1 =>
          (firstMatchArms E text cases s1).andThen fun r s2 =>
            match r with
            | some body => if s2.evalskip = 0 then ev body flags s2 else Out.ok () s2
            | none => Out.ok () s2)
    ∧ (s.evalskip = 0 →
        (∀ (s1 : State W) t s2, E.expandarg_word expr s1 = Out.ok t s2 → s2.evalskip = s1.evalskip) →
        (∀ p t (s1 : State W) m s2, E.casematch p t s1 = Out.ok m s2 → s2.evalskip = s1.evalskip) →
        evalcase E ev expr cases flags s =
          (E.expandarg_word expr s).andThen fun text s1 =>
            (firstMatch E text (caseAlternatives cases) s1).andThen fun r s2 =>
              match r with
              | some body => ev body flags s2
              | none => Out.ok () s2) := by
  have gen : evalcase E ev expr cases flags s =
      (E.expandarg_word expr s).andThen (fun text s1 =>
        (firstMatchArms E text cases s1).andThen fun r s2 =>
          match r with
          | some body => if s2.evalskip = 0 then ev body flags s2 else Out.ok () s2
          | none => Out.ok () s2) := by
    rw [evalcase, bind_apply]
    congr 1
    funext text s1
    exact evalcase_cases_eq E ev text flags cases s1
  refine ⟨gen, ?_⟩
  intro h0 hexp hcm
  rw [gen]
  cases he : E.expandarg_word expr s with
  | stop r s1 => rfl
  | timeout => rfl
  | ok text s1 =>
    have h1 : s1.evalskip = 0 := by rw [hexp _ _ _ he, h0]
    simp only [andThen_ok]
    rw [firstMatchArms_eq E text hcm cases s1 h1]
    cases hf : firstMatch E text (caseAlternatives cases) s1 with
    | stop r s2 => rfl
    | timeout => rfl
    | ok r s2 =>
      have h2 : s2.evalskip = 0 := by rw [firstMatch_evalskip E text hcm _ _ _ _ hf, h1]
      simp only [andThen_ok]
      cases r with
      | some b => simp only [h2, if_true]
      | none => rfl

/-- Witness for C9: in `case b in a) echo 1;; b|c) echo 2;; *) echo 3;; esac` the patterns
`a` and `b` are tried, `c` and `*` are not, and only `echo 2` runs. -/
theorem evalcase_first_match_witness :
    simInit.evalskip = 0
    ∧ observe (evalcase simExt (evaltree simExt 2) ⟨"b"⟩
        [([⟨"a"⟩], simCmd ["echo", "1"]), ([⟨"b"⟩, ⟨"c"⟩], simCmd ["echo", "2"]),
          ([⟨"*"⟩], simCmd ["echo", "3"])] 0 simInit)
      = ("ok", 0, 0, 0, 0, 0,
          { vars := [], jobs := [], output := [["2"]], tried := ["a", "b"] }) := by
  refine ⟨rfl, ?_⟩
  rw [(evalcase_first_match simExt (evaltree simExt 2) _ _ 0 simInit).2 rfl
    (fun s1 t s2 h => by cases h; rfl) (fun p t s1 m s2 h => by cases h; rfl)]
  decide!

/-! ### Functions and `return` -/

theorem returncmd_eq {W : Type} (E : Ext W) (name a : String) (rest : List String) (k : Int) (s : State W)
    (hk : E.number a = some k) :
    returncmd E (name :: a :: rest) s = Out.ok k
      (if s.funcnest ≠ 0 then { s with evalskip := SKIPFUNC, skipcount := 1 } else s) := by
  simp only [returncmd, bind_apply, getS_apply, andThen_ok, number, hk, pure_apply,
    ite_apply_state, modS_apply]
  split_ifs <;> rfl

/-- C10: let `f` be called as a command, not in the background and without `EV_EXIT`, and let
the evaluation of its body end in a `return k`: it returns with the skip marker `SKIPFUNC`
and the exit status `k`.  Then the call returns with exit status `k` and a clear skip marker
(and `funcnest`, the positional parameters and the local variables restored), so that a
following command is evaluated.  Moreover `returncmd` with the argument `k` returns `k`, which
becomes the exit status, and it sets the skip marker only when `funcnest` is not 0: outside
any function it leaves the state as it is. -/
theorem function_return {W : Type} (E : Ext W) (ev : Option Node → Nat → M W Unit) (redirs : List Redir)
    (flags : Nat) (func : Option Node) (argv varlist : List String) (k : Int)
    (s s1 sb : State W) (w1 : W)
    (hflags : flags &&& EV_EXIT = 0)
    (hredir : E.redirect redirs REDIR_PUSH s.world = Out.ok () w1)
    (hloc : mklocals E varlist
      { s with world := w1, localvars := [],
               shellparam := { nparam := (argv.length : Int) - 1, malloc := false, p := argv.tail,
                               optnext := none } } = Out.ok () s1)
    (hbody : ev func 0 { s1 with funcnest := s1.funcnest + 1 } = Out.ok () sb)
    (hret : sb.evalskip = SKIPFUNC ∧ sb.exitstatus = k) :
    evalcommand_function E ev redirs flags func argv varlist s =
        Out.ok () { sb with evalskip := 0, skipcount := 0, funcnest := sb.funcnest - 1,
                            shellparam := s.shellparam, localvars := s.localvars,
                            world := E.popredir (E.poplocalvars sb.localvars sb.world) }
    ∧ (∀ (name a : String) (rest : List String) (s0 : State W), E.number a = some k →
        returncmd E (name :: a :: rest) s0 = Out.ok k
          (if s0.funcnest ≠ 0 then { s0 with evalskip := SKIPFUNC, skipcount := 1 } else s0)) := by
  refine ⟨?_, fun name a rest s0 hk => returncmd_eq E name a rest k s0 hk⟩
  obtain ⟨hr1, hr2⟩ := hret
  simp only [evalcommand_function, bind_apply, liftW, hredir, andThen_ok, getS_apply, modS_apply,
    trycatch, hloc, hbody, poplocals, modW_apply, hr1, if_true, ite_apply_state, hflags,
    ne_eq, not_true_eq_false, if_false, pure_apply]

/-- Witness for C10: the call of a function whose body is `return 7` returns with status 7
and a clear skip marker, and `f(){ return 7; }; f; echo $?` prints 7. -/
theorem function_return_witness :
    observe (evalcommand_function simExt (evaltree simExt 2) [] 0 (simCmd ["return", "7"])
        ["f"] [] simInit)
      = ("ok", 7, 0, 0, 0, 0, { vars := [], jobs := [], output := [], tried := [] })
    ∧ observe (evaltree simExt 5
        (some (Node.nbinary BinType.NSEMI (some (Node.ndefun "f" (simCmd ["return", "7"])))
          (some (Node.nbinary BinType.NSEMI (simCmd ["f"]) (simCmd ["echo", "$?"]))))) 0 simInit)
      = ("ok", 0, 0, 0, 0, 0, { vars := [], jobs := [], output := [["7"]], tried := [] }) := by
  refine ⟨?_, by decide!⟩
  have h := function_return simExt (evaltree simExt 2) [] 0 (simCmd ["return", "7"]) ["f"] [] 7
    simInit _ _ simInit.world (by decide) rfl rfl
    (Out.eq_ok_of_isOk _ simInit () (by decide!)) ⟨by decide!, by decide!⟩
  rw [h.1]
  decide!

/-! ### Invariants of an evaluation -/

section
variable {W : Type} {P : State W → Prop} {Q : Stop → State W → Prop}

theorem holds_pure {α : Type} (a : α) : Holds P Q (pure a : M W α) := ⟨fun _ h => h⟩

theorem holds_bind {α β : Type} {m : M W α} {f : α → M W β} (hm : Holds P Q m)
    (hf : ∀ a, Holds P Q (f a)) : Holds P Q (m >>= f) := by
  constructor
  intro s hs
  have h1 := hm.run s hs
  rw [bind_apply]
  cases hms : m s with
  | ok a s1 => rw [hms] at h1; exact (hf a).run s1 h1
  | stop r s1 => rw [hms] at h1; exact h1
  | timeout => trivial

theorem holds_getS : Holds P Q (getS : M W (State W)) := ⟨fun _ h => h⟩

theorem holds_modS {f : State W → State W} (hf : ∀ s, P s → P (f s)) : Holds P Q (modS f) :=
  ⟨fun s h => hf s h⟩

theorem holds_stopM {α : Type} (L : Law P Q) (r : Stop) : Holds P Q (stopM r : M W α) :=
  ⟨fun s h => L.stop r s h⟩

theorem holds_error {α : Type} (L : Law P Q) : Holds P Q (error : M W α) :=
  ⟨fun s h => L.stop _ s h⟩

theorem holds_exitshell {α : Type} (L : Law P Q) (st : Int) : Holds P Q (exitshell st : M W α) :=
  ⟨fun s h => L.stop _ s h⟩

theorem holds_timeout {α : Type} : Holds P Q (fun _ => Out.timeout : M W α) :=
  ⟨fun _ _ => trivial⟩

theorem holds_modW (L : Law P Q) (f : W → W) : Holds P Q (modW f) :=
  ⟨fun s h => L.world s _ h⟩

theorem holds_liftW {α : Type} (L : Law P Q) (f : W → Out W α) : Holds P Q (liftW f) := by
  constructor
  intro s h
  unfold liftW
  cases f s.world with
  | ok a w => exact L.world s w h
  | stop r w => exact L.stop r _ (L.world s w h)
  | timeout => trivial

theorem holds_ite {α : Type} (c : Prop) [Decidable c] {m1 m2 : M W α} (h1 : Holds P Q m1)
    (h2 : Holds P Q m2) : Holds P Q (if c then m1 else m2) := by
  split_ifs <;> assumption

end

/-! ### The command cache: a function defined over a marked entry -/

/-- C12, evaluated at a failing input.  With `PATH=/bin`, after `ls` has been run (cached as
found at index 0) and the directory changed (`hashcd` marks the entry), `ls() { echo hi; }`
leaves a function entry that still carries the `rehash` mark, so the next `ls` searches the
path again, reading the body pointer as the recorded index: when the pointer reads as a
positive number the entry is deleted and the command is reported as not found (status 2, the
body not run); when it reads as a negative number the program `/bin/ls` is run in its place.
Without the change of directory the function is called. -/
theorem defun_rehash_session :
    observe (lsSession 4096 true)
        = ("ok", 2, 0, 0, 0, 0,
            { vars := [("PATH", "/bin")], jobs := ["ls"], output := [], tried := [] })
      ∧ cacheview ((lsSession 4096 true).state simInit) "ls" = []
      ∧ observe (lsSession (-4096) true)
        = ("ok", 0, 0, 0, 0, 0,
            { vars := [("PATH", "/bin")], jobs := ["ls", "ls"], output := [], tried := [] })
      ∧ cacheview ((lsSession (-4096) true).state simInit) "ls"
        = [(bucket "ls", CmdType.CMDNORMAL, some 0, false)]
      ∧ observe (lsSession 4096 false)
        = ("ok", 0, 0, 0, 0, 0,
            { vars := [("PATH", "/bin")], jobs := ["ls"], output := [["hi"]], tried := [] }) := by
  refine ⟨?_, ?_, ?_, ?_, ?_⟩ <;> decide!

/-! ### The invariant of the command cache -/

theorem chainpos_le (name : String) (l : List TblEntry) : chainpos name l ≤ l.length := by
  induction l with
  | nil => simp [chainpos]
  | cons e rest ih =>
    simp only [chainpos]
    split_ifs
    · exact Nat.zero_le _
    · simpa using ih

theorem chainpos_get (name : String) (l : List TblEntry) (h : chainpos name l < l.length) :
    ∃ e, l.get? (chainpos name l) = some e ∧ e.cmdname = name := by
  induction l with
  | nil => simp [chainpos] at h
  | cons e rest ih =>
    simp only [chainpos] at h ⊢
    split_ifs at h ⊢ with hc
    · exact ⟨e, rfl, hc⟩
    · simp only [List.length_cons, Nat.add_lt_add_iff_right] at h
      simpa using ih h

theorem chainpos_eq_length (name : String) (l : List TblEntry) :
    chainpos name l = l.length ↔ ∀ e ∈ l, e.cmdname ≠ name := by
  induction l with
  | nil => simp [chainpos]
  | cons e rest ih =>
    simp only [chainpos]
    split_ifs with hc
    · simp [hc]
    · simp [hc, ih]

theorem chainpos_before (name : String) (l : List TblEntry) (i : Nat) (e : TblEntry)
    (hi : i < chainpos name l) (he : l.get? i = some e) : e.cmdname ≠ name := by
  induction l generalizing i with
  | nil => simp at he
  | cons a rest ih =>
    simp only [chainpos] at hi
    split_ifs at hi with hc
    · omega
    · cases i with
      | zero => simp at he; subst he; exact hc
      | succ j => exact ih j (by omega) (by simpa using he)

/-- In a chain without two entries of one name, unlinking the entry `cmdlookup` finds removes
every entry of that name and nothing else. -/
theorem eraseIdx_chainpos (name : String) (l : List TblEntry)
    (hl : (l.map (fun e => e.cmdname)).Nodup) :
    l.eraseIdx (chainpos name l) = l.filter (fun e => decide (e.cmdname ≠ name)) := by
  induction l with
  | nil => simp [chainpos]
  | cons e rest ih =>
    simp only [List.map_cons, List.nodup_cons] at hl
    simp only [chainpos]
    split_ifs with hc
    · have : ∀ x ∈ rest, x.cmdname ≠ name := by
        intro x hx hxn
        exact hl.1 (List.mem_map.2 ⟨x, hx, by rw [hxn, hc]⟩)
      simp only [List.eraseIdx_zero, List.tail_cons, hc, ne_eq, not_true_eq_false, decide_False,
        Bool.false_eq_true, not_false_eq_true, List.filter_cons_of_neg]
      symm
      rw [List.filter_eq_self]
      intro x hx
      simpa using this x hx
    · simp only [List.eraseIdx_cons_succ, ih hl.2, ne_eq, hc, not_false_eq_true, decide_True,
        List.filter_cons_of_pos]

theorem cacheOK_append {t : Nat → List TblEntry} (h : CacheOK t) (e : TblEntry)
    (hn : ∀ x ∈ t (bucket e.cmdname), x.cmdname ≠ e.cmdname) :
    CacheOK (Function.update t (bucket e.cmdname) (t (bucket e.cmdname) ++ [e])) := by
  intro b
  by_cases hb : b = bucket e.cmdname
  · subst hb
    simp only [Function.update_same, List.mem_append, List.mem_singleton, List.map_append,
      List.map_cons, List.map_nil]
    refine ⟨?_, ?_⟩
    · rintro x (hx | hx)
      · exact (h _).1 x hx
      · rw [hx]
    · rw [List.nodup_append]
      refine ⟨(h _).2, by simp, ?_⟩
      intro a ha hb
      simp only [List.mem_singleton] at hb
      obtain ⟨x, hx, hxa⟩ := List.mem_map.1 ha
      exact hn x hx (by rw [hxa, hb])
  · simp only [Function.update_noteq hb]
    exact h b

theorem map_cmdname_modify (f : TblEntry → TblEntry) (hf : ∀ e, (f e).cmdname = e.cmdname)
    (l : List TblEntry) (i : Nat) :
    (l.modify f i).map (fun e => e.cmdname) = l.map (fun e => e.cmdname) := by
  induction l generalizing i with
  | nil => cases i <;> rfl
  | cons a rest ih =>
    cases i with
    | zero => simp [List.modify, hf]
    | succ j => simpa [List.modify] using ih j

theorem cacheOK_of_names {t u : Nat → List TblEntry} (h : CacheOK t)
    (hu : ∀ b, ((u b).map (fun e => e.cmdname)).Sublist ((t b).map (fun e => e.cmdname))) :
    CacheOK u := by
  intro b
  refine ⟨?_, (h b).2.sublist (hu b)⟩
  intro e he
  have : e.cmdname ∈ (t b).map (fun e => e.cmdname) :=
    (hu b).subset (List.mem_map.2 ⟨e, he, rfl⟩)
  obtain ⟨x, hx, hxe⟩ := List.mem_map.1 this
  rw [← hxe]
  exact (h b).1 x hx

theorem cacheOK_setentry {W : Type} (pos : Nat × Nat) (f : TblEntry → TblEntry)
    (hf : ∀ e, (f e).cmdname = e.cmdname) (s : State W) (h : CacheOK s.cmdtable) :
    CacheOK (setentry pos f s).cmdtable := by
  refine cacheOK_of_names h fun b => ?_
  simp only [setentry]
  by_cases hb : b = pos.1
  · subst hb
    rw [Function.update_same, map_cmdname_modify f hf]
  · rw [Function.update_noteq hb]

theorem cacheOK_eraseIdx {t : Nat → List TblEntry} (h : CacheOK t) (b i : Nat) :
    CacheOK (Function.update t b ((t b).eraseIdx i)) := by
  refine cacheOK_of_names h fun c => ?_
  by_cases hb : c = b
  · subst hb
    rw [Function.update_same]
    exact (List.eraseIdx_sublist _ _).map _
  · rw [Function.update_noteq hb]

theorem cacheOK_filter {t : Nat → List TblEntry} (h : CacheOK t) (p : TblEntry → Bool) :
    CacheOK (fun b => if b < CMDTABLESIZE then (t b).filter p else t b) := by
  refine cacheOK_of_names h fun c => ?_
  dsimp only
  split_ifs
  · exact (List.filter_sublist _).map _
  · exact List.Sublist.refl _

theorem cacheOK_map {t : Nat → List TblEntry} (h : CacheOK t) (f : TblEntry → TblEntry)
    (hf : ∀ e, (f e).cmdname = e.cmdname) :
    CacheOK (fun b => if b < CMDTABLESIZE then (t b).map f else t b) := by
  refine cacheOK_of_names h fun c => ?_
  dsimp only
  split_ifs
  · rw [List.map_map]
    have : (fun e => e.cmdname) ∘ f = fun e : TblEntry => e.cmdname := funext hf
    rw [this]
  · exact List.Sublist.refl _

theorem cache_law {W : Type} :
    Law (fun s : State W => CacheOK s.cmdtable) (fun _ s => CacheOK s.cmdtable) :=
  ⟨fun _ _ h => h, fun _ _ h => h⟩

theorem cachekept_cmdlookup {W : Type} (name : String) (add : Bool) :
    CacheKept (cmdlookup name add : M W (Option (Nat × Nat))) := by
  constructor
  intro s h
  unfold cmdlookup
  dsimp only
  split_ifs with h1 h2
  · exact h
  · have hn : ∀ x ∈ s.cmdtable (bucket name), x.cmdname ≠ name :=
      (chainpos_eq_length name _).1 (le_antisymm (chainpos_le _ _) (not_lt.1 h1))
    exact cacheOK_append h
      { param := Param.index 0, cmdtype := CmdType.CMDUNKNOWN, rehash := false, cmdname := name } hn
  · exact h

theorem cachekept_delete_cmd_entry {W : Type} : CacheKept (delete_cmd_entry : M W Unit) := by
  constructor
  intro s h
  unfold delete_cmd_entry
  dsimp only
  split_ifs
  · exact cacheOK_eraseIdx h _ _
  · exact h

theorem cachekept_setentry {W : Type} (pos : Nat × Nat) (f : TblEntry → TblEntry)
    (hf : ∀ e, (f e).cmdname = e.cmdname) : CacheKept (modS (setentry pos f) : M W Unit) :=
  holds_modS fun s h => cacheOK_setentry pos f hf s h

theorem cachekept_addcmdentry {W : Type} (E : Ext W) (name : String) (entry : CmdEntry) :
    CacheKept (addcmdentry E name entry) := by
  unfold addcmdentry
  repeat' first
    | intro _
    | exact holds_pure _ | exact holds_getS | exact holds_modW cache_law _
    | exact holds_stopM cache_law _ | exact cachekept_cmdlookup _ _
    | exact cachekept_setentry _ _ (fun _ => rfl)
    | apply holds_bind | split

theorem cachekept_find_command_success {W : Type} (cmdp : Option (Nat × Nat)) :
    CacheKept (find_command_success cmdp : M W CmdEntry) := by
  unfold find_command_success
  repeat' first
    | intro _
    | exact holds_pure _ | exact holds_getS | exact holds_modW cache_law _
    | exact holds_stopM cache_law _ | exact cachekept_cmdlookup _ _
    | exact cachekept_setentry _ _ (fun _ => rfl)
    | apply holds_bind | split

theorem cachekept_find_command_install {W : Type} (name : String) (cmdtype : CmdType) (i : Int) :
    CacheKept (find_command_install name cmdtype i : M W CmdEntry) := by
  unfold find_command_install
  repeat' first
    | intro _
    | exact holds_pure _ | exact holds_getS | exact holds_modW cache_law _
    | exact holds_stopM cache_law _ | exact cachekept_cmdlookup _ _
    | exact cachekept_setentry _ _ (fun _ => rfl)
    | exact cachekept_find_command_success _
    | apply holds_bind | split

theorem cachekept_find_command_loop {W : Type} (E : Ext W) (rcf : String → M W Unit)
    (hrcf : ∀ f, CacheKept (rcf f)) (name : String) (cmdp : Option (Nat × Nat)) (prev : Int) :
    ∀ (k : Nat) (path : Option (List Char)) (index e : Int),
      CacheKept (find_command_loop E rcf name cmdp prev k path index e) := by
  intro k
  induction k with
  | zero => intro path index e; unfold find_command_loop; exact holds_timeout
  | succ k ih =>
    intro path index e
    unfold find_command_loop
    repeat' first
      | intro _
      | exact holds_pure _ | exact holds_getS | exact holds_modW cache_law _
      | exact holds_stopM cache_law _ | exact holds_error cache_law
      | exact cachekept_cmdlookup _ _
      | exact cachekept_find_command_success _
      | exact cachekept_find_command_install _ _ _
      | exact ih _ _ _
      | exact hrcf _
      | exact holds_modS (fun _ h => h)
      | exact ⟨fun _ h => h⟩
      | apply holds_bind | apply holds_ite | dsimp only | split

theorem cachekept_find_command {W : Type} (E : Ext W) (rcf : String → M W Unit)
    (hrcf : ∀ f, CacheKept (rcf f)) (name : String) (printerr : Bool) :
    CacheKept (find_command E rcf name printerr) := by
  unfold find_command
  repeat' first
    | intro _
    | exact holds_pure _ | exact holds_getS | exact holds_modW cache_law _
    | exact holds_stopM cache_law _ | exact cachekept_cmdlookup _ _
    | exact cachekept_find_command_success _
    | exact cachekept_find_command_install _ _ _
    | exact cachekept_find_command_loop E rcf hrcf _ _ _ _ _ _ _
    | exact cachekept_delete_cmd_entry
    | apply holds_bind | apply holds_ite | dsimp only | split

theorem cachekept_hashcd {W : Type} : CacheKept (hashcd : M W Unit) :=
  holds_modS fun s h => cacheOK_map h _ (fun e => by
    by_cases hp : pathbound s e = true <;> simp [hp])

theorem cachekept_clearcmdentry {W : Type} (E : Ext W) (firstchange : Int) :
    CacheKept (clearcmdentry E firstchange) :=
  holds_modS fun _ h => cacheOK_filter h _

theorem cachekept_deletefuncs {W : Type} (E : Ext W) : CacheKept (deletefuncs E) :=
  holds_modS fun _ h => cacheOK_filter h _

theorem cachekept_changepath {W : Type} (E : Ext W) (newval : String) :
    CacheKept (changepath E newval) := by
  unfold changepath
  repeat' first
    | intro _
    | exact holds_pure _ | exact holds_getS
    | exact cachekept_clearcmdentry _ _
    | exact holds_modS (fun _ h => h)
    | apply holds_bind | apply holds_ite

theorem cachekept_unsetfunc {W : Type} (E : Ext W) (name : String) :
    CacheKept (unsetfunc E name) := by
  unfold unsetfunc freeparam_func
  repeat' first
    | intro _
    | exact holds_pure _ | exact holds_getS | exact holds_modW cache_law _
    | exact cachekept_cmdlookup _ _
    | exact cachekept_delete_cmd_entry
    | apply holds_bind | apply holds_ite | dsimp only | split

theorem cachekept_printentry {W : Type} (E : Ext W) (cmdp : TblEntry) :
    CacheKept (printentry E cmdp) := by
  unfold printentry
  repeat' first
    | intro _
    | exact holds_pure _ | exact holds_getS | exact holds_modW cache_law _
    | exact holds_stopM cache_law _
    | exact holds_modS (fun _ h => h)
    | apply holds_bind | apply holds_ite | dsimp only | split

theorem cachekept_printentries {W : Type} (E : Ext W) (l : List TblEntry) :
    CacheKept (printentries E l) := by
  induction l with
  | nil => exact holds_pure _
  | cons cmdp rest ih =>
    unfold printentries
    exact holds_bind (cachekept_printentry E cmdp) (fun _ => ih)

theorem cachekept_nextopt {W : Type} (E : Ext W) (optstring : String) :
    CacheKept (nextopt E optstring) := by
  constructor
  intro s h
  unfold nextopt
  cases E.nextopt optstring s.argptr s.world with
  | ok r w => exact h
  | stop x w => exact h
  | timeout => trivial

theorem cachekept_hashcmd_opts {W : Type} (E : Ext W) :
    ∀ (k verbose : Nat), CacheKept (hashcmd_opts E k verbose) := by
  intro k
  induction k with
  | zero => intro verbose; unfold hashcmd_opts; exact holds_timeout
  | succ k ih =>
    intro verbose
    unfold hashcmd_opts
    repeat' first
      | intro _
      | exact holds_pure _ | exact cachekept_nextopt _ _ | exact cachekept_clearcmdentry _ _
      | exact ih _
      | apply holds_bind | apply holds_ite

theorem cachekept_hashcmd_names {W : Type} (E : Ext W) (rcf : String → M W Unit)
    (hrcf : ∀ f, CacheKept (rcf f)) (verbose : Nat) :
    ∀ k : Nat, CacheKept (hashcmd_names E rcf verbose k) := by
  intro k
  induction k with
  | zero => unfold hashcmd_names; exact holds_timeout
  | succ k ih =>
    unfold hashcmd_names
    repeat' first
      | intro _
      | exact holds_pure _ | exact holds_getS | exact holds_stopM cache_law _
      | exact cachekept_cmdlookup _ _ | exact cachekept_delete_cmd_entry
      | exact cachekept_find_command E rcf hrcf _ _
      | exact cachekept_printentry _ _
      | exact holds_modS (fun _ h => h)
      | exact ih
      | apply holds_bind | apply holds_ite | dsimp only | split

theorem cachekept_hashcmd {W : Type} (E : Ext W) (rcf : String → M W Unit)
    (hrcf : ∀ f, CacheKept (rcf f)) (argv : List String) : CacheKept (hashcmd E rcf argv) := by
  unfold hashcmd
  repeat' first
    | intro _
    | exact holds_pure _ | exact holds_getS
    | exact cachekept_printentries _ _ | exact cachekept_hashcmd_opts _ _ _
    | exact cachekept_hashcmd_names E rcf hrcf _ _
    | apply holds_bind | apply holds_ite

theorem cachekept_run {W : Type} (E : Ext W) (rcf : String → M W Unit)
    (hrcf : ∀ f, CacheKept (rcf f)) (op : CacheOp) : CacheKept (op.run E rcf) := by
  cases op <;> unfold CacheOp.run
  case find_command name printerr =>
    exact holds_bind (cachekept_find_command E rcf hrcf _ _) (fun _ => holds_pure _)
  case defun name func => exact cachekept_addcmdentry E _ _
  case addcmdentry name entry => exact cachekept_addcmdentry E _ _
  case unsetfunc name => exact cachekept_unsetfunc E _
  case hashcd => exact cachekept_hashcd
  case changepath newval => exact cachekept_changepath E _
  case clearcmdentry fc => exact cachekept_clearcmdentry E _
  case deletefuncs => exact cachekept_deletefuncs E
  case hashcmd argv =>
    exact holds_bind (holds_modS (fun _ h => h))
      (fun _ => holds_bind (cachekept_hashcmd E rcf hrcf _) (fun _ => holds_pure _))

theorem cacheOK_of_reachable {W : Type} (E : Ext W) (rcf : String → M W Unit)
    (hrcf : ∀ f, CacheKept (rcf f)) (s : State W) (h : Reachable E rcf s) :
    CacheOK s.cmdtable := by
  induction h with
  | empty s h0 => intro b; rw [h0 b]; simp
  | step s op _ ih =>
    have h1 := (cachekept_run E rcf hrcf op).run s ih
    cases hr : op.run E rcf s with
    | ok a s1 => rw [hr] at h1; exact h1
    | stop r s1 => rw [hr] at h1; exact h1
    | timeout => exact ih
  | other s s1 _ heq ih => rw [heq]; exact ih

theorem length_filter_name_le_one (l : List TblEntry) (name : String)
    (hl : (l.map (fun e => e.cmdname)).Nodup) :
    (l.filter (fun cmdp => decide (cmdp.cmdname = name))).length ≤ 1 := by
  induction l with
  | nil => simp
  | cons e rest ih =>
    simp only [List.map_cons, List.nodup_cons] at hl
    by_cases hc : e.cmdname = name
    · have : rest.filter (fun cmdp => decide (cmdp.cmdname = name)) = [] := by
        rw [List.filter_eq_nil_iff]
        intro x hx
        simp only [decide_eq_true_eq]
        intro hxn
        exact hl.1 (List.mem_map.2 ⟨x, hx, by rw [hxn, hc]⟩)
      simp [hc, this]
    · simpa [hc] using ih hl.2

theorem length_flatMap_le {α : Type} (f : Nat → List α) (b0 : Nat) (hf : ∀ b, b ≠ b0 → f b = [])
    (l : List Nat) (hl : l.Nodup) : (l.flatMap f).length ≤ (f b0).length := by
  induction l with
  | nil => simp
  | cons b rest ih =>
    simp only [List.nodup_cons] at hl
    simp only [List.flatMap_cons, List.length_append]
    by_cases hb : b = b0
    · subst hb
      have : rest.flatMap f = [] := by
        rw [List.flatMap_eq_nil_iff]
        intro x hx
        exact hf x (fun hxb => hl.1 (hxb ▸ hx))
      simp [this]
    · rw [hf b hb]
      simpa using ih hl.2

theorem cacheview_length {W : Type} (s : State W) (h : CacheOK s.cmdtable) (name : String) :
    (cacheview s name).length ≤ 1 := by
  unfold cacheview
  refine le_trans (length_flatMap_le _ (bucket name) ?_ _ (List.nodup_range _)) ?_
  · intro b hb
    rw [List.map_eq_nil_iff, List.filter_eq_nil_iff]
    intro x hx
    simp only [decide_eq_true_eq]
    intro hxn
    exact hb (by rw [← (h b).1 x hx, hxn])
  · rw [List.length_map]
    exact length_filter_name_le_one _ _ (h _).2

/-- C13: in every state of the cache reached from the empty table by `find_command`, `defun`,
`addcmdentry`, `unsetfunc`, `hashcd`, `changepath`, `clearcmdentry`, `deletefuncs` and `hashcmd`
(each run to its return or to the point where it stops, with anything in between that leaves
the table alone), each name has at most one entry over the 31 buckets and every entry is
chained in the bucket that its name hashes to.  The files of function definitions that
`find_command` reads are evaluated by `rcf`, which is taken to keep this invariant. -/
theorem cache_one_entry_per_name {W : Type} (E : Ext W) (rcf : String → M W Unit)
    (hrcf : ∀ f, CacheKept (rcf f)) (s : State W) (h : Reachable E rcf s) :
    (∀ name, (cacheview s name).length ≤ 1)
      ∧ ∀ b, b < CMDTABLESIZE → ∀ e ∈ s.cmdtable b, bucket e.cmdname = b :=
  ⟨fun name => cacheview_length s (cacheOK_of_reachable E rcf hrcf s h) name,
    fun b _ e he => ((cacheOK_of_reachable E rcf hrcf s h) b).1 e he⟩

theorem reachable_cacheStep (op : CacheOp) (s : State Sim)
    (h : Reachable (fsExt 0) (fun _ => error) s) :
    Reachable (fsExt 0) (fun _ => error) (cacheStep op s) :=
  Reachable.step s op h

theorem reachable_setPath (path : String) (s : State Sim)
    (h : Reachable (fsExt 0) (fun _ => error) s) :
    Reachable (fsExt 0) (fun _ => error) (setPath path s) :=
  Reachable.other s _ h rfl

/-- Witness for C13: the table left by a search for `ls`, the definition of a function `f`, a
change of directory, the assignment `PATH=/usr/bin`, `unset -f f` and `hash cc`; it holds
one entry, that of `cc`. -/
theorem cache_one_entry_per_name_witness :
    cacheview cacheSession "cc" = [(bucket "cc", CmdType.CMDNORMAL, some 0, false)]
      ∧ (∀ name, (cacheview cacheSession name).length ≤ 1)
      ∧ ∀ b, b < CMDTABLESIZE → ∀ e ∈ cacheSession.cmdtable b, bucket e.cmdname = b :=
  ⟨by decide!,
    cache_one_entry_per_name (fsExt 0) (fun _ => error) (fun _ => holds_error cache_law) cacheSession
      (reachable_cacheStep _ _ (reachable_cacheStep _ _ (reachable_setPath _ _
        (reachable_cacheStep _ _ (reachable_cacheStep _ _ (reachable_cacheStep _ _
          (reachable_cacheStep _ _ (Reachable.empty (fsInit "/bin") (fun _ => rfl)))))))))⟩

/-! ### `unsetfunc` -/

theorem cmdlookup_apply {W : Type} (name : String) (s : State W) :
    (cmdlookup name false : M W (Option (Nat × Nat))) s =
      Out.ok (if chainpos name (s.cmdtable (bucket name)) < (s.cmdtable (bucket name)).length
          then some (bucket name, chainpos name (s.cmdtable (bucket name))) else none)
        { s with lastcmdentry := (bucket name, chainpos name (s.cmdtable (bucket name))) } := by
  unfold cmdlookup
  dsimp only
  split_ifs <;> simp_all

theorem unsetfunc_function {W : Type} (E : Ext W) (name : String) (s : State W) (e : TblEntry)
    (f : Option Node)
    (he : (s.cmdtable (bucket name)).get? (chainpos name (s.cmdtable (bucket name))) = some e)
    (ht : e.cmdtype = CmdType.CMDFUNCTION) (hf : e.param = Param.func f) :
    unsetfunc E name s = Out.ok ()
      { s with
        lastcmdentry := (bucket name, chainpos name (s.cmdtable (bucket name)))
        world := E.freefunc f s.world
        cmdtable := Function.update s.cmdtable (bucket name)
          ((s.cmdtable (bucket name)).eraseIdx (chainpos name (s.cmdtable (bucket name)))) } := by
  have hlt : chainpos name (s.cmdtable (bucket name)) < (s.cmdtable (bucket name)).length := by
    by_contra hge
    rw [List.get?_eq_none.2 (not_lt.1 hge)] at he
    cases he
  unfold unsetfunc
  simp only [bind_apply, cmdlookup_apply, andThen_ok, getS_apply, if_pos hlt, Option.some_bind,
    entryat, he, ht, if_true, freeparam_func, hf, modW_apply, delete_cmd_entry, hlt]

theorem unsetfunc_other {W : Type} (E : Ext W) (name : String) (s : State W)
    (he : ∀ e, (s.cmdtable (bucket name)).get? (chainpos name (s.cmdtable (bucket name))) = some e →
      e.cmdtype ≠ CmdType.CMDFUNCTION) :
    unsetfunc E name s = Out.ok ()
      { s with lastcmdentry := (bucket name, chainpos name (s.cmdtable (bucket name))) } := by
  unfold unsetfunc
  simp only [bind_apply, cmdlookup_apply, andThen_ok, getS_apply]
  split_ifs with hlt
  · obtain ⟨e, hget, _⟩ := chainpos_get name _ hlt
    simp only [Option.some_bind, entryat, hget, if_neg (he e hget), pure_apply]
  · simp only [Option.none_bind, pure_apply]

theorem chainpos_unique (name : String) (l : List TblEntry)
    (hl : (l.map (fun e => e.cmdname)).Nodup) (e : TblEntry) (he : e ∈ l) (hn : e.cmdname = name) :
    l.get? (chainpos name l) = some e := by
  induction l with
  | nil => cases he
  | cons a rest ih =>
    simp only [List.map_cons, List.nodup_cons] at hl
    simp only [chainpos]
    rcases List.mem_cons.1 he with h | h
    · subst h
      simp [hn]
    · have hne : a.cmdname ≠ name := by
        intro ha
        exact hl.1 (List.mem_map.2 ⟨e, h, by rw [hn, ha]⟩)
      simpa [hne] using ih hl.2 h

theorem modify_concat_length {α : Type} (f : α → α) (l : List α) (a : α) :
    (l ++ [a]).modify f l.length = l ++ [f a] := by
  induction l with
  | nil => rfl
  | cons b rest ih => simpa using ih

theorem eraseIdx_concat_length {α : Type} (l : List α) (a : α) :
    (l ++ [a]).eraseIdx l.length = l := by
  induction l with
  | nil => rfl
  | cons b rest ih => simpa using ih

theorem addcmdentry_fresh {W : Type} (E : Ext W) (name : String) (entry : CmdEntry) (s : State W)
    (hn : ∀ e ∈ s.cmdtable (bucket name), e.cmdname ≠ name) :
    addcmdentry E name entry s = Out.ok ()
      { s with
        lastcmdentry := (bucket name, (s.cmdtable (bucket name)).length)
        cmdtable := Function.update s.cmdtable (bucket name)
          (s.cmdtable (bucket name) ++
            [{ param := entry.u, cmdtype := entry.cmdtype, rehash := false, cmdname := name }]) } := by
  have hpos := (chainpos_eq_length name _).2 hn
  unfold addcmdentry cmdlookup
  simp only [bind_apply, hpos, lt_irrefl, if_false, if_true, andThen_ok, getS_apply, entryat,
    Function.update_same, List.get?_eq_getElem?, List.getElem?_concat_length, pure_apply, modS_apply,
    setentry, Function.update_idem, modify_concat_length]

/-- C16: `unsetfunc(name)` on a cache that satisfies its invariant.  If the name has a
function entry, the body is freed once and the entry is removed: afterwards every chain is the
old one without the entries of that name, so no entry of the name is left and every other
entry is unchanged.  If the name has no function entry (no entry, a built-in or an external
command) the table and the world are unchanged.  And on a cache without `name`, `defun` followed
by `unsetfunc` gives back the table as it was, the clone of the body freed once. -/
theorem unsetfunc_effect {W : Type} (E : Ext W) (name : String) (s : State W)
    (hOK : CacheOK s.cmdtable) :
    (∀ b e f, e ∈ s.cmdtable b → e.cmdname = name → e.cmdtype = CmdType.CMDFUNCTION →
        e.param = Param.func f →
        ∃ s1, unsetfunc E name s = Out.ok () s1 ∧ s1.world = E.freefunc f s.world
          ∧ ∀ c, s1.cmdtable c = (s.cmdtable c).filter (fun x => decide (x.cmdname ≠ name)))
      ∧ ((∀ b e, e ∈ s.cmdtable b → e.cmdname = name → e.cmdtype ≠ CmdType.CMDFUNCTION) →
        ∃ s1, unsetfunc E name s = Out.ok () s1 ∧ s1.cmdtable = s.cmdtable ∧ s1.world = s.world)
      ∧ ((∀ b, ∀ e ∈ s.cmdtable b, e.cmdname ≠ name) → ∀ body,
        ∃ s1 s2, defun E name body s = Out.ok () s1 ∧ unsetfunc E name s1 = Out.ok () s2
          ∧ s2.cmdtable = s.cmdtable ∧ s2.world = E.freefunc body s.world) := by
  refine ⟨?_, ?_, ?_⟩
  · intro b e f he hn ht hf
    have hb : b = bucket name := by rw [← (hOK b).1 e he, hn]
    subst hb
    have hget := chainpos_unique name _ (hOK _).2 e he hn
    refine ⟨_, unsetfunc_function E name s e f hget ht hf, rfl, ?_⟩
    intro c
    dsimp only
    by_cases hc : c = bucket name
    · subst hc
      rw [Function.update_same, eraseIdx_chainpos name _ (hOK _).2]
    · rw [Function.update_noteq hc]
      symm
      rw [List.filter_eq_self]
      intro x hx
      simp only [ne_eq, decide_eq_true_eq]
      intro hxn
      exact hc (by rw [← (hOK c).1 x hx, hxn])
  · intro h
    refine ⟨_, unsetfunc_other E name s ?_, rfl, rfl⟩
    intro e hget
    have hlt : chainpos name (s.cmdtable (bucket name)) < (s.cmdtable (bucket name)).length := by
      by_contra hge
      rw [List.get?_eq_none.2 (not_lt.1 hge)] at hget
      cases hget
    obtain ⟨e1, hget1, hn1⟩ := chainpos_get name _ hlt
    rw [hget] at hget1
    cases hget1
    exact h _ e (List.get?_mem hget) hn1
  · intro h body
    obtain ⟨s1, hs1, htab, hw⟩ : ∃ s1, defun E name body s = Out.ok () s1
        ∧ s1.cmdtable = Function.update s.cmdtable (bucket name) (s.cmdtable (bucket name) ++
            [{ param := Param.func body, cmdtype := CmdType.CMDFUNCTION, rehash := false,
               cmdname := name }])
        ∧ s1.world = s.world :=
      ⟨_, addcmdentry_fresh E name { cmdtype := CmdType.CMDFUNCTION, u := Param.func body } s
        (h (bucket name)), rfl, rfl⟩
    have hpos : chainpos name (s1.cmdtable (bucket name)) = (s.cmdtable (bucket name)).length := by
      rw [htab, Function.update_same]
      have : ∀ l : List TblEntry, (∀ e ∈ l, e.cmdname ≠ name) → ∀ a : TblEntry, a.cmdname = name →
          chainpos name (l ++ [a]) = l.length := by
        intro l
        induction l with
        | nil => intro _ a ha; simp [chainpos, ha]
        | cons x rest ih =>
          intro hl a ha
          have hx : x.cmdname ≠ name := hl x (List.mem_cons_self _ _)
          simp only [List.cons_append, chainpos, if_neg hx, List.length_cons, add_left_inj]
          exact ih (fun e he => hl e (List.mem_cons_of_mem _ he)) a ha
      exact this _ (h (bucket name)) _ rfl
    refine ⟨s1, _, hs1, unsetfunc_function E name s1
      { param := Param.func body, cmdtype := CmdType.CMDFUNCTION, rehash := false, cmdname := name }
      body ?_ rfl rfl, ?_, ?_⟩
    · rw [hpos, htab, Function.update_same, List.get?_eq_getElem?, List.getElem?_concat_length]
    · dsimp only
      rw [hpos, htab, Function.update_same, eraseIdx_concat_length, Function.update_idem,
        Function.update_eq_self]
    · dsimp only
      rw [hw]

/-- Witness for C16: a cache that holds the function `f` and nothing else. -/
theorem unsetfunc_effect_witness :
    ∃ s1, unsetfunc (fsExt 0) "f" fState = Out.ok () s1
      ∧ s1.world = (fsExt 0).freefunc (simCmd ["ls"]) fState.world
      ∧ ∀ c, s1.cmdtable c = (fState.cmdtable c).filter (fun x => decide (x.cmdname ≠ "f")) :=
  (unsetfunc_effect (fsExt 0) "f" fState
      (cacheOK_append (fun _ => ⟨fun _ he => absurd he (List.not_mem_nil _), List.nodup_nil⟩)
        { param := Param.func (simCmd ["ls"]), cmdtype := CmdType.CMDFUNCTION, rehash := false,
          cmdname := "f" }
        (fun _ hx => absurd hx (List.not_mem_nil _)))).1
    (bucket "f")
    { param := Param.func (simCmd ["ls"]), cmdtype := CmdType.CMDFUNCTION, rehash := false,
      cmdname := "f" }
    (simCmd ["ls"])
    (by
      show _ ∈ Function.update (fun _ => []) (bucket "f") _ (bucket "f")
      rw [Function.update_same]
      exact List.mem_singleton_self _)
    rfl rfl rfl

/-! ### A command that is not found -/

theorem xtrace_apply {W : Type} (b : Bool) (f : W → W) (s : State W) :
    (if b = true then modW f else pure ()) s
      = Out.ok () (if b = true then { s with world := f s.world } else s) := by
  cases b <;> rfl

/-- Counterexample to C18 as stated: with `PATH=/bin`, the command `nosuch` is not found;
`evaltree` returns with exit status 2, not 127, and no process has been forked. -/
theorem evalcommand_unknown_counterexample :
    observe (evaltree (fsExt 0) 3 (simCmd ["nosuch"]) 0 (fsInit "/bin"))
        = ("ok", 2, 0, 0, 0, 0,
            { vars := [("PATH", "/bin")], jobs := [], output := [], tried := [] })
      ∧ (2 : Int) ≠ 127 := by
  refine ⟨by decide!, by decide⟩

/-- C18, amended: when the words of a `Cmd` node have been expanded, the first of them being
`name`, and `find_command` answers that `name` is unknown, `evalcommand` sets the exit status
to 2 and returns: the state is the one `find_command` left, so nothing has been forked or run. -/
theorem evalcommand_unknown {W : Type} (E : Ext W) (ev : Option Node → Nat → M W Unit) (fuel : Nat)
    (backgnd : Int) (args : List Word) (redirect : List Redir) (flags : Nat)
    (backcmd : Option BackCmd) (s s1 s2 s4 : State W) (av : List String × List String)
    (redirs : List Redir) (name : String) (rest : List String) (c : CmdEntry)
    (hargs : evalcommand_args E args true [] [] s = Out.ok av s1)
    (hredir : expredir E redirect s1 = Out.ok redirs s2)
    (hname : av.1 = name :: rest)
    (hfind : find_command E (readcmdfile E ev fuel) name true
      (if s2.xflag then { s2 with world := E.emit (Msg.xtrace av.2 av.1) s2.world } else s2)
        = Out.ok c s4)
    (hunk : c.cmdtype = CmdType.CMDUNKNOWN) :
    evalcommand E ev fuel backgnd args redirect flags backcmd s
      = Out.ok backcmd { s4 with exitstatus := 2 } := by
  simp only [hname] at hfind
  unfold evalcommand
  simp only [bind_apply, hargs, andThen_ok, hredir, getS_apply, xtrace_apply, evalcommand_resolve,
    hname, hfind, hunk, if_true, modS_apply, pure_apply]

/-- Witness for C18: the command `nosuch` in the small world with `PATH=/bin`. -/
theorem evalcommand_unknown_witness :
    observe (evalcommand (fsExt 0) (evaltree (fsExt 0) 2) 2 0 [{ text := "nosuch" }] [] 0 none
        (fsInit "/bin"))
      = ("ok", 2, 0, 0, 0, 0,
          { vars := [("PATH", "/bin")], jobs := [], output := [], tried := [] }) := by
  have h := evalcommand_unknown (fsExt 0) (evaltree (fsExt 0) 2) 2 0 [{ text := "nosuch" }] [] 0
    none (fsInit "/bin") (fsInit "/bin") (fsInit "/bin") _ (["nosuch"], []) [] "nosuch" [] _
    rfl rfl rfl
    (Out.eq_ok_of_isOk _ simInit { cmdtype := CmdType.CMDBUILTIN, u := Param.index 0 } (by decide!))
    (by decide!)
  rw [h]
  decide!

/-! ### A built-in and the background flag -/

/-- Counterexample to C19 as stated: `echo hi` with the background flag of the node set
(`echo hi &`), evaluated with flags 0: `evalcommand` forks (the job is recorded) and the parent
returns without having run the built-in (nothing is printed); with the flag clear the built-in
prints in the current process and no job is made. -/
theorem evalcommand_builtin_counterexample :
    observe (evaltree simExt 3 (some (Node.ncmd 1 [{ text := "echo" }, { text := "hi" }] [])) 0
        simInit)
      = ("ok", 0, 0, 0, 0, 0, { vars := [], jobs := ["echo"], output := [], tried := [] })
    ∧ observe (evaltree simExt 3 (some (Node.ncmd 0 [{ text := "echo" }, { text := "hi" }] [])) 0
        simInit)
      = ("ok", 0, 0, 0, 0, 0, { vars := [], jobs := [], output := [["hi"]], tried := [] }) := by
  refine ⟨by decide!, by decide!⟩

/-- C19, amended: for a `Cmd` node that resolves to a built-in, evaluated without `EV_BACKCMD`,
`evalcommand` forks exactly when the background flag of the node is set, whatever `EV_EXIT`
is.  With the flag clear the evaluation goes on from the state the search left with the
built-in branch, run in the current process, and the assignment of `$_`. -/
theorem evalcommand_builtin_nofork {W : Type} (E : Ext W) (ev : Option Node → Nat → M W Unit)
    (fuel : Nat) (args : List Word) (redirect : List Redir) (flags : Nat)
    (backcmd : Option BackCmd) (s s1 s2 s4 : State W) (av : List String × List String)
    (redirs : List Redir) (cmdentry : CmdEntry) (argv : List String)
    (hargs : evalcommand_args E args true [] [] s = Out.ok av s1)
    (hredir : expredir E redirect s1 = Out.ok redirs s2)
    (hres : evalcommand_resolve E (readcmdfile E ev fuel) av.1
      (if s2.xflag = true then { s2 with world := E.emit (Msg.xtrace av.2 av.1) s2.world } else s2)
        = Out.ok (some (cmdentry, argv)) s4)
    (hb : cmdentry.cmdtype = CmdType.CMDBUILTIN) (hflags : flags &&& EV_BACKCMD = 0) :
    (∀ backgnd, forkcond E backgnd flags cmdentry ↔ backgnd ≠ 0)
      ∧ evalcommand E ev fuel 0 args redirect flags backcmd s
        = (evalcommand_builtin E ev fuel redirs flags backcmd (entry_index E cmdentry) argv av.2
            s4).andThen fun bc s5 =>
          (setlastarg E (if s2.iflag = true ∧ s2.funcnest = 0 then av.1.getLast? else none)
            s5).andThen fun _ s6 => Out.ok bc s6 := by
  have hfork : ∀ backgnd, forkcond E backgnd flags cmdentry ↔ backgnd ≠ 0 := by
    intro backgnd
    simp [forkcond, hb, hflags]
  refine ⟨hfork, ?_⟩
  have h0 : ¬ forkcond E 0 flags cmdentry := by
    rw [hfork]
    simp
  unfold evalcommand
  simp only [bind_apply, hargs, andThen_ok, hredir, getS_apply, xtrace_apply, hres, if_neg h0,
    pure_apply, hb]
  rfl

/-- Witness for C19: `echo hi` in the small world. -/
theorem evalcommand_builtin_nofork_witness :
    observe (evalcommand simExt (evaltree simExt 2) 2 0 [{ text := "echo" }, { text := "hi" }] [] 0
        none simInit)
      = ("ok", 0, 0, 0, 0, 0, { vars := [], jobs := [], output := [["hi"]], tried := [] }) := by
  have h := (evalcommand_builtin_nofork simExt (evaltree simExt 2) 2
    [{ text := "echo" }, { text := "hi" }] [] 0 none simInit simInit simInit _ (["echo", "hi"], [])
    [] { cmdtype := CmdType.CMDBUILTIN, u := Param.index 8 } ["echo", "hi"] rfl rfl
    (Out.eq_ok_of_isOk _ simInit none (by decide!)) rfl (by decide)).2
  rw [h]
  decide!

/-! ### The path search of `find_command` -/

theorem takeWhile_nopct (cs : List Char) (h : '%' ∉ cs) :
    cs.takeWhile (fun c => decide (c ≠ ':' ∧ c ≠ '%')) = cs.takeWhile (fun c => decide (c ≠ ':'))
      ∧ cs.dropWhile (fun c => decide (c ≠ ':' ∧ c ≠ '%'))
        = cs.dropWhile (fun c => decide (c ≠ ':')) := by
  induction cs with
  | nil => exact ⟨rfl, rfl⟩
  | cons c rest ih =>
    have hc : c ≠ '%' := fun hc => h (hc ▸ List.mem_cons_self _ _)
    have ih := ih (fun hr => h (List.mem_cons_of_mem _ hr))
    by_cases h1 : c = ':'
    · have e1 : decide (c ≠ ':' ∧ c ≠ '%') = false := by simp [h1]
      have e2 : decide (c ≠ ':') = false := by simp [h1]
      simp only [List.takeWhile_cons, List.dropWhile_cons, e1, e2, Bool.false_eq_true, if_false,
        and_self]
    · have e1 : decide (c ≠ ':' ∧ c ≠ '%') = true := by simp [h1, hc]
      have e2 : decide (c ≠ ':') = true := by simp [h1]
      simp only [List.takeWhile_cons, List.dropWhile_cons, e1, e2, if_true, ih.1, ih.2, and_self]

theorem dropWhile_colon (cs : List Char) :
    cs.dropWhile (fun c => decide (c ≠ ':')) = []
      ∨ ∃ rest, cs.dropWhile (fun c => decide (c ≠ ':')) = ':' :: rest := by
  induction cs with
  | nil => exact Or.inl rfl
  | cons c rest ih =>
    by_cases h1 : c = ':'
    · right
      exact ⟨rest, by simp [List.dropWhile, h1]⟩
    · simpa [List.dropWhile, h1] using ih

theorem nopct_dropWhile (cs rest : List Char) (h : '%' ∉ cs)
    (hr : cs.dropWhile (fun c => decide (c ≠ ':')) = ':' :: rest) : '%' ∉ rest := by
  intro hm
  have : '%' ∈ cs.dropWhile (fun c => decide (c ≠ ':')) := by
    rw [hr]
    exact List.mem_cons_of_mem _ hm
  exact h ((List.dropWhile_sublist _).subset this)

theorem length_dropWhile_colon (cs rest : List Char)
    (hr : cs.dropWhile (fun c => decide (c ≠ ':')) = ':' :: rest) : rest.length < cs.length := by
  have := (List.dropWhile_sublist (fun c => decide (c ≠ ':')) (l := cs)).length_le
  rw [hr] at this
  simpa using this

theorem pathElems_cons (cs : List Char) :
    pathElems cs = cs.takeWhile (fun c => decide (c ≠ ':')) ::
      (match cs.dropWhile (fun c => decide (c ≠ ':')) with
        | _ :: rest => pathElems rest
        | [] => []) := by
  induction cs with
  | nil => rfl
  | cons c rest ih =>
    by_cases h1 : c = ':'
    · subst h1
      have e2 : decide (':' ≠ ':') = false := by simp
      simp only [List.takeWhile_cons, List.dropWhile_cons, e2, Bool.false_eq_true, if_false]
      rfl
    · have e2 : decide (c ≠ ':') = true := by simp [h1]
      have hstep : pathElems (c :: rest)
          = (c :: rest.takeWhile (fun c => decide (c ≠ ':'))) ::
            (match rest.dropWhile (fun c => decide (c ≠ ':')) with
              | _ :: rest => pathElems rest
              | [] => []) := by
        have : pathElems (c :: rest) =
            (fun (c : Char) (acc : List (List Char)) =>
              if c = ':' then [] :: acc
              else match acc with
                | e :: r => (c :: e) :: r
                | [] => [[c]]) c (pathElems rest) := rfl
        rw [this, ih]
        simp only [h1, if_false]
      rw [hstep]
      simp only [List.takeWhile_cons, List.dropWhile_cons, e2, if_true]

/-- The step `padvance` makes on a path without `%` markers. -/
theorem padvance_nopct (cs : List Char) (name : String) (h : '%' ∉ cs) :
    padvance (some cs) name
      = some (candidate (cs.takeWhile (fun c => decide (c ≠ ':'))) name,
          (match cs.dropWhile (fun c => decide (c ≠ ':')) with
            | _ :: rest => some rest
            | [] => none), none) := by
  unfold padvance candidate
  simp only [(takeWhile_nopct cs h).1, (takeWhile_nopct cs h).2]
  rcases dropWhile_colon cs with h0 | ⟨rest, hr⟩
  · rw [h0]
  · rw [hr]
    simp

theorem executable_iff (euid egid : Nat) (sb : StatBuf) :
    executable euid egid sb = true ↔
      (if sb.st_uid = euid then sb.st_mode &&& 0o100 ≠ 0
        else if sb.st_gid = egid then sb.st_mode &&& 0o10 ≠ 0 else sb.st_mode &&& 0o1 ≠ 0) := by
  unfold executable
  split_ifs <;> simp

theorem find_command_loop_none {W : Type} (E : Ext W) (rcf : String → M W Unit) (name : String)
    (cmdp : Option (Nat × Nat)) (prev : Int) (k : Nat) (index e : Int) (s : State W) :
    find_command_loop E rcf name cmdp prev (k + 1) none index e s = Out.ok (none, e) s := by
  unfold find_command_loop
  rfl

/-- One turn of the path search on a path without `%` markers. -/
theorem find_command_loop_step {W : Type} (E : Ext W) (rcf : String → M W Unit) (name : String)
    (cmdp : Option (Nat × Nat)) (prev : Int) (k : Nat) (cs : List Char) (index e : Int)
    (s : State W) (h : '%' ∉ cs) :
    find_command_loop E rcf name cmdp prev (k + 1) (some cs) index e s =
      if (candidate (cs.takeWhile (fun c => decide (c ≠ ':'))) name).data.head? = some '/'
          ∧ index + 1 ≤ prev then
        if index + 1 < prev then
          find_command_loop E rcf name cmdp prev k
            (match cs.dropWhile (fun c => decide (c ≠ ':')) with
              | _ :: rest => some rest
              | [] => none) (index + 1) e { s with pathopt := none }
        else
          (find_command_success cmdp { s with pathopt := none }).andThen fun r s2 =>
            Out.ok (some r, e) s2
      else
        match (E.stat (candidate (cs.takeWhile (fun c => decide (c ≠ ':'))) name) s.world).1 with
        | Except.error errno =>
          find_command_loop E rcf name cmdp prev k
            (match cs.dropWhile (fun c => decide (c ≠ ':')) with
              | _ :: rest => some rest
              | [] => none) (index + 1) (if errno ≠ ENOENT ∧ errno ≠ ENOTDIR then errno else e)
            { s with pathopt := none, nstat := s.nstat + 1,
                     world := (E.stat (candidate (cs.takeWhile (fun c => decide (c ≠ ':'))) name)
                       s.world).2 }
        | Except.ok statb =>
          if S_ISREG statb.st_mode
              && executable
                (E.geteuid (E.stat (candidate (cs.takeWhile (fun c => decide (c ≠ ':'))) name)
                  s.world).2)
                (E.getegid (E.stat (candidate (cs.takeWhile (fun c => decide (c ≠ ':'))) name)
                  s.world).2) statb then
            (find_command_install name CmdType.CMDNORMAL (index + 1)
              { s with pathopt := none, nstat := s.nstat + 1,
                       world := (E.stat (candidate (cs.takeWhile (fun c => decide (c ≠ ':'))) name)
                         s.world).2 }).andThen fun r s2 => Out.ok (some r, EACCES) s2
          else
            find_command_loop E rcf name cmdp prev k
              (match cs.dropWhile (fun c => decide (c ≠ ':')) with
                | _ :: rest => some rest
                | [] => none) (index + 1) EACCES
              { s with pathopt := none, nstat := s.nstat + 1,
                       world := (E.stat (candidate (cs.takeWhile (fun c => decide (c ≠ ':'))) name)
                         s.world).2 } := by
  rw [find_command_loop, padvance_nopct cs name h]
  simp only [bind_apply, modS_apply, andThen_ok, Option.isSome_none, Bool.false_eq_true,
    false_and, if_false, ite_apply_state]
  split_ifs with h1 h2
  · rfl
  · rfl
  · cases hst : (E.stat (candidate (cs.takeWhile (fun c => decide (c ≠ ':'))) name) s.world).1 with
    | error errno => simp only [hst]
    | ok statb =>
      simp only [hst]
      cases hreg : S_ISREG statb.st_mode
      · simp only [Bool.false_eq_true, not_false_eq_true, if_true, Bool.false_and, if_false]
      · simp only [not_true_eq_false, if_false, Bool.true_and, bind_apply, getS_apply, andThen_ok,
          ← executable_iff, ite_apply_state]
        split_ifs with h3 <;> rfl

theorem walked_walked {W : Type} (s : State W) (a b : Nat) :
    walked (walked s a) b = walked s (a + b) := by
  simp only [walked, Nat.add_assoc]

theorem qualifies_false_iff {W : Type} (E : Ext W) (w : W) (name : String) (elem : List Char) :
    qualifies E w name elem = false ↔
      ∀ sb, (E.stat (candidate elem name) w).1 = Except.ok sb →
        (S_ISREG sb.st_mode && executable (E.geteuid w) (E.getegid w) sb) = false := by
  unfold qualifies
  cases (E.stat (candidate elem name) w).1 with
  | error e => simp
  | ok sb => simp

/-- The path search for a name without an entry, over a path without `%` markers, in a file
system that `stat` does not change: it installs the first element that qualifies, and comes to
the end of the path when none does. -/
theorem find_command_loop_search {W : Type} (E : Ext W) (rcf : String → M W Unit) (name : String)
    (hfs : ∀ f w, (E.stat f w).2 = w) :
    ∀ (k : Nat) (cs : List Char) (index e : Int) (s : State W),
      '%' ∉ cs → cs.length + 2 ≤ k → -1 ≤ index →
      (∀ i elem, (pathElems cs).get? i = some elem →
          (∀ j ej, j < i → (pathElems cs).get? j = some ej → qualifies E s.world name ej = false) →
          qualifies E s.world name elem = true →
          find_command_loop E rcf name none (-1) k (some cs) index e s
            = (find_command_install name CmdType.CMDNORMAL (index + 1 + i)
                (walked s (i + 1))).andThen fun r s2 => Out.ok (some r, EACCES) s2)
        ∧ ((∀ i elem, (pathElems cs).get? i = some elem → qualifies E s.world name elem = false) →
          ∃ e1, find_command_loop E rcf name none (-1) k (some cs) index e s
            = Out.ok (none, e1) (walked s (pathElems cs).length)) := by
  intro k
  induction k with
  | zero => intro cs index e s _ hk; omega
  | succ k ih =>
    intro cs index e s hpct hk hidx
    have hcond : ¬ ((candidate (cs.takeWhile (fun c => decide (c ≠ ':'))) name).data.head? = some '/'
        ∧ index + 1 ≤ -1) := fun hc => by omega
    have hstep := find_command_loop_step E rcf name none (-1) k cs index e s hpct
    rw [if_neg hcond] at hstep
    simp only [hfs] at hstep
    have hw1 : ({ s with pathopt := none, nstat := s.nstat + 1 } : State W) = walked s 1 := rfl
    rw [hw1] at hstep
    have hel := pathElems_cons cs
    -- what happens when the first element does not qualify
    have hagain : qualifies E s.world name (cs.takeWhile (fun c => decide (c ≠ ':'))) = false →
        ∃ e1, find_command_loop E rcf name none (-1) (k + 1) (some cs) index e s
          = find_command_loop E rcf name none (-1) k
              (match cs.dropWhile (fun c => decide (c ≠ ':')) with
                | _ :: rest => some rest
                | [] => none) (index + 1) e1 (walked s 1) := by
      intro hq
      rw [qualifies_false_iff] at hq
      rw [hstep]
      cases hst : (E.stat (candidate (cs.takeWhile (fun c => decide (c ≠ ':'))) name) s.world).1 with
      | error errno => exact ⟨_, rfl⟩
      | ok sb =>
        refine ⟨EACCES, ?_⟩
        simp only [hq sb hst, Bool.false_eq_true, if_false]
    refine ⟨?_, ?_⟩
    · intro i elem hget hbefore hq
      cases i with
      | zero =>
        rw [hel] at hget
        simp only [List.get?_cons_zero, Option.some.injEq] at hget
        subst hget
        rw [hstep]
        unfold qualifies at hq
        cases hst : (E.stat (candidate (cs.takeWhile (fun c => decide (c ≠ ':'))) name) s.world).1 with
        | error errno => rw [hst] at hq; cases hq
        | ok sb =>
          rw [hst] at hq
          have hq2 : (S_ISREG sb.st_mode
              && executable (E.geteuid s.world) (E.getegid s.world) sb) = true := hq
          simp only [hq2, if_true, Nat.cast_zero, add_zero, zero_add]
      | succ i =>
        have h0 := hbefore 0 _ (Nat.succ_pos i) (by rw [hel]; rfl)
        obtain ⟨e1, he1⟩ := hagain h0
        rw [he1]
        rw [hel] at hget hbefore
        rcases dropWhile_colon cs with hd | ⟨rest, hd⟩
        · rw [hd] at hget
          simp at hget
        · rw [hd] at hget hbefore ⊢
          simp only [List.get?_cons_succ] at hget
          have := (ih rest (index + 1) e1 (walked s 1) (nopct_dropWhile cs rest hpct hd)
            (by have := length_dropWhile_colon cs rest hd; omega) (by omega)).1 i elem hget
            (fun j ej hj hgj => hbefore (j + 1) ej (by omega) (by simpa using hgj)) hq
          rw [this, walked_walked]
          have e1 : index + 1 + 1 + (i : Int) = index + 1 + ((i + 1 : Nat) : Int) := by
            push_cast; ring
          rw [e1, Nat.add_comm 1 (i + 1)]
    · intro hall
      have h0 := hall 0 _ (by rw [hel]; rfl)
      obtain ⟨e1, he1⟩ := hagain h0
      rw [he1]
      rcases dropWhile_colon cs with hd | ⟨rest, hd⟩
      · rw [hd]
        rw [hel, hd]
        cases k with
        | zero => omega
        | succ k => exact ⟨e1, find_command_loop_none E rcf name none (-1) k _ _ _⟩
      · rw [hd]
        obtain ⟨e2, he2⟩ := (ih rest (index + 1) e1 (walked s 1) (nopct_dropWhile cs rest hpct hd)
          (by have := length_dropWhile_colon cs rest hd; omega) (by omega)).2
          (fun i elem hgi => hall (i + 1) elem (by rw [hel, hd]; simpa using hgi))
        refine ⟨e2, ?_⟩
        rw [he2, walked_walked, hel, hd]
        simp only [List.length_cons, Nat.add_comm]

theorem find_command_install_fresh {W : Type} (name : String) (cmdtype : CmdType) (i : Int)
    (s : State W) (hn : ∀ e ∈ s.cmdtable (bucket name), e.cmdname ≠ name) :
    find_command_install name cmdtype i s = Out.ok { cmdtype := cmdtype, u := Param.index i }
      { s with
        lastcmdentry := (bucket name, (s.cmdtable (bucket name)).length)
        cmdtable := Function.update s.cmdtable (bucket name)
          (s.cmdtable (bucket name) ++
            [{ param := Param.index i, cmdtype := cmdtype, rehash := false, cmdname := name }]) } := by
  have hpos := (chainpos_eq_length name _).2 hn
  unfold find_command_install find_command_success cmdlookup
  simp only [bind_apply, hpos, lt_irrefl, if_false, if_true, andThen_ok, getS_apply, entryat,
    Function.update_same, List.get?_eq_getElem?, List.getElem?_concat_length, pure_apply, modS_apply,
    setentry, Function.update_idem, modify_concat_length]

/-- C14: `find_command` for a bare name that has no entry in the chain of its bucket and is not
a built-in, over a `PATH` without `%` markers, in a file system that `stat` does not change.
If `i` is the smallest index of a path element whose candidate is a regular file that passes
the executability test, the answer is the external command of index `i`, stored as a new
entry at the end of the chain; if no element qualifies the answer is `CMDUNKNOWN` and the table
is as it was.  In both cases `stat` has been called once for each element up to the last one
looked at. -/
theorem find_command_path_search {W : Type} (E : Ext W) (rcf : String → M W Unit) (name : String)
    (printerr : Bool) (s : State W)
    (hbare : '/' ∉ name.data)
    (hnoentry : ∀ e ∈ s.cmdtable (bucket name), e.cmdname ≠ name)
    (hnb : find_builtin E name < 0)
    (hpct : '%' ∉ (E.pathval s.world).data)
    (hfs : ∀ f w, (E.stat f w).2 = w) :
    (∀ i elem, (pathElems (E.pathval s.world).data).get? i = some elem →
        (∀ j ej, j < i → (pathElems (E.pathval s.world).data).get? j = some ej →
          qualifies E s.world name ej = false) →
        qualifies E s.world name elem = true →
        find_command E rcf name printerr s
          = Out.ok { cmdtype := CmdType.CMDNORMAL, u := Param.index i }
              { s with
                lastcmdentry := (bucket name, (s.cmdtable (bucket name)).length)
                pathopt := none
                nstat := s.nstat + (i + 1)
                cmdtable := Function.update s.cmdtable (bucket name)
                  (s.cmdtable (bucket name) ++
                    [{ param := Param.index i, cmdtype := CmdType.CMDNORMAL, rehash := false,
                       cmdname := name }]) })
      ∧ ((∀ i elem, (pathElems (E.pathval s.world).data).get? i = some elem →
          qualifies E s.world name elem = false) →
        ∃ e, find_command E rcf name printerr s
          = Out.ok { cmdtype := CmdType.CMDUNKNOWN, u := Param.index 0 }
              { s with
                lastcmdentry := (bucket name, (s.cmdtable (bucket name)).length)
                pathopt := none
                nstat := s.nstat + (pathElems (E.pathval s.world).data).length
                world := if printerr = true then E.emit (Msg.cmderror name e) s.world
                  else s.world }) := by
  have hpos := (chainpos_eq_length name _).2 hnoentry
  have hnb2 : ¬ (s.builtinloc < 0 ∧ find_builtin E name ≥ 0) := fun h => by omega
  have hhead : find_command E rcf name printerr s
      = (find_command_loop E rcf name none (-1) ((E.pathval s.world).data.length + 2)
          (some (E.pathval s.world).data) (-1) ENOENT
          { s with lastcmdentry := (bucket name, (s.cmdtable (bucket name)).length) }).andThen
        fun r s1 =>
          match r with
          | (some ce, _) => Out.ok ce s1
          | (none, e) =>
            Out.ok { cmdtype := CmdType.CMDUNKNOWN, u := Param.index 0 }
              (if printerr = true then { s1 with world := E.emit (Msg.cmderror name e) s1.world }
                else s1) := by
    unfold find_command
    simp only [if_neg hbare, bind_apply, cmdlookup_apply, hpos, lt_irrefl, if_false, andThen_ok,
      getS_apply, Option.none_bind, Option.map_none', if_neg hnb2, reduceCtorEq]
    congr 1
    funext r s1
    rcases r with ⟨_ | ce, e⟩
    · simp only [Option.isSome_none, Bool.false_eq_true, if_false, bind_apply, pure_apply,
        andThen_ok, xtrace_apply]
    · rfl
  have hsearch := find_command_loop_search E rcf name hfs ((E.pathval s.world).data.length + 2)
    (E.pathval s.world).data (-1) ENOENT
    { s with lastcmdentry := (bucket name, (s.cmdtable (bucket name)).length) } hpct le_rfl le_rfl
  refine ⟨?_, ?_⟩
  · intro i elem hget hbefore hq
    rw [hhead, hsearch.1 i elem hget hbefore hq,
      find_command_install_fresh name CmdType.CMDNORMAL _
        (walked { s with lastcmdentry := (bucket name, (s.cmdtable (bucket name)).length) } (i + 1))
        hnoentry]
    simp only [andThen_ok, walked, neg_add_cancel, zero_add]
  · intro hall
    obtain ⟨e, he⟩ := hsearch.2 hall
    refine ⟨e, ?_⟩
    rw [hhead, he]
    simp only [andThen_ok, walked]
    cases printerr <;> rfl

/-- Witness for C14: with `PATH=/bin:/usr/bin`, `/bin/cc` is a file that nobody may execute
and `/usr/bin/cc` a program, so `cc` is found at index 1. -/
theorem find_command_path_search_witness :
    ((find_command (fsExt 0) (fun _ => error) "cc" true (fsInit "/bin:/usr/bin")).value
        { cmdtype := CmdType.CMDUNKNOWN, u := Param.index 0 }).view = (CmdType.CMDNORMAL, some 1)
      ∧ cacheview ((find_command (fsExt 0) (fun _ => error) "cc" true
          (fsInit "/bin:/usr/bin")).state simInit) "cc"
        = [(bucket "cc", CmdType.CMDNORMAL, some 1, false)] := by
  have h := (find_command_path_search (fsExt 0) (fun _ => error) "cc" true (fsInit "/bin:/usr/bin")
    (by decide) (fun _ he => absurd he (List.not_mem_nil _)) (by decide!) (by decide!)
    (fun _ _ => rfl)).1 1 "/usr/bin".data (by decide!)
    (fun j ej hj hg => by
      obtain rfl : j = 0 := by omega
      have h0 : (pathElems ((fsExt 0).pathval (fsInit "/bin:/usr/bin").world).data).get? 0
          = some "/bin".data := by decide!
      rw [h0] at hg
      cases hg
      decide!)
    (by decide!)
  rw [h]
  refine ⟨by decide!, by decide!⟩

/-! ### The cache after `cd` -/

theorem find_command_success_ok {W : Type} (pos : Nat × Nat) (s : State W)
    (h : pos.2 < (s.cmdtable pos.1).length) :
    ∃ r, (find_command_success (some pos) : M W CmdEntry) s
      = Out.ok r (setentry pos (fun e => { e with rehash := false }) s) := by
  unfold find_command_success
  simp only [bind_apply, modS_apply, andThen_ok, getS_apply, entryat, setentry, Function.update_same]
  have hlt : pos.2 < ((s.cmdtable pos.1).modify (fun e => { e with rehash := false }) pos.2).length := by
    rw [List.length_modify]; exact h
  obtain ⟨e, he⟩ : ∃ e, ((s.cmdtable pos.1).modify (fun e => { e with rehash := false }) pos.2).get? pos.2
      = some e := ⟨_, List.get?_eq_get hlt⟩
  rw [he]
  exact ⟨_, rfl⟩

theorem find_command_install_ok {W : Type} (name : String) (cmdtype : CmdType) (i : Int)
    (s : State W) :
    ∃ r s1, (find_command_install name cmdtype i : M W CmdEntry) s = Out.ok r s1
      ∧ s1.nstat = s.nstat := by
  unfold find_command_install
  simp only [bind_apply]
  have hl : ∃ pos s0, (cmdlookup name true : M W _) s = Out.ok (some pos) s0
      ∧ pos.2 < (s0.cmdtable pos.1).length ∧ s0.nstat = s.nstat := by
    unfold cmdlookup
    dsimp only
    by_cases h1 : chainpos name (s.cmdtable (bucket name)) < (s.cmdtable (bucket name)).length
    · rw [if_pos h1]
      exact ⟨_, _, rfl, h1, rfl⟩
    · rw [if_neg h1, if_pos rfl]
      refine ⟨_, _, rfl, ?_, rfl⟩
      have := chainpos_le name (s.cmdtable (bucket name))
      simp only [Function.update_same, List.length_append, List.length_singleton]
      omega
  obtain ⟨pos, s0, h0, hlt, hn⟩ := hl
  simp only [h0, andThen_ok, bind_apply, modS_apply]
  have hlt2 : pos.2 < ((setentry pos (fun e => { e with cmdtype := cmdtype, param := Param.index i })
      s0).cmdtable pos.1).length := by
    simp only [setentry, Function.update_same, List.length_modify]
    exact hlt
  obtain ⟨r, hr⟩ := find_command_success_ok pos _ hlt2
  exact ⟨r, _, hr, hn⟩

theorem candidate_head (elem : List Char) (name : String) (hbare : '/' ∉ name.data) :
    (candidate elem name).data.head? = some '/' ↔ elem.head? = some '/' := by
  unfold candidate
  cases elem with
  | nil =>
    simp only [if_true, List.head?_nil, reduceCtorEq, iff_false]
    intro h
    have := List.mem_of_mem_head? h
    exact hbare this
  | cons c rest =>
    simp only [reduceCtorEq, if_false, List.head?_cons]
    rfl

/-- The path search over a path without `%` markers returns, and the count of the calls of
`stat` does not go down. -/
theorem find_command_loop_returns {W : Type} (E : Ext W) (rcf : String → M W Unit) (name : String)
    (cmdp : Option (Nat × Nat)) (prev : Int) :
    ∀ (k : Nat) (path : Option (List Char)) (index e : Int) (s : State W),
      (∀ cs, path = some cs → '%' ∉ cs ∧ cs.length + 2 ≤ k) → 1 ≤ k →
      (∀ pos, cmdp = some pos → pos.2 < (s.cmdtable pos.1).length) →
      (cmdp = none → prev < index + 1) →
      ∃ r s1, find_command_loop E rcf name cmdp prev k path index e s = Out.ok r s1
        ∧ s.nstat ≤ s1.nstat := by
  intro k
  induction k with
  | zero => intro path index e s _ hk; omega
  | succ k ih =>
    intro path index e s hpath _ hvalid hnone
    cases path with
    | none => exact ⟨_, _, find_command_loop_none E rcf name cmdp prev k index e s, le_rfl⟩
    | some cs =>
      obtain ⟨hpct, hk⟩ := hpath cs rfl
      have hrest : ∀ cs1, (match cs.dropWhile (fun c => decide (c ≠ ':')) with
            | _ :: rest => some rest
            | [] => none) = some cs1 → '%' ∉ cs1 ∧ cs1.length + 2 ≤ k := by
        intro cs1 h1
        rcases dropWhile_colon cs with hd | ⟨rest, hd⟩
        · rw [hd] at h1; cases h1
        · rw [hd] at h1
          cases h1
          exact ⟨nopct_dropWhile cs _ hpct hd, by have := length_dropWhile_colon cs _ hd; omega⟩
      have hk1 : 1 ≤ k := by omega
      rw [find_command_loop_step E rcf name cmdp prev k cs index e s hpct]
      split_ifs with h1 h2
      · exact ih _ _ _ _ hrest hk1 hvalid (fun hc => by have := hnone hc; omega)
      · cases cmdp with
        | none => have := hnone rfl; omega
        | some pos =>
          obtain ⟨r, hr⟩ := find_command_success_ok pos { s with pathopt := none } (hvalid pos rfl)
          rw [hr]
          exact ⟨_, _, rfl, le_rfl⟩
      · cases (E.stat (candidate (cs.takeWhile (fun c => decide (c ≠ ':'))) name) s.world).1 with
        | error errno =>
          obtain ⟨r, s1, hr, hn⟩ := ih _ (index + 1) (if errno ≠ ENOENT ∧ errno ≠ ENOTDIR then errno else e)
            { s with pathopt := none, nstat := s.nstat + 1,
                     world := (E.stat (candidate (cs.takeWhile (fun c => decide (c ≠ ':'))) name)
                       s.world).2 } hrest hk1 hvalid (fun hc => by have := hnone hc; omega)
          exact ⟨r, s1, hr, le_trans (Nat.le_succ _) hn⟩
        | ok statb =>
          dsimp only
          split_ifs
          · obtain ⟨r, s1, hr, hn⟩ := find_command_install_ok name CmdType.CMDNORMAL (index + 1)
              { s with pathopt := none, nstat := s.nstat + 1,
                       world := (E.stat (candidate (cs.takeWhile (fun c => decide (c ≠ ':'))) name)
                         s.world).2 }
            rw [hr]
            exact ⟨_, _, rfl, by rw [hn]; exact Nat.le_succ _⟩
          · obtain ⟨r, s1, hr, hn⟩ := ih _ (index + 1) EACCES
              { s with pathopt := none, nstat := s.nstat + 1,
                       world := (E.stat (candidate (cs.takeWhile (fun c => decide (c ≠ ':'))) name)
                         s.world).2 } hrest hk1 hvalid (fun hc => by have := hnone hc; omega)
            exact ⟨r, s1, hr, le_trans (Nat.le_succ _) hn⟩

/-- The path search over a path without `%` markers calls `stat` at least once when the search
starts beyond the recorded index or some element up to the recorded index is not absolute. -/
theorem find_command_loop_stats {W : Type} (E : Ext W) (rcf : String → M W Unit) (name : String)
    (hbare : '/' ∉ name.data) (cmdp : Option (Nat × Nat)) (prev : Int) :
    ∀ (k : Nat) (cs : List Char) (index e : Int) (s : State W),
      '%' ∉ cs → cs.length + 2 ≤ k →
      (∀ pos, cmdp = some pos → pos.2 < (s.cmdtable pos.1).length) →
      (cmdp = none → prev < index + 1) →
      (prev < index + 1 ∨ ∃ j elem, (pathElems cs).get? j = some elem ∧ index + 1 + (j : Int) ≤ prev
        ∧ elem.head? ≠ some '/') →
      ∃ r s1, find_command_loop E rcf name cmdp prev k (some cs) index e s = Out.ok r s1
        ∧ s.nstat + 1 ≤ s1.nstat := by
  intro k
  induction k with
  | zero => intro cs index e s _ hk; omega
  | succ k ih =>
    intro cs index e s hpct hk hvalid hnone hsome
    have hrest : ∀ cs1, (match cs.dropWhile (fun c => decide (c ≠ ':')) with
          | _ :: rest => some rest
          | [] => none) = some cs1 → '%' ∉ cs1 ∧ cs1.length + 2 ≤ k := by
      intro cs1 h1
      rcases dropWhile_colon cs with hd | ⟨rest, hd⟩
      · rw [hd] at h1; cases h1
      · rw [hd] at h1
        cases h1
        exact ⟨nopct_dropWhile cs _ hpct hd, by have := length_dropWhile_colon cs _ hd; omega⟩
    have hk1 : 1 ≤ k := by omega
    have hel := pathElems_cons cs
    rw [find_command_loop_step E rcf name cmdp prev k cs index e s hpct]
    split_ifs with h1 h2
    · -- an absolute element before the recorded index: skipped
      rw [candidate_head _ _ hbare] at h1
      rcases hsome with hlt | ⟨j, elem, hget, hj, hrel⟩
      · omega
      · cases j with
        | zero =>
          rw [hel] at hget
          simp only [List.get?_cons_zero, Option.some.injEq] at hget
          subst hget
          exact absurd h1.1 hrel
        | succ j =>
          rw [hel] at hget
          rcases dropWhile_colon cs with hd | ⟨rest, hd⟩
          · rw [hd] at hget
            simp at hget
          · rw [hd] at hget ⊢
            simp only [List.get?_cons_succ] at hget
            obtain ⟨hp1, hk2⟩ := hrest rest (by rw [hd])
            exact ih rest (index + 1) e { s with pathopt := none } hp1 hk2 hvalid
              (fun hc => by have := hnone hc; omega)
              (Or.inr ⟨j, elem, hget, by push_cast at hj; omega, hrel⟩)
    · -- an absolute element at the recorded index: the entry is confirmed without `stat`
      rw [candidate_head _ _ hbare] at h1
      rcases hsome with hlt | ⟨j, elem, hget, hj, hrel⟩
      · omega
      · cases j with
        | zero =>
          rw [hel] at hget
          simp only [List.get?_cons_zero, Option.some.injEq] at hget
          subst hget
          exact absurd h1.1 hrel
        | succ j => push_cast at hj; omega
    · -- the element is looked up
      cases (E.stat (candidate (cs.takeWhile (fun c => decide (c ≠ ':'))) name) s.world).1 with
      | error errno =>
        obtain ⟨r, s1, hr, hn⟩ := find_command_loop_returns E rcf name cmdp prev k _ (index + 1)
          (if errno ≠ ENOENT ∧ errno ≠ ENOTDIR then errno else e)
          { s with pathopt := none, nstat := s.nstat + 1,
                   world := (E.stat (candidate (cs.takeWhile (fun c => decide (c ≠ ':'))) name)
                     s.world).2 } hrest hk1 hvalid (fun hc => by have := hnone hc; omega)
        exact ⟨r, s1, hr, hn⟩
      | ok statb =>
        dsimp only
        split_ifs
        · obtain ⟨r, s1, hr, hn⟩ := find_command_install_ok name CmdType.CMDNORMAL (index + 1)
            { s with pathopt := none, nstat := s.nstat + 1,
                     world := (E.stat (candidate (cs.takeWhile (fun c => decide (c ≠ ':'))) name)
                       s.world).2 }
          rw [hr]
          exact ⟨_, _, rfl, by rw [hn]⟩
        · obtain ⟨r, s1, hr, hn⟩ := find_command_loop_returns E rcf name cmdp prev k _ (index + 1)
            EACCES
            { s with pathopt := none, nstat := s.nstat + 1,
                     world := (E.stat (candidate (cs.takeWhile (fun c => decide (c ≠ ':'))) name)
                       s.world).2 } hrest hk1 hvalid (fun hc => by have := hnone hc; omega)
          exact ⟨r, s1, hr, hn⟩

theorem chainpos_map (name : String) (f : TblEntry → TblEntry)
    (hf : ∀ e, (f e).cmdname = e.cmdname) (l : List TblEntry) :
    chainpos name (l.map f) = chainpos name l := by
  induction l with
  | nil => rfl
  | cons e rest ih => simp only [List.map_cons, chainpos, hf, ih]

theorem bucket_lt (name : String) : bucket name < CMDTABLESIZE := by
  unfold bucket CMDTABLESIZE
  have h := Int.emod_lt_of_pos (hashval name) (show (0 : Int) < ((31 : Nat) : Int) by decide)
  have h0 := Int.emod_nonneg (hashval name) (show (((31 : Nat) : Int)) ≠ 0 by decide)
  omega

/-- What `find_command` does with the result of the path search: no further call of `stat`. -/
theorem find_command_finish {W : Type} (E : Ext W) (name : String) (printerr isSome : Bool)
    (r : Option CmdEntry × Int) (s1 : State W) :
    ∃ (r2 : CmdEntry) (s2 : State W), ((match r with
        | (some ce, _) => pure ce
        | (none, e) =>
          (if isSome = true then delete_cmd_entry else pure ()) >>= fun _ =>
          (if printerr = true then modW (E.emit (Msg.cmderror name e)) else pure ()) >>= fun _ =>
          pure { cmdtype := CmdType.CMDUNKNOWN, u := Param.index 0 }) : M W CmdEntry) s1
        = Out.ok r2 s2
      ∧ s2.nstat = s1.nstat := by
  rcases r with ⟨_ | ce, e⟩
  · simp only [bind_apply, ite_apply_state, pure_apply, modW_apply, delete_cmd_entry]
    cases isSome <;> cases printerr <;>
      simp only [Bool.false_eq_true, if_false, if_true, andThen_ok] <;>
      first
        | exact ⟨_, _, rfl, rfl⟩
        | (split_ifs <;> exact ⟨_, _, rfl, rfl⟩)
  · exact ⟨_, _, rfl, rfl⟩

/-- A search that does not answer from the cache calls `stat`: the case of a name without an
entry. -/
theorem find_command_stats_noentry {W : Type} (E : Ext W) (rcf : String → M W Unit) (name : String)
    (printerr : Bool) (s : State W)
    (hbare : '/' ∉ name.data)
    (hnb : ¬ (s.builtinloc < 0 ∧ find_builtin E name ≥ 0))
    (hpct : '%' ∉ (E.pathval s.world).data)
    (hno : ∀ e ∈ s.cmdtable (bucket name), e.cmdname ≠ name) :
    ∃ r s1, find_command E rcf name printerr s = Out.ok r s1 ∧ s.nstat + 1 ≤ s1.nstat := by
  have hp := (chainpos_eq_length name _).2 hno
  obtain ⟨r, s1, hr, hn⟩ := find_command_loop_stats E rcf name hbare none (-1)
    ((E.pathval s.world).data.length + 2) (E.pathval s.world).data (-1) ENOENT
    { s with lastcmdentry := (bucket name, (s.cmdtable (bucket name)).length) }
    hpct le_rfl (fun pos hc => by cases hc) (fun _ => by omega) (Or.inl (by omega))
  obtain ⟨r2, s2, hr2, hn2⟩ := find_command_finish E name printerr false r s1
  refine ⟨r2, s2, ?_, by rw [hn2]; exact hn⟩
  rw [← hr2]
  unfold find_command
  simp only [if_neg hbare, bind_apply, cmdlookup_apply, andThen_ok, getS_apply, hp, lt_irrefl,
    if_false, Option.none_bind, Option.map_none', reduceCtorEq, if_neg hnb, Option.isSome_none]
  rw [hr]
  rcases r with ⟨_ | ce, e1⟩ <;> rfl

/-- A search that does not answer from the cache calls `stat`: the case of an entry for an
external command that is marked `rehash`, with an element that is not absolute at or before
the recorded index. -/
theorem find_command_stats_marked {W : Type} (E : Ext W) (rcf : String → M W Unit) (name : String)
    (printerr : Bool) (s : State W) (e : TblEntry) (i : Int) (j : Nat) (elem : List Char)
    (hbare : '/' ∉ name.data)
    (hnb : ¬ (s.builtinloc < 0 ∧ find_builtin E name ≥ 0))
    (hpct : '%' ∉ (E.pathval s.world).data)
    (hget : (s.cmdtable (bucket name)).get? (chainpos name (s.cmdtable (bucket name))) = some e)
    (hre : e.rehash = true) (htype : e.cmdtype = CmdType.CMDNORMAL) (hparam : e.param = Param.index i)
    (hgetj : (pathElems (E.pathval s.world).data).get? j = some elem) (hji : (j : Int) ≤ i)
    (hrel : elem.head? ≠ some '/') :
    ∃ r s1, find_command E rcf name printerr s = Out.ok r s1 ∧ s.nstat + 1 ≤ s1.nstat := by
  have hlt : chainpos name (s.cmdtable (bucket name)) < (s.cmdtable (bucket name)).length := by
    by_contra hge
    rw [List.get?_eq_none.2 (not_lt.1 hge)] at hget
    cases hget
  obtain ⟨r, s1, hr, hn⟩ := find_command_loop_stats E rcf name hbare
    (some (bucket name, chainpos name (s.cmdtable (bucket name)))) i
    ((E.pathval s.world).data.length + 2) (E.pathval s.world).data (-1) ENOENT
    { s with lastcmdentry := (bucket name, chainpos name (s.cmdtable (bucket name))) }
    hpct le_rfl (fun pos hc => by cases hc; exact hlt)
    (fun hc => by cases hc) (Or.inr ⟨j, elem, hgetj, by omega, hrel⟩)
  obtain ⟨r2, s2, hr2, hn2⟩ := find_command_finish E name printerr true r s1
  refine ⟨r2, s2, ?_, by rw [hn2]; exact hn⟩
  rw [← hr2]
  unfold find_command
  simp only [if_neg hbare, bind_apply, cmdlookup_apply, andThen_ok, getS_apply, if_pos hlt,
    Option.some_bind, entryat, hget, Option.map_some', hre, Option.some.injEq, Bool.true_eq_false,
    if_false, if_neg hnb, htype, reduceCtorEq, hparam, Option.isSome_some]
  rw [hr]
  rcases r with ⟨_ | ce, e1⟩ <;> rfl

theorem mem_cacheview {W : Type} (s : State W) (name : String) (b : Nat) (e : TblEntry)
    (hb : b < CMDTABLESIZE) (he : e ∈ s.cmdtable b) (hn : e.cmdname = name) :
    (b, e.cmdtype, (match e.param with
      | Param.index i => some i
      | Param.func _ => none), e.rehash) ∈ cacheview s name := by
  unfold cacheview
  rw [List.mem_flatMap]
  refine ⟨b, List.mem_range.2 hb, ?_⟩
  rw [List.mem_map]
  exact ⟨e, List.mem_filter.2 ⟨he, by simpa using hn⟩, rfl⟩

/-- Counterexample to C17 as stated.  With `PATH=/bin`, after `ls` has been found (one call of
`stat`) and `hashcd` has marked its entry, the next search for `ls` returns the entry without
any call of `stat`, because the path element it was found in is absolute; neither is `stat`
called for a function, for a built-in, or for a name that contains a slash. -/
theorem find_command_after_hashcd_counterexample :
    (cacheStep CacheOp.hashcd (cacheStep (CacheOp.find_command "ls" true) (fsInit "/bin"))).nstat = 1
    ∧ (observeFind (find_command (fsExt 0) (fun _ => error) "ls" true
        (cacheStep CacheOp.hashcd (cacheStep (CacheOp.find_command "ls" true) (fsInit "/bin")))))
      = some (CmdType.CMDNORMAL, some 0, 1)
    ∧ (observeFind (find_command (fsExt 0) (fun _ => error) "f" true
        (cacheStep CacheOp.hashcd (cacheStep (CacheOp.defun "f" (simCmd ["ls"])) (fsInit "/bin")))))
      = some (CmdType.CMDFUNCTION, none, 0)
    ∧ (observeFind (find_command (fsExt 0) (fun _ => error) "echo" true
        (cacheStep CacheOp.hashcd (fsInit "/bin"))))
      = some (CmdType.CMDBUILTIN, some 8, 0)
    ∧ (observeFind (find_command (fsExt 0) (fun _ => error) "/bin/ls" true
        (cacheStep CacheOp.hashcd (fsInit "/bin"))))
      = some (CmdType.CMDNORMAL, some 0, 0) := by
  refine ⟨?_, ?_, ?_, ?_, ?_⟩ <;> decide!

/-- C17, amended: let `s` be the state `hashcd` leaves.  For a bare name that is not answered
as a built-in before the path is searched, over a `PATH` without `%` markers, `find_command`
returns after at least one call of `stat` in two cases: the cache holds no entry for the name,
or it holds one entry, for an external command with the recorded index `i`, and some path
element of index at most `i` is not absolute (it does not start with `/`). -/
theorem find_command_after_hashcd {W : Type} (E : Ext W) (rcf : String → M W Unit) (name : String)
    (printerr : Bool) (s0 s : State W)
    (hcd : hashcd s0 = Out.ok () s)
    (hbare : '/' ∉ name.data)
    (hnb : ¬ (s0.builtinloc < 0 ∧ find_builtin E name ≥ 0))
    (hpct : '%' ∉ (E.pathval s0.world).data)
    (hentry : cacheview s0 name = []
      ∨ ∃ (re : Bool) (i : Int) (j : Nat) (elem : List Char),
          cacheview s0 name = [(bucket name, CmdType.CMDNORMAL, some i, re)]
          ∧ (pathElems (E.pathval s0.world).data).get? j = some elem ∧ (j : Int) ≤ i
          ∧ elem.head? ≠ some '/') :
    ∃ r s1, find_command E rcf name printerr s = Out.ok r s1 ∧ s.nstat + 1 ≤ s1.nstat := by
  have hs : s = { s0 with
      cmdtable := fun b =>
        if b < CMDTABLESIZE then
          (s0.cmdtable b).map (fun cmdp => if pathbound s0 cmdp then { cmdp with rehash := true } else cmdp)
        else s0.cmdtable b } := by
    unfold hashcd at hcd
    rw [modS_apply] at hcd
    cases hcd
    rfl
  have hmark : ∀ e : TblEntry,
      (if pathbound s0 e then { e with rehash := true } else e).cmdname = e.cmdname := by
    intro e
    by_cases hp : pathbound s0 e = true <;> simp [hp]
  have hchain : s.cmdtable (bucket name) = (s0.cmdtable (bucket name)).map
      (fun cmdp => if pathbound s0 cmdp then { cmdp with rehash := true } else cmdp) := by
    rw [hs]
    simp only [bucket_lt name, if_true]
  have hpos : chainpos name (s.cmdtable (bucket name)) = chainpos name (s0.cmdtable (bucket name)) := by
    rw [hchain, chainpos_map name _ hmark]
  have hworld : s.world = s0.world := by rw [hs]
  have hbl : s.builtinloc = s0.builtinloc := by rw [hs]
  rw [← hbl] at hnb
  rw [← hworld] at hpct hentry
  rcases hentry with hno | ⟨re, i, j, elem, hview, hgetj, hji, hrel⟩
  · refine find_command_stats_noentry E rcf name printerr s hbare hnb hpct ?_
    intro x hx
    rw [hchain] at hx
    obtain ⟨y, hy, hyx⟩ := List.mem_map.1 hx
    rw [← hyx, hmark]
    intro hyn
    have := mem_cacheview s0 name (bucket name) y (bucket_lt name) hy hyn
    rw [hno] at this
    cases this
  · have hex : ∃ e ∈ s0.cmdtable (bucket name), e.cmdname = name := by
      have hx : (bucket name, CmdType.CMDNORMAL, some i, re) ∈ cacheview s0 name := by
        rw [hview]
        exact List.mem_singleton_self _
      unfold cacheview at hx
      rw [List.mem_flatMap] at hx
      obtain ⟨b, _, hb⟩ := hx
      rw [List.mem_map] at hb
      obtain ⟨e, he, heq⟩ := hb
      have hbb : b = bucket name := congrArg (fun x => x.1) heq
      subst hbb
      rw [List.mem_filter] at he
      exact ⟨e, he.1, by simpa using he.2⟩
    have hlt : chainpos name (s0.cmdtable (bucket name)) < (s0.cmdtable (bucket name)).length := by
      have h1 := chainpos_le name (s0.cmdtable (bucket name))
      rcases Nat.lt_or_ge (chainpos name (s0.cmdtable (bucket name)))
          (s0.cmdtable (bucket name)).length with h2 | h2
      · exact h2
      · obtain ⟨e, he, hen⟩ := hex
        exact absurd hen ((chainpos_eq_length name _).1 (le_antisymm h1 h2) e he)
    obtain ⟨e, hget, hen⟩ := chainpos_get name _ hlt
    have hmem := mem_cacheview s0 name (bucket name) e (bucket_lt name) (List.get?_mem hget) hen
    rw [hview, List.mem_singleton] at hmem
    have htype : e.cmdtype = CmdType.CMDNORMAL := congrArg (fun x => x.2.1) hmem
    have hparam : e.param = Param.index i := by
      have h3 : (match e.param with
          | Param.index i => some i
          | Param.func _ => none) = some i := congrArg (fun x => x.2.2.1) hmem
      cases hp : e.param with
      | index k => rw [hp] at h3; cases h3; rfl
      | func f => rw [hp] at h3; cases h3
    refine find_command_stats_marked E rcf name printerr s { e with rehash := true } i j elem
      hbare hnb hpct ?_ rfl htype hparam hgetj hji hrel
    rw [hpos, hchain, List.get?_eq_getElem?, List.getElem?_map, ← List.get?_eq_getElem?, hget]
    simp [pathbound, htype]

/-- Witness for C17: with `PATH=.:/bin` the program `ls` is found at index 1 after `./ls` has
been looked up in vain; after `hashcd` the next search looks `./ls` up again. -/
theorem find_command_after_hashcd_witness :
    ∃ r s1, find_command (fsExt 0) (fun _ => error) "ls" true
        (cacheStep CacheOp.hashcd (cacheStep (CacheOp.find_command "ls" true) (fsInit ".:/bin")))
          = Out.ok r s1
      ∧ (cacheStep CacheOp.hashcd
          (cacheStep (CacheOp.find_command "ls" true) (fsInit ".:/bin"))).nstat + 1 ≤ s1.nstat :=
  find_command_after_hashcd (fsExt 0) (fun _ => error) "ls" true
    (cacheStep (CacheOp.find_command "ls" true) (fsInit ".:/bin")) _ rfl (by decide) (by decide!)
    (by decide!) (Or.inr ⟨false, 1, 0, ".".data, by decide!, by decide!, by decide, by decide⟩)

/-! ### Evaluations that leave the counters and the exit status alone -/

theorem Frame.law {W : Type} {P : State W → Prop} {Q : Stop → State W → Prop} (F : Frame P)
    (hQ : ∀ r s, P s → Q r s) : Law P Q :=
  ⟨hQ, fun s _ h => F.keep s _ rfl rfl rfl rfl rfl h⟩

section
variable {W : Type} {P : State W → Prop} {Q : Stop → State W → Prop}

theorem holds_keep (F : Frame P) {f : State W → State W}
    (h1 : ∀ s, (f s).evalskip = s.evalskip) (h2 : ∀ s, (f s).skipcount = s.skipcount)
    (h3 : ∀ s, (f s).loopnest = s.loopnest) (h4 : ∀ s, (f s).funcnest = s.funcnest)
    (h5 : ∀ s, (f s).exitstatus = s.exitstatus) : Holds P Q (modS f) :=
  holds_modS fun s h => F.keep s _ (h1 s) (h2 s) (h3 s) (h4 s) (h5 s) h

theorem frame_cmdlookup (F : Frame P) (name : String) (add : Bool) :
    Holds P Q (cmdlookup name add : M W (Option (Nat × Nat))) := by
  constructor
  intro s h
  unfold cmdlookup
  dsimp only
  split_ifs <;> exact F.keep s _ rfl rfl rfl rfl rfl h

theorem frame_delete_cmd_entry (F : Frame P) : Holds P Q (delete_cmd_entry : M W Unit) := by
  constructor
  intro s h
  unfold delete_cmd_entry
  dsimp only
  split_ifs
  · exact F.keep s _ rfl rfl rfl rfl rfl h
  · exact h

theorem frame_find_command_success (F : Frame P) (hQ : ∀ r s, P s → Q r s)
    (cmdp : Option (Nat × Nat)) : Holds P Q (find_command_success cmdp : M W CmdEntry) := by
  unfold find_command_success
  repeat' first
    | intro _
    | exact holds_pure _ | exact holds_getS
    | exact holds_stopM (F.law hQ) _
    | exact holds_keep F (fun _ => rfl) (fun _ => rfl) (fun _ => rfl) (fun _ => rfl) (fun _ => rfl)
    | apply holds_bind | split

theorem frame_find_command_install (F : Frame P) (hQ : ∀ r s, P s → Q r s) (name : String)
    (cmdtype : CmdType) (i : Int) :
    Holds P Q (find_command_install name cmdtype i : M W CmdEntry) := by
  unfold find_command_install
  repeat' first
    | intro _
    | exact holds_pure _ | exact holds_getS
    | exact holds_stopM (F.law hQ) _
    | exact frame_cmdlookup F _ _
    | exact frame_find_command_success F hQ _
    | exact holds_keep F (fun _ => rfl) (fun _ => rfl) (fun _ => rfl) (fun _ => rfl) (fun _ => rfl)
    | apply holds_bind | split

end

/-! ### The exit status of a pipeline -/

section
variable {W : Type} {P : State W → Prop} {Q : Stop → State W → Prop}

/-- The path search over a path without `%` markers keeps a property that does not depend on
the cache, whatever reading a file of function definitions would do. -/
theorem frame_find_command_loop_nopct (F : Frame P) (hQ : ∀ r s, P s → Q r s) (E : Ext W)
    (rcf : String → M W Unit) (name : String) (cmdp : Option (Nat × Nat)) (prev : Int) :
    ∀ (k : Nat) (path : Option (List Char)) (index e : Int),
      (∀ cs, path = some cs → '%' ∉ cs) →
      Holds P Q (find_command_loop E rcf name cmdp prev k path index e) := by
  intro k
  induction k with
  | zero => intro path index e _; unfold find_command_loop; exact holds_timeout
  | succ k ih =>
    intro path index e hpath
    constructor
    intro s hs
    cases path with
    | none => rw [find_command_loop_none]; exact hs
    | some cs =>
      have hpct := hpath cs rfl
      have hrest : ∀ cs1, (match cs.dropWhile (fun c => decide (c ≠ ':')) with
            | _ :: rest => some rest
            | [] => none) = some cs1 → '%' ∉ cs1 := by
        intro cs1 h1
        rcases dropWhile_colon cs with hd | ⟨rest, hd⟩
        · rw [hd] at h1; cases h1
        · rw [hd] at h1
          cases h1
          exact nopct_dropWhile cs _ hpct hd
      rw [find_command_loop_step E rcf name cmdp prev k cs index e s hpct]
      split_ifs with h1 h2
      · exact (ih _ _ _ hrest).run _ (F.keep s _ rfl rfl rfl rfl rfl hs)
      · exact (holds_bind (frame_find_command_success F hQ cmdp)
          (fun r => holds_pure (some r, e))).run _ (F.keep s _ rfl rfl rfl rfl rfl hs)
      · cases (E.stat (candidate (cs.takeWhile (fun c => decide (c ≠ ':'))) name) s.world).1 with
        | error errno => exact (ih _ _ _ hrest).run _ (F.keep s _ rfl rfl rfl rfl rfl hs)
        | ok statb =>
          dsimp only
          split_ifs
          · exact (holds_bind (frame_find_command_install F hQ name CmdType.CMDNORMAL (index + 1))
              (fun r => holds_pure (some r, EACCES))).run _ (F.keep s _ rfl rfl rfl rfl rfl hs)
          · exact (ih _ _ _ hrest).run _ (F.keep s _ rfl rfl rfl rfl rfl hs)

theorem frame_find_command_nopct (F : Frame P) (hQ : ∀ r s, P s → Q r s) (E : Ext W)
    (rcf : String → M W Unit) (hpath : ∀ w, '%' ∉ (E.pathval w).data) (name : String)
    (printerr : Bool) : Holds P Q (find_command E rcf name printerr) := by
  unfold find_command
  repeat' first
    | intro _
    | exact holds_pure _ | exact holds_getS | exact holds_modW (F.law hQ) _
    | exact frame_cmdlookup F _ _
    | exact frame_find_command_success F hQ _
    | exact frame_find_command_install F hQ _ _ _
    | exact frame_find_command_loop_nopct F hQ E rcf _ _ _ _ _ _ _
        (fun cs h => by cases h; exact hpath _)
    | exact frame_delete_cmd_entry F
    | apply holds_bind | apply holds_ite | dsimp only | split

end

theorem andThen_returns {σ α β : Type} (x : Out σ α) (f : α → σ → Out σ β)
    (hx : ∃ a s, x = Out.ok a s) (hf : ∀ a s, ∃ b t, f a s = Out.ok b t) :
    ∃ b t, x.andThen f = Out.ok b t := by
  obtain ⟨a, s, rfl⟩ := hx
  exact hf a s

/-- A search over a path without `%` markers returns. -/
theorem find_command_returns {W : Type} (E : Ext W) (rcf : String → M W Unit) (name : String)
    (printerr : Bool) (s : State W) (hpct : '%' ∉ (E.pathval s.world).data) :
    ∃ r s1, find_command E rcf name printerr s = Out.ok r s1 := by
  by_cases hbare : '/' ∈ name.data
  · refine ⟨{ cmdtype := CmdType.CMDNORMAL, u := Param.index 0 }, s, ?_⟩
    unfold find_command
    rw [if_pos hbare]
    rfl
  have hinst : ∃ r s1, (find_command_install name CmdType.CMDBUILTIN (find_builtin E name)
      : M W CmdEntry)
      { s with lastcmdentry := (bucket name, chainpos name (s.cmdtable (bucket name))) }
        = Out.ok r s1 := by
    obtain ⟨r, s1, hr, _⟩ := find_command_install_ok name CmdType.CMDBUILTIN
      (find_builtin E name)
      { s with lastcmdentry := (bucket name, chainpos name (s.cmdtable (bucket name))) }
    exact ⟨r, s1, hr⟩
  unfold find_command
  simp only [if_neg hbare, bind_apply, cmdlookup_apply, andThen_ok, getS_apply]
  by_cases hlt : chainpos name (s.cmdtable (bucket name)) < (s.cmdtable (bucket name)).length
  · obtain ⟨ent, hent⟩ : ∃ ent, (s.cmdtable (bucket name)).get?
        (chainpos name (s.cmdtable (bucket name))) = some ent := ⟨_, List.get?_eq_get hlt⟩
    have hloop : ∀ prev, ∃ r s1, find_command_loop E rcf name
        (some (bucket name, chainpos name (s.cmdtable (bucket name)))) prev
        ((E.pathval s.world).data.length + 2) (some (E.pathval s.world).data) (-1) ENOENT
        { s with lastcmdentry := (bucket name, chainpos name (s.cmdtable (bucket name))) }
          = Out.ok r s1 := by
      intro prev
      obtain ⟨r, s1, hr, _⟩ := find_command_loop_returns E rcf name
        (some (bucket name, chainpos name (s.cmdtable (bucket name)))) prev
        ((E.pathval s.world).data.length + 2) (some (E.pathval s.world).data) (-1) ENOENT
        { s with lastcmdentry := (bucket name, chainpos name (s.cmdtable (bucket name))) }
        (fun cs hc => by cases hc; exact ⟨hpct, le_rfl⟩) (by omega)
        (fun pos hc => by cases hc; exact hlt) (fun hc => by cases hc)
      exact ⟨r, s1, hr⟩
    simp only [if_pos hlt, Option.some_bind, entryat, hent, Option.map_some', Option.some.injEq]
    by_cases hre : ent.rehash = false
    · simp only [hre, if_true]
      obtain ⟨r, hr⟩ := find_command_success_ok
        (bucket name, chainpos name (s.cmdtable (bucket name)))
        { s with lastcmdentry := (bucket name, chainpos name (s.cmdtable (bucket name))) } hlt
      exact ⟨r, _, hr⟩
    · have hre1 : ent.rehash = true := by simpa using hre
      simp only [hre1, Bool.true_eq_false, if_false]
      by_cases hnb : s.builtinloc < 0 ∧ find_builtin E name ≥ 0
      · simp only [if_pos hnb]
        exact hinst
      · simp only [if_neg hnb]
        refine andThen_returns _ _ (hloop _) ?_
        intro r s1
        obtain ⟨r2, s2, hr2, _⟩ := find_command_finish E name printerr true r s1
        refine ⟨r2, s2, Eq.trans ?_ hr2⟩
        rcases r with ⟨_ | ce, e1⟩ <;> rfl
  · have hloop : ∃ r s1, find_command_loop E rcf name none (-1)
        ((E.pathval s.world).data.length + 2) (some (E.pathval s.world).data) (-1) ENOENT
        { s with lastcmdentry := (bucket name, chainpos name (s.cmdtable (bucket name))) }
          = Out.ok r s1 := by
      obtain ⟨r, s1, hr, _⟩ := find_command_loop_returns E rcf name none (-1)
        ((E.pathval s.world).data.length + 2) (some (E.pathval s.world).data) (-1) ENOENT
        { s with lastcmdentry := (bucket name, chainpos name (s.cmdtable (bucket name))) }
        (fun cs hc => by cases hc; exact ⟨hpct, le_rfl⟩) (by omega)
        (fun pos hc => by cases hc) (fun _ => by omega)
      exact ⟨r, s1, hr⟩
    simp only [if_neg hlt, Option.none_bind, Option.map_none', reduceCtorEq, if_false]
    by_cases hnb : s.builtinloc < 0 ∧ find_builtin E name ≥ 0
    · simp only [if_pos hnb]
      exact hinst
    · simp only [if_neg hnb]
      refine andThen_returns _ _ hloop ?_
      intro r s1
      obtain ⟨r2, s2, hr2, _⟩ := find_command_finish E name printerr false r s1
      refine ⟨r2, s2, Eq.trans ?_ hr2⟩
      rcases r with ⟨_ | ce, e1⟩ <;> rfl

theorem frame_exitstatus {W : Type} (c : Int) : Frame (fun t : State W => t.exitstatus = c) :=
  ⟨fun _ _ _ _ _ _ h5 h => h5.trans h⟩

/-- Sequencing of two steps that return and keep the exit status; `R` is what the second step
may rely on about the value of the first. -/
theorem andThen_returns_status {W α β : Type} (R : α → Prop) (c : Int) (x : Out (State W) α)
    (f : α → State W → Out (State W) β)
    (hx : ∃ a s, x = Out.ok a s ∧ R a ∧ s.exitstatus = c)
    (hf : ∀ a s, R a → s.exitstatus = c → ∃ b t, f a s = Out.ok b t ∧ t.exitstatus = c) :
    ∃ b t, x.andThen f = Out.ok b t ∧ t.exitstatus = c := by
  obtain ⟨a, s, rfl, hr, hs⟩ := hx
  exact hf a s hr hs

theorem liftW_ok {W α : Type} (f : W → Out W α) (s : State W) (a : α) (w : W)
    (h : f s.world = Out.ok a w) : liftW f s = Out.ok a { s with world := w } := by
  unfold liftW
  rw [h]

/-- The look at a stage that has a word returns, and over a path without `%` markers it keeps
the exit status. -/
theorem prehash_returns {W : Type} (E : Ext W) (rcf : String → M W Unit) (n : Option Node)
    (s : State W) (hw : hasWord n = true) (hpath : ∀ w, '%' ∉ (E.pathval w).data) :
    ∃ (u : Unit) (s1 : State W), prehash E rcf n s = Out.ok u s1 ∧ s1.exitstatus = s.exitstatus := by
  rcases n with _ | node
  · cases hw
  cases node with
  | ncmd b args redirect =>
    cases args with
    | nil => cases hw
    | cons arg rest =>
      unfold prehash
      dsimp only
      split_ifs
      · obtain ⟨r, s1, hr⟩ := find_command_returns E rcf arg.text false s (hpath _)
        have h := (frame_find_command_nopct (frame_exitstatus s.exitstatus) (fun _ _ _ => trivial)
          E rcf hpath arg.text false).run s rfl
        rw [hr] at h
        refine ⟨(), s1, ?_, h⟩
        rw [bind_apply, hr]
        rfl
      · exact ⟨(), s, rfl, rfl⟩
  | _ => exact ⟨(), s, rfl, rfl⟩

/-- In the parent shell, when every call of `pipe` and of `fork` succeeds, the loop of
`evalpipe` over stages that have a word returns and keeps the exit status. -/
theorem evalpipe_loop_returns {W : Type} (E : Ext W) (rcf : String → M W Unit)
    (ev : Option Node → Nat → M W Unit) (jp : Nat) (backgnd : Int)
    (hpath : ∀ w, '%' ∉ (E.pathval w).data) (hpipe : ∀ w, (E.pipe w).1 ≠ none)
    (hfork : ∀ n w, ∃ pid w1, E.forkshell jp n backgnd w = Out.ok pid w1 ∧ pid ≠ 0) :
    ∀ (cmdlist : List (Option Node)) (prevfd pip0 : Int) (s : State W),
      (∀ n ∈ cmdlist, hasWord n = true) →
      ∃ (u : Unit) (s1 : State W), evalpipe_loop E rcf ev jp backgnd cmdlist prevfd pip0 s = Out.ok u s1
        ∧ s1.exitstatus = s.exitstatus := by
  intro cmdlist
  induction cmdlist with
  | nil => intro prevfd pip0 s _; exact ⟨(), s, rfl, rfl⟩
  | cons n rest ih =>
    intro prevfd pip0 s hst
    rw [evalpipe_loop, bind_apply]
    refine andThen_returns_status (fun _ => True) _ _ _ ?_ (fun _ t _ ht => ?_)
    · obtain ⟨u, s1, h1, h2⟩ := prehash_returns E rcf n s (hst n (List.mem_cons_self _ _)) hpath
      exact ⟨u, s1, h1, trivial, h2⟩
    rw [bind_apply]
    refine andThen_returns_status (fun _ => True) _ _ _ ?_ (fun pip t _ ht => ?_)
    · by_cases hemp : rest.isEmpty = false
      · rw [if_pos hemp, bind_apply, getS_apply, andThen_ok, bind_apply, modW_apply, andThen_ok]
        cases hp : (E.pipe t.world).1 with
        | none => exact absurd hp (hpipe _)
        | some fds => exact ⟨fds, _, rfl, trivial, ht⟩
      · rw [if_neg hemp]
        exact ⟨_, t, rfl, trivial, ht⟩
    rw [bind_apply]
    refine andThen_returns_status (fun pid => pid ≠ 0) _ _ _ ?_ (fun pid t hpid ht => ?_)
    · obtain ⟨pid, w1, hf, hpid⟩ := hfork n t.world
      exact ⟨pid, _, liftW_ok _ t pid w1 hf, hpid, ht⟩
    rw [bind_apply]
    refine andThen_returns_status (fun _ => True) _ _ _ ?_ (fun _ t _ ht => ?_)
    · rw [if_neg hpid]
      exact ⟨(), t, rfl, trivial, ht⟩
    rw [bind_apply]
    refine andThen_returns_status (fun _ => True) _ _ _ ?_ (fun _ t _ ht => ?_)
    · split_ifs
      · exact ⟨(), _, rfl, trivial, ht⟩
      · exact ⟨(), t, rfl, trivial, ht⟩
    rw [bind_apply]
    refine andThen_returns_status (fun _ => True) _ _ _ ?_ (fun _ t _ ht => ?_)
    · split_ifs
      · exact ⟨(), _, rfl, trivial, ht⟩
      · exact ⟨(), t, rfl, trivial, ht⟩
    obtain ⟨u, s1, h1, h2⟩ := ih pip.1 pip.1 t (fun m hm => hst m (List.mem_cons_of_mem _ hm))
    exact ⟨u, s1, h1, h2.trans ht⟩

/-- Counterexample to C20 as stated: `false; true | true &` in the small world.  The pipeline
is started in the background and nothing waits for it (the jobs are the three programs), and
the exit status that `false` left, 1, is still there when the evaluation returns. -/
theorem evalpipe_background_counterexample :
    observe (evaltree simExt 4 (some (Node.nbinary BinType.NSEMI (simCmd ["false"])
        (some (Node.npipe 1 [simCmd ["true"], simCmd ["true"]])))) 0 simInit)
      = ("ok", 1, 0, 0, 0, 0,
          { vars := [], jobs := ["false", "true", "true"], output := [], tried := [] }) := by
  decide!

/-- C20, amended: in the parent shell, when every call of `pipe` and of `fork` succeeds, over a
`PATH` without `%` markers and stages that each have a word, the loop of `evalpipe` over the
stages returns in a state `s0` with the exit status that was there before the pipeline.  When
the background flag is set `evalpipe` returns in that very state: it does not wait on the job
and the exit status is the one before the pipeline, not 0.  When the flag is clear `evalpipe`
waits on the job, and when the wait returns, the exit status is the value it returned. -/
theorem evalpipe_status {W : Type} (E : Ext W) (rcf : String → M W Unit)
    (ev : Option Node → Nat → M W Unit) (backgnd : Int) (cmdlist : List (Option Node))
    (s : State W)
    (hpath : ∀ w, '%' ∉ (E.pathval w).data) (hpipe : ∀ w, (E.pipe w).1 ≠ none)
    (hfork : ∀ jp n w, ∃ pid w1, E.forkshell jp n backgnd w = Out.ok pid w1 ∧ pid ≠ 0)
    (hst : ∀ n ∈ cmdlist, hasWord n = true) :
    ∃ s0 : State W,
      evalpipe_loop E rcf ev (E.makejob (some (Node.npipe backgnd cmdlist)) cmdlist.length s.world).1
          backgnd cmdlist (-1) 0
          { s with world := (E.makejob (some (Node.npipe backgnd cmdlist)) cmdlist.length s.world).2 }
        = Out.ok () s0
      ∧ s0.exitstatus = s.exitstatus
      ∧ (backgnd ≠ 0 → evalpipe E rcf ev backgnd cmdlist s = Out.ok () s0)
      ∧ (backgnd = 0 → ∀ st w,
          E.waitforjob (E.makejob (some (Node.npipe backgnd cmdlist)) cmdlist.length s.world).1
            s0.world = Out.ok st w →
          evalpipe E rcf ev backgnd cmdlist s = Out.ok () { s0 with world := w, exitstatus := st }) := by
  obtain ⟨u, s0, h0, he⟩ := evalpipe_loop_returns E rcf ev
    (E.makejob (some (Node.npipe backgnd cmdlist)) cmdlist.length s.world).1 backgnd hpath hpipe
    (hfork _) cmdlist (-1) 0
    { s with world := (E.makejob (some (Node.npipe backgnd cmdlist)) cmdlist.length s.world).2 } hst
  refine ⟨s0, h0, he, ?_, ?_⟩
  · intro hb
    unfold evalpipe
    simp only [bind_apply, makejob, andThen_ok, h0, if_neg hb, pure_apply]
  · intro hb st w hw
    unfold evalpipe
    simp only [bind_apply, makejob, andThen_ok, h0, if_pos hb, waitjob, liftW_ok _ s0 st w hw,
      modS_apply]

/-- Witness for C20: `true | true &` in the small world, started with exit status 1. -/
theorem evalpipe_status_witness :
    ∃ s0 : State Sim,
      evalpipe simExt (readcmdfile simExt (evaltree simExt 2) 2) (evaltree simExt 2) 1
          [simCmd ["true"], simCmd ["true"]] { simInit with exitstatus := 1 } = Out.ok () s0
      ∧ s0.exitstatus = 1 := by
  obtain ⟨s0, _, he, hb, _⟩ := evalpipe_status simExt (readcmdfile simExt (evaltree simExt 2) 2)
    (evaltree simExt 2) 1 [simCmd ["true"], simCmd ["true"]] { simInit with exitstatus := 1 }
    (fun _ => (by decide : '%' ∉ "/bin".data))
    (fun w => (by simp [simExt] : (simExt.pipe w).1 ≠ none))
    (fun _ _ _ => ⟨1, _, rfl, by decide⟩) (by decide)
  exact ⟨s0, hb (by decide), he⟩

/-! ### A change of `PATH` -/

theorem pathElems_colon (rest : List Char) : pathElems (':' :: rest) = [] :: pathElems rest := rfl

theorem pathElems_exists (l : List Char) : ∃ h t, pathElems l = h :: t := by
  rw [pathElems_cons]
  exact ⟨_, _, rfl⟩

theorem pathElems_char (c : Char) (rest h : List Char) (t : List (List Char)) (hc : c ≠ ':')
    (hr : pathElems rest = h :: t) : pathElems (c :: rest) = (c :: h) :: t := by
  have h1 : pathElems (c :: rest) = if c = ':' then [] :: pathElems rest
      else match pathElems rest with
        | e :: r => (c :: e) :: r
        | [] => [[c]] := rfl
  rw [h1, if_neg hc, hr]

theorem firstDiff_self (l : List (List Char)) : firstDiff l l = none := by
  induction l with
  | nil => rfl
  | cons a l ih => rw [firstDiff, if_pos rfl, ih]; rfl

theorem firstDiff_cons_nonempty (a b : List Char) (l1 l2 : List (List Char)) :
    firstDiff (a :: l1) (b :: l2) = if a = b then (firstDiff l1 l2).map (fun j => j + 1) else some 0 := by
  rw [firstDiff]

/-- The first component of the loop of `changepath`: `firstchange` is the index of the first
element in which the rest of the old path and the rest of the new path differ, counted from
`idx`, and stays as it was when they do not differ. -/
theorem changepath_loop_fst :
    ∀ (new old : List Char) (idx fc b : Int),
      (changepath_loop old new idx fc b).1
        = (firstDiff (pathElems old) (pathElems new)).elim fc (fun j => idx + (j : Int)) := by
  intro new
  induction new with
  | nil =>
    intro old idx fc b
    rw [changepath_loop]
    cases old with
    | nil => simp [pathElems, firstDiff]
    | cons d o =>
      obtain ⟨h, t, ho⟩ := pathElems_exists o
      by_cases hd : d = ':'
      · subst hd
        rw [pathElems_colon, ho]
        simp [pathElems, firstDiff]
      · rw [pathElems_char d o h t hd ho]
        simp [pathElems, firstDiff, hd]
  | cons c rest ih =>
    intro old idx fc b
    rw [changepath_loop, ih]
    obtain ⟨h, t, hr⟩ := pathElems_exists rest
    by_cases hsame : old.head? = some c
    · obtain ⟨o, rfl⟩ : ∃ o, old = c :: o := by
        cases old with
        | nil => simp at hsame
        | cons d o => simp at hsame; exact ⟨o, by rw [hsame]⟩
      obtain ⟨h2, t2, ho⟩ := pathElems_exists o
      simp only [if_neg (not_not.2 hsame), List.tail_cons]
      by_cases hc : c = ':'
      · subst hc
        rw [pathElems_colon, pathElems_colon, firstDiff_cons_nonempty, if_pos rfl, if_pos rfl]
        cases firstDiff (pathElems o) (pathElems rest) with
        | none => rfl
        | some j => simp only [Option.map_some', Option.elim_some]; push_cast; ring
      · rw [pathElems_char c o h2 t2 hc ho, pathElems_char c rest h t hc hr, ho, hr,
          firstDiff_cons_nonempty, firstDiff_cons_nonempty, if_neg hc]
        by_cases hh : h2 = h
        · rw [if_pos hh, if_pos (by rw [hh])]
        · rw [if_neg hh, if_neg (by simpa using hh)]
    · simp only [if_pos hsame, firstDiff_self, Option.elim_none]
      cases old with
      | nil =>
        by_cases hc : c = ':'
        · subst hc
          rw [pathElems_colon, hr]
          simp [pathElems, firstDiff]
        · rw [pathElems_char c rest h t hc hr]
          simp [pathElems, firstDiff, hc]
      | cons d o =>
        obtain ⟨h2, t2, ho⟩ := pathElems_exists o
        have hdc : d ≠ c := by
          intro hdc
          apply hsame
          rw [hdc]
          rfl
        by_cases hc : c = ':'
        · subst hc
          rw [pathElems_colon, pathElems_char d o h2 t2 hdc ho]
          simp [firstDiff]
        · by_cases hd : d = ':'
          · subst hd
            rw [pathElems_colon, pathElems_char c rest h t hc hr]
            simp [firstDiff]
          · rw [pathElems_char d o h2 t2 hd ho, pathElems_char c rest h t hc hr]
            simp [firstDiff, hdc, hc]

theorem pfxmatch_takeWhile (p : List Char) (hp : ':' ∉ p) :
    ∀ l : List Char, pfxmatch p (l.takeWhile (fun c => decide (c ≠ ':'))) = pfxmatch p l := by
  induction p with
  | nil => intro l; simp [pfxmatch]
  | cons a p ih =>
    intro l
    have ha : a ≠ ':' := fun h => hp (by rw [h]; exact List.mem_cons_self _ _)
    have hp1 : ':' ∉ p := fun h => hp (List.mem_cons_of_mem _ h)
    cases l with
    | nil => rfl
    | cons x l =>
      by_cases hx : x = ':'
      · subst hx
        simp [pfxmatch, List.isPrefixOf, ha]
      · have e1 : decide (x ≠ ':') = true := by simpa using hx
        rw [List.takeWhile_cons, e1]
        have := ih hp1 l
        simp only [pfxmatch, if_true, List.isPrefixOf] at this ⊢
        rw [this]

theorem pathElems_head (l h : List Char) (t : List (List Char)) (hl : pathElems l = h :: t) :
    h = l.takeWhile (fun c => decide (c ≠ ':')) := by
  rw [pathElems_cons] at hl
  exact (List.cons.inj hl).1.symm

/-- The second component of the loop of `changepath`: `bltin`, once set, stays, and is
otherwise the index of the first element of the rest of the new path that holds the marker
`%builtin`, counted from `idx`. -/
theorem changepath_loop_snd :
    ∀ (new old : List Char) (idx fc b : Int), 0 ≤ idx →
      (changepath_loop old new idx fc b).2
        = if 0 ≤ b then b else (markerIdx (pathElems new)).elim b (fun j => idx + (j : Int)) := by
  intro new
  induction new with
  | nil =>
    intro old idx fc b _
    rw [changepath_loop]
    simp [pathElems, markerIdx, hasMarker]
  | cons c rest ih =>
    intro old idx fc b hidx
    obtain ⟨h, t, hr⟩ := pathElems_exists rest
    have hh := pathElems_head rest h t hr
    have hpfx : pfxmatch "builtin".data h = pfxmatch "builtin".data rest := by
      rw [hh]
      exact pfxmatch_takeWhile _ (by decide) rest
    rw [changepath_loop, ih _ _ _ _ (by split_ifs <;> omega)]
    by_cases hb : 0 ≤ b
    · have hb1 : ¬ b < 0 := by omega
      simp only [hb1, false_and, and_false, if_false, if_pos hb]
    · have hb1 : b < 0 := by omega
      rw [if_neg hb]
      by_cases hm : c = '%' ∧ pfxmatch "builtin".data rest = true
      · have hc : c ≠ ':' := by rw [hm.1]; decide
        rw [if_pos (show c = '%' ∧ b < 0 ∧ pfxmatch "builtin".data rest = true from
          ⟨hm.1, hb1, hm.2⟩), if_pos hidx, pathElems_char c rest h t hc hr]
        simp [markerIdx, hasMarker, hm.1, hpfx, hm.2]
      · have hm1 : ¬ (c = '%' ∧ b < 0 ∧ pfxmatch "builtin".data rest = true) :=
          fun h3 => hm ⟨h3.1, h3.2.2⟩
        rw [if_neg hm1, if_neg hb]
        by_cases hc : c = ':'
        · subst hc
          rw [pathElems_colon, if_pos rfl]
          simp only [markerIdx, hasMarker, Bool.false_eq_true, if_false]
          cases markerIdx (pathElems rest) with
          | none => rfl
          | some j => simp only [Option.map_some', Option.elim_some]; push_cast; ring
        · rw [pathElems_char c rest h t hc hr, hr, if_neg hc]
          have hmk : hasMarker (c :: h) = hasMarker h := by
            rw [hasMarker, hpfx]
            by_cases hc2 : c = '%'
            · have : pfxmatch "builtin".data rest = false := by
                cases hp : pfxmatch "builtin".data rest with
                | false => rfl
                | true => exact absurd ⟨hc2, hp⟩ hm
              simp [this]
            · simp [hc2]
          simp only [markerIdx, hmk]

/-- When the marker sits at `a` in one list of elements and not in the other, the lists
differ at `a` or before. -/
theorem firstDiff_le_marker_left :
    ∀ (l1 l2 : List (List Char)) (a : Nat), markerIdx l1 = some a → markerIdx l2 ≠ some a →
      ∃ j, j ≤ a ∧ firstDiff l1 l2 = some j := by
  intro l1
  induction l1 with
  | nil => intro l2 a h; simp [markerIdx] at h
  | cons e r ih =>
    intro l2 a h1 h2
    cases l2 with
    | nil => exact ⟨0, Nat.zero_le _, rfl⟩
    | cons e2 r2 =>
      rw [firstDiff_cons_nonempty]
      by_cases he : e = e2
      · subst he
        rw [if_pos rfl]
        rw [markerIdx] at h1 h2
        by_cases hm : hasMarker e = true
        · rw [if_pos hm] at h1 h2
          exact absurd h1 h2
        · rw [if_neg hm] at h1 h2
          cases hr : markerIdx r with
          | none => rw [hr] at h1; simp at h1
          | some a1 =>
            rw [hr] at h1
            simp only [Option.map_some', Option.some.injEq] at h1
            subst h1
            have h3 : markerIdx r2 ≠ some a1 := by
              intro h4
              apply h2
              rw [h4]
              rfl
            obtain ⟨j, hj, hd⟩ := ih r2 a1 hr h3
            exact ⟨j + 1, by omega, by rw [hd]; rfl⟩
      · rw [if_neg he]
        exact ⟨0, Nat.zero_le _, rfl⟩

theorem firstDiff_comm (l1 l2 : List (List Char)) : firstDiff l1 l2 = firstDiff l2 l1 := by
  induction l1 generalizing l2 with
  | nil => cases l2 <;> rfl
  | cons a l1 ih =>
    cases l2 with
    | nil => rfl
    | cons b l2 =>
      rw [firstDiff_cons_nonempty, firstDiff_cons_nonempty, ih l2]
      by_cases h : a = b
      · rw [if_pos h, if_pos h.symm]
      · rw [if_neg h, if_neg (fun h1 => h h1.symm)]

/-- What the loop of `changepath` computes: the position of the first element in which the
two paths differ (9999 when they are the same) and the position of the marker `%builtin` in
the new path. -/
theorem changepath_loop_eq (old new : List Char) :
    changepath_loop old new 0 9999 (-1) = (firstChange old new, markerPos new) := by
  apply Prod.ext
  · rw [changepath_loop_fst]
    simp only [firstChange, zero_add]
  · rw [changepath_loop_snd _ _ _ _ _ le_rfl]
    simp only [markerPos, zero_add]
    rfl

theorem markerPos_nonneg_iff (p : List Char) (a : Nat) :
    markerPos p = (a : Int) ↔ markerIdx (pathElems p) = some a := by
  unfold markerPos
  cases markerIdx (pathElems p) with
  | none => simp only [Option.elim_none, reduceCtorEq, iff_false]
  | some j => simp only [Option.elim_some, Option.some.injEq]; omega

theorem markerPos_cases (p : List Char) :
    (markerPos p = -1 ∧ markerIdx (pathElems p) = none)
      ∨ ∃ a : Nat, markerPos p = (a : Int) ∧ markerIdx (pathElems p) = some a := by
  unfold markerPos
  cases markerIdx (pathElems p) with
  | none => exact Or.inl ⟨rfl, rfl⟩
  | some j => exact Or.inr ⟨j, rfl, rfl⟩

/-- When the marker `%builtin` is at different positions of the two paths, or in one of them
only, the paths differ at the position of the marker or before. -/
theorem firstChange_le_marker (old new : List Char) (h : markerPos old ≠ markerPos new) :
    (0 ≤ markerPos old → firstChange old new ≤ markerPos old)
      ∧ (0 ≤ markerPos new → firstChange old new ≤ markerPos new) := by
  constructor
  · intro h0
    rcases markerPos_cases old with ⟨h1, _⟩ | ⟨a, h1, h2⟩
    · omega
    · have h3 : markerIdx (pathElems new) ≠ some a := by
        intro h4
        exact h (by rw [h1, (markerPos_nonneg_iff new a).2 h4])
      obtain ⟨j, hj, hd⟩ := firstDiff_le_marker_left _ _ a h2 h3
      rw [firstChange, hd, h1]
      simp only [Option.elim_some]
      omega
  · intro h0
    rcases markerPos_cases new with ⟨h1, _⟩ | ⟨a, h1, h2⟩
    · omega
    · have h3 : markerIdx (pathElems old) ≠ some a := by
        intro h4
        exact h (by rw [h1, (markerPos_nonneg_iff old a).2 h4])
      obtain ⟨j, hj, hd⟩ := firstDiff_le_marker_left _ _ a h2 h3
      rw [firstChange, firstDiff_comm, hd, h1]
      simp only [Option.elim_some]
      omega

theorem markerPos_ge (p : List Char) : -1 ≤ markerPos p := by
  rcases markerPos_cases p with ⟨h, _⟩ | ⟨a, h, _⟩ <;> omega

theorem firstChange_nonneg (old new : List Char) : 0 ≤ firstChange old new := by
  unfold firstChange
  cases firstDiff (pathElems old) (pathElems new) with
  | none => simp
  | some j => simp

/-- Counterexample to C15 as stated.  With `PATH=/bin:%builtin` the program `ls` is cached with
index 0.  The assignment `PATH=/bin` changes the path at position 1 and no earlier, and the
entry of `ls`, whose index 0 is smaller, is deleted all the same, because the marker `%builtin`
has left the path. -/
theorem changepath_counterexample :
    cacheview (cacheStep (CacheOp.find_command "ls" true)
        (setPath "/bin:%builtin" (cacheStep (CacheOp.changepath "/bin:%builtin") (fsInit "/bin"))))
        "ls" = [(bucket "ls", CmdType.CMDNORMAL, some 0, false)]
    ∧ firstChange "/bin:%builtin".data "/bin".data = 1
    ∧ cacheview (cacheStep (CacheOp.changepath "/bin") (cacheStep (CacheOp.find_command "ls" true)
        (setPath "/bin:%builtin" (cacheStep (CacheOp.changepath "/bin:%builtin") (fsInit "/bin")))))
        "ls" = [] := by
  refine ⟨by decide!, by decide!, by decide!⟩

/-- C15, amended: `changepath(new)` returns; afterwards `builtinloc` is the position of the
marker `%builtin` in the new path, and each chain of the table holds, in their order and
unchanged, the entries it held before except those deleted: an External entry is deleted
exactly when its recorded index is at least `fc`, a Builtin entry exactly when the position
`bloc` that the marker is taken to have is at least `fc`, and no Function entry is deleted.
Here `fc` is the earliest position at which the elements of the old and the new path differ
(9999 when they do not), except that it is 0, so that every External entry is deleted, when
`builtinloc` was not negative and the new path has no marker.  When `builtinloc` was the
position of the marker in the old path and the marker is not at that position in the new one,
every Builtin entry is deleted. -/
theorem changepath_effect {W : Type} (E : Ext W) (newval : String) (s : State W) (fc bloc : Int)
    (hfc : fc = if 0 ≤ s.builtinloc ∧ markerPos newval.data < 0 then 0
      else firstChange (E.pathval s.world).data newval.data)
    (hbloc : bloc = if s.builtinloc < 0 ∧ 0 ≤ markerPos newval.data then markerPos newval.data
      else s.builtinloc) :
    ∃ s1 : State W, changepath E newval s = Out.ok () s1
      ∧ s1.builtinloc = markerPos newval.data
      ∧ (∀ b, b < CMDTABLESIZE → s1.cmdtable b = (s.cmdtable b).filter (fun e =>
          decide ((e.cmdtype = CmdType.CMDNORMAL → param_index E e.param < fc)
            ∧ (e.cmdtype = CmdType.CMDBUILTIN → bloc < fc))))
      ∧ (s.builtinloc = markerPos (E.pathval s.world).data →
          markerPos (E.pathval s.world).data ≠ markerPos newval.data →
          ∀ b, b < CMDTABLESIZE → ∀ e ∈ s1.cmdtable b, e.cmdtype ≠ CmdType.CMDBUILTIN) := by
  have hkey : ∀ b, b < CMDTABLESIZE →
      ((clearcmdentry E fc { s with builtinloc := bloc }).state s).cmdtable b
        = (s.cmdtable b).filter (fun e =>
          decide ((e.cmdtype = CmdType.CMDNORMAL → param_index E e.param < fc)
            ∧ (e.cmdtype = CmdType.CMDBUILTIN → bloc < fc))) := by
    intro b hb
    simp only [clearcmdentry, modS_apply, Out.state, if_pos hb, cleared]
    congr 1
    funext e
    rw [Bool.eq_iff_iff]
    by_cases h1 : e.cmdtype = CmdType.CMDNORMAL <;> by_cases h2 : e.cmdtype = CmdType.CMDBUILTIN <;>
      simp [h1, h2, not_le]
  have hrun : changepath E newval s
      = Out.ok () { (clearcmdentry E fc { s with builtinloc := bloc }).state s with
          builtinloc := markerPos newval.data } := by
    unfold changepath
    by_cases h1 : s.builtinloc < 0 ∧ markerPos newval.data ≥ 0
    · have h2 : ¬ (0 ≤ s.builtinloc ∧ markerPos newval.data < 0) := by omega
      have h3 : ¬ (markerPos newval.data ≥ 0 ∧ markerPos newval.data < 0) := by omega
      rw [if_neg h2] at hfc
      rw [if_pos h1] at hbloc
      subst hfc hbloc
      simp only [bind_apply, getS_apply, andThen_ok, changepath_loop_eq, ite_apply_state,
        modS_apply, pure_apply, clearcmdentry, Out.state, if_pos h1, if_neg h3]
    · have h4 : ¬ (s.builtinloc < 0 ∧ 0 ≤ markerPos newval.data) := h1
      rw [if_neg h4] at hbloc
      subst hbloc
      by_cases h2 : s.builtinloc ≥ 0 ∧ markerPos newval.data < 0
      · rw [if_pos h2] at hfc
        subst hfc
        simp only [bind_apply, getS_apply, andThen_ok, changepath_loop_eq, ite_apply_state,
          modS_apply, pure_apply, clearcmdentry, Out.state, if_neg h1, if_pos h2]
      · rw [if_neg h2] at hfc
        subst hfc
        simp only [bind_apply, getS_apply, andThen_ok, changepath_loop_eq, ite_apply_state,
          modS_apply, pure_apply, clearcmdentry, Out.state, if_neg h1, if_neg h2]
  refine ⟨_, hrun, rfl, hkey, ?_⟩
  intro hloc hne b hb e he hbt
  have he1 : e ∈ ((clearcmdentry E fc { s with builtinloc := bloc }).state s).cmdtable b := he
  rw [hkey b hb, List.mem_filter] at he1
  have h5 := he1.2
  simp only [decide_eq_true_eq] at h5
  have h6 := h5.2 hbt
  have hm := firstChange_le_marker _ _ hne
  have hnn := firstChange_nonneg (E.pathval s.world).data newval.data
  have hg1 := markerPos_ge (E.pathval s.world).data
  have hg2 := markerPos_ge newval.data
  rw [← hloc] at hm hne hg1
  split_ifs at hfc hbloc <;> omega

/-- Witness for C15: with `PATH=/bin:/usr/bin`, `ls` is cached with index 0 and `cc` with
index 1; the assignment `PATH=/bin:/opt` changes the path at position 1, keeps the entry of
`ls` and deletes that of `cc`. -/
theorem changepath_effect_witness :
    (∃ s1 : State Sim,
      changepath (fsExt 0) "/bin:/opt" (cacheStep (CacheOp.find_command "cc" true)
        (cacheStep (CacheOp.find_command "ls" true) (fsInit "/bin:/usr/bin"))) = Out.ok () s1
      ∧ s1.builtinloc = -1)
    ∧ cacheview (cacheStep (CacheOp.find_command "cc" true)
        (cacheStep (CacheOp.find_command "ls" true) (fsInit "/bin:/usr/bin"))) "cc"
        = [(bucket "cc", CmdType.CMDNORMAL, some 1, false)]
    ∧ cacheview (cacheStep (CacheOp.changepath "/bin:/opt") (cacheStep (CacheOp.find_command "cc" true)
        (cacheStep (CacheOp.find_command "ls" true) (fsInit "/bin:/usr/bin")))) "cc" = []
    ∧ cacheview (cacheStep (CacheOp.changepath "/bin:/opt") (cacheStep (CacheOp.find_command "cc" true)
        (cacheStep (CacheOp.find_command "ls" true) (fsInit "/bin:/usr/bin")))) "ls"
        = [(bucket "ls", CmdType.CMDNORMAL, some 0, false)] := by
  refine ⟨?_, by decide!, by decide!, by decide!⟩
  obtain ⟨s1, h1, h2, _⟩ := changepath_effect (fsExt 0) "/bin:/opt"
    (cacheStep (CacheOp.find_command "cc" true)
      (cacheStep (CacheOp.find_command "ls" true) (fsInit "/bin:/usr/bin"))) 1 (-1)
    (by decide!) (by decide!)
  exact ⟨s1, h1, h2.trans (by decide!)⟩

/-! ### The counters after a top-level evaluation -/

/-- C11, evaluated at a failing input.  In the small world with a file system the loop
`while true; do true <x; done` fails in its body.  Evaluated at the top level it stops with
the exception `EXERROR` while `loopnest` is 1, and `reset` puts the three values back to 0.
Evaluated again by the built-in `lc` (`lccmd` of main.c, which calls `evaltree` on the previous
command), from a state with `loopnest = funcnest = 0` and no skip marker, the same exception
is caught by the frame `evalcommand` sets up around a built-in; `lc` is not one of the four
built-ins (`bltin`, `.`, `eval`, `exec`) for which that frame raises the exception again, so
the evaluation of `lc` returns normally, with exit status 2, and `loopnest` is still 1. -/
theorem evaltree_lc_session :
    observe (evaltree (fsExt 0) 6 failingLoop 0 (fsInit "/bin"))
      = ("raise", EXERROR, 0, 0, 1, 0,
          { vars := [("PATH", "/bin")], jobs := [], output := [], tried := [] })
    ∧ ((reset ((evaltree (fsExt 0) 6 failingLoop 0 (fsInit "/bin")).state (fsInit "/bin"))).evalskip,
        (reset ((evaltree (fsExt 0) 6 failingLoop 0 (fsInit "/bin")).state (fsInit "/bin"))).loopnest,
        (reset ((evaltree (fsExt 0) 6 failingLoop 0 (fsInit "/bin")).state (fsInit "/bin"))).funcnest)
      = (0, 0, 0)
    ∧ (lcState.evalskip, lcState.loopnest, lcState.funcnest) = (0, 0, 0)
    ∧ observe (evaltree (fsExt 0) 6 (simCmd ["lc"]) 0 lcState)
      = ("ok", 2, 0, 0, 1, 0,
          { vars := [("_", "lc"), ("_", "true"), ("PATH", "/bin")], jobs := [], output := [],
            tried := [] }) := by
  refine ⟨by decide!, by decide!, by decide!, by decide!⟩

/-! ### The bucket of a name -/

theorem hashval_range (name : String) : 0 ≤ hashval name ∧ hashval name < 32768 := by
  unfold hashval
  constructor
  · exact Int.emod_nonneg _ (by decide)
  · exact Int.emod_lt_of_pos _ (by decide)

/-- C30: for every command name, the empty name and names with bytes of 0x80 and above
(negative as `char`) included, the hash value `((first byte << 4) + sum of all bytes) & 0x7FFF`
lies in 0..32767 and the bucket index, that value modulo 31, lies in 0..30; and `cmdlookup`,
in every state and whether or not it may add an entry, selects that bucket, which depends on
the name only: the position it returns and the position it records in `lastcmdentry` are in
the bucket `bucket name`. -/
theorem cmdlookup_bucket {W : Type} (name : String) (add : Bool) (s : State W) :
    (0 ≤ hashval name ∧ hashval name < 32768)
    ∧ (0 ≤ hashval name % 31 ∧ hashval name % 31 < 31 ∧ ((bucket name : Nat) : Int) = hashval name % 31)
    ∧ bucket name < CMDTABLESIZE
    ∧ ∃ (r : Option (Nat × Nat)) (s1 : State W),
        (cmdlookup name add : M W (Option (Nat × Nat))) s = Out.ok r s1
        ∧ s1.lastcmdentry.1 = bucket name
        ∧ (∀ pos, r = some pos → pos.1 = bucket name)
        ∧ (∀ b, b ≠ bucket name → s1.cmdtable b = s.cmdtable b) := by
  have h := hashval_range name
  have h0 := Int.emod_nonneg (hashval name) (show (31 : Int) ≠ 0 by decide)
  have h1 := Int.emod_lt_of_pos (hashval name) (show (0 : Int) < 31 by decide)
  refine ⟨h, ⟨h0, h1, ?_⟩, bucket_lt name, ?_⟩
  · unfold bucket CMDTABLESIZE
    exact Int.toNat_of_nonneg h0
  · unfold cmdlookup
    dsimp only
    split_ifs
    · exact ⟨_, _, rfl, rfl, (fun pos hp => by cases hp; rfl), fun _ _ => rfl⟩
    · refine ⟨_, _, rfl, rfl, (fun pos hp => by cases hp; rfl), fun b hb => ?_⟩
      exact Function.update_noteq hb _ _
    · exact ⟨_, _, rfl, rfl, (fun pos hp => by cases hp), fun _ _ => rfl⟩

/-- Witness for C30: the name `é`, whose two bytes 0xC3 and 0xA9 are negative as `char`, has
the hash value 31644 and the bucket 24; the empty name has the bucket 0. -/
theorem cmdlookup_bucket_witness :
    cbytes "é" = [-61, -87] ∧ hashval "é" = 31644 ∧ bucket "é" = 24 ∧ bucket "" = 0
    ∧ (0 ≤ hashval "é" % 31 ∧ hashval "é" % 31 < 31
        ∧ ((bucket "é" : Nat) : Int) = hashval "é" % 31) :=
  ⟨by decide!, by decide!, by decide!, by decide!, (cmdlookup_bucket "é" false simInit).2.1⟩

/-! ### An `if` without `else` whose test fails -/

/-- C29: for an `If` node without an else part whose test returns with a clear skip marker and
a nonzero exit status, `evaltree` evaluates no branch: the checks at the end of `evaltree` are
made on the very state the test left, so the exit status is that of the test.  When no signal
is pending, `evaltree` then ends the shell with that status if `EV_EXIT` is set or if the `-e`
flag is on and `EV_TESTED` is clear, and returns in the state the test left otherwise. -/
theorem evaltree_if_noelse {W : Type} (E : Ext W) (k : Nat) (test ifpart : Option Node)
    (flags : Nat) (s s1 : State W)
    (htest : evaltree E k test EV_TESTED s = Out.ok () s1)
    (hskip : s1.evalskip = 0) (hstatus : s1.exitstatus ≠ 0) :
    evaltree E (k + 1) (some (Node.nif test ifpart none)) flags s = evalboundary E flags s1
    ∧ (s1.pendingsig = 0 →
        evaltree E (k + 1) (some (Node.nif test ifpart none)) flags s =
          if flags &&& EV_EXIT ≠ 0 ∨ (s1.eflag = true ∧ flags &&& EV_TESTED = 0) then
            Out.stop (Stop.exitshell s1.exitstatus) s1
          else Out.ok () s1) := by
  have h1 : evaltree E (k + 1) (some (Node.nif test ifpart none)) flags s
      = evalboundary E flags s1 := by
    rw [evaltree_succ]
    simp only [evalswitch, bind_apply, htest, andThen_ok, getS_apply, if_pos hskip, if_neg hstatus,
      Option.isSome_none, Bool.false_eq_true, if_false, pure_apply]
  refine ⟨h1, fun hsig => ?_⟩
  rw [h1]
  simp only [evalboundary, bind_apply, getS_apply, andThen_ok, hsig, ne_eq, not_true_eq_false,
    if_false, pure_apply, ite_apply_state, exitshell_apply]
  by_cases hc : flags &&& EV_EXIT ≠ 0 ∨ (s1.eflag = true ∧ flags &&& EV_TESTED = 0)
  · rw [if_pos hc, if_pos]
    rcases hc with h | ⟨h2, h3⟩
    · exact Or.inl h
    · exact Or.inr ⟨h2, hstatus, h3⟩
  · rw [if_neg hc, if_neg]
    rintro (h | ⟨h2, _, h3⟩)
    · exact hc (Or.inl h)
    · exact hc (Or.inr ⟨h2, h3⟩)

/-- Witness for C29: `if false; then echo x; fi` prints nothing and leaves the status 1 of
`false`; with the `-e` flag on it ends the shell with status 1. -/
theorem evaltree_if_noelse_witness :
    observe (evaltree simExt 3 (some (Node.nif (simCmd ["false"]) (simCmd ["echo", "x"]) none)) 0
        simInit)
      = ("ok", 1, 0, 0, 0, 0, { vars := [], jobs := ["false"], output := [], tried := [] })
    ∧ observe (evaltree simExt 3 (some (Node.nif (simCmd ["false"]) (simCmd ["echo", "x"]) none)) 0
        { simInit with eflag := true })
      = ("exit", 1, 0, 0, 0, 0, { vars := [], jobs := ["false"], output := [], tried := [] }) := by
  have h1 := (evaltree_if_noelse simExt 2 (simCmd ["false"]) (simCmd ["echo", "x"]) 0 simInit
    ((evaltree simExt 2 (simCmd ["false"]) EV_TESTED simInit).state simInit)
    (Out.eq_ok_of_isOk _ simInit () (by decide!)) (by decide!) (by decide!)).1
  have h2 := (evaltree_if_noelse simExt 2 (simCmd ["false"]) (simCmd ["echo", "x"]) 0
    { simInit with eflag := true }
    ((evaltree simExt 2 (simCmd ["false"]) EV_TESTED { simInit with eflag := true }).state simInit)
    (Out.eq_ok_of_isOk _ simInit () (by decide!)) (by decide!) (by decide!)).1
  rw [h1, h2]
  refine ⟨by decide!, by decide!⟩

/-! ### The decision to fork -/

theorem trycatch_raise {W α : Type} (body : M W α) (handler : Int → M W α) (s s1 : State W)
    (e : Int) (h : body s = Out.stop (Stop.raise e) s1) :
    trycatch body handler s = handler e s1 := by
  unfold trycatch
  rw [h]

/-- Counterexample to C21 as stated, in a world in which no file can be opened and `raise`
unwinds as `error` does.  The built-in `.` raises `EXERROR` when it cannot open `x`: the frame
of the built-in sets the exit status to 2 and passes the exception on, so that `evaltree` does
not return normally.  The built-in `break`, which is not one of the four, raises `EXERROR` on
the bad number `x`: the exit status is 2 and `evaltree` returns normally. -/
theorem evalcommand_builtin_error_counterexample :
    observe (evaltree noFileExt 3
        (simCmd [".", "x"]) 0 (fsInit "/bin"))
      = ("raise", EXERROR, 0, 0, 0, 0,
          { vars := [("PATH", "/bin")], jobs := [], output := [], tried := [] })
    ∧ ((evaltree noFileExt 3
        (simCmd [".", "x"]) 0 (fsInit "/bin")).state (fsInit "/bin")).exitstatus = 2
    ∧ observe (evaltree noFileExt 3
        (simCmd ["break", "x"]) 0 (fsInit "/bin"))
      = ("ok", 2, 0, 0, 0, 0,
          { vars := [("PATH", "/bin")], jobs := [], output := [], tried := [] }) := by
  refine ⟨by decide!, by decide!, by decide!⟩

/-- C21, amended: when the function of a built-in raises the exception `e` (`EXINT`, `EXERROR`
or `EXSHELLPROC`, never the value -1 that stands for "none"), the frame `evalcommand` has set
up catches it and sets the exit status to 2, or to 128 + `SIGINT` when `e` is `EXINT`.  What
follows is one of three things.  With `EV_EXIT` set, and `e` other than `EXSHELLPROC`, the shell
exits with that status.  Otherwise, for `EXERROR` in a built-in other than `bltin`, `.`, `eval`
and `exec`, `evalcommand` goes on to its end, `finish`: it pops the redirections and returns
normally (in a command substitution with the output buffer, when it was given a structure for
the result).  Otherwise, that is for `EXERROR` in one of those four and for every other
exception, it passes the exception on by calling `raise(e)`, from the state with that exit
status. -/
theorem evalcommand_builtin_caught {W : Type} (E : Ext W) (ev : Option Node → Nat → M W Unit)
    (fuel : Nat) (redirs : List Redir) (flags : Nat) (backcmd : Option BackCmd) (index : Int)
    (argv varlist : List String) (s sb s1 : State W) (e : Int)
    (hredir : liftW (E.redirect redirs ((if index = E.EXECCMD then 0 else REDIR_PUSH)
        ||| (if flags = EV_BACKCMD then REDIR_BACKQ else 0)))
      (if flags = EV_BACKCMD then { s with world := E.memout_reset s.world } else s)
        = Out.ok () sb)
    (hbody : callbuiltin E ev fuel (E.builtinfunc index) argv
      { sb with cmdenviron := varlist, commandname := argv.head?, argptr := argv.tail }
        = Out.stop (Stop.raise e) s1)
    (he : e ≠ -1) :
    ∃ finish : State W → Out (State W) (Option BackCmd),
      (∀ s4, flags ≠ EV_BACKCMD → finish s4 = Out.ok backcmd
          (if index ≠ E.EXECCMD then { s4 with world := E.popredir s4.world } else s4))
      ∧ (∀ s4 b, flags = EV_BACKCMD → backcmd = some b → ∃ bc s5, finish s4 = Out.ok (some bc) s5
          ∧ s5.exitstatus = s4.exitstatus)
      ∧ (e ≠ EXSHELLPROC → flags &&& EV_EXIT ≠ 0 →
        evalcommand_builtin E ev fuel redirs flags backcmd index argv varlist s
          = Out.stop (Stop.exitshell (if e = EXINT then SIGINT + 128 else 2))
              { s1 with
                exitstatus := if e = EXINT then SIGINT + 128 else 2
                commandname := sb.commandname
                world := E.freestdout s1.world })
      ∧ (flags &&& EV_EXIT = 0 → e = EXERROR →
          ¬ (index = E.BLTINCMD ∨ index = E.DOTCMD ∨ index = E.EVALCMD ∨ index = E.EXECCMD) →
        evalcommand_builtin E ev fuel redirs flags backcmd index argv varlist s
          = finish { s1 with
              exitstatus := 2
              commandname := sb.commandname
              world := E.freestdout s1.world })
      ∧ (flags &&& EV_EXIT = 0 ∨ e = EXSHELLPROC →
          e ≠ EXERROR ∨ index = E.BLTINCMD ∨ index = E.DOTCMD ∨ index = E.EVALCMD
            ∨ index = E.EXECCMD →
        evalcommand_builtin E ev fuel redirs flags backcmd index argv varlist s
          = (E.raise e { s1 with
                exitstatus := if e = EXINT then SIGINT + 128 else 2
                commandname := if e ≠ EXSHELLPROC then sb.commandname else s1.commandname
                world := E.freestdout s1.world }).andThen fun _ s4 => finish s4) := by
  obtain ⟨finish, hfin⟩ : ∃ finish : M W (Option BackCmd), finish = (do
      (if index ≠ E.EXECCMD then modW E.popredir else pure ())
      if flags = EV_BACKCMD then
        match backcmd with
        | none => stopM Stop.fault
        | some b => do
          let s ← getS
          modW (fun w => (E.memout_take w).2)
          pure (some { b with buf := some (E.memout_take s.world).1.1,
                              nleft := (E.memout_take s.world).1.2 })
      else pure backcmd) := ⟨_, rfl⟩
  have hb : (do
        modS (fun s => { s with commandname := argv.head?, argptr := argv.tail })
        let st ← callbuiltin E ev fuel (E.builtinfunc index) argv
        modS (fun s => { s with exitstatus := st })
        pure (-1) : M W Int) { sb with cmdenviron := varlist } = Out.stop (Stop.raise e) s1 := by
    simp only [bind_apply, modS_apply, andThen_ok]
    rw [hbody]
    rfl
  have hrun : evalcommand_builtin E ev fuel redirs flags backcmd index argv varlist s
      = ((do
          (if e ≠ EXSHELLPROC then do
              modS (fun s => { s with commandname := sb.commandname })
              (if flags &&& EV_EXIT ≠ 0 then do
                  let s ← getS
                  exitshell s.exitstatus
                else pure ())
            else pure ())
          (if e ≠ -1 then
              (if e ≠ EXERROR ∨ index = E.BLTINCMD ∨ index = E.DOTCMD ∨ index = E.EVALCMD
                  ∨ index = E.EXECCMD then E.raise e
                else pure ())
            else pure ())
          finish) : M W (Option BackCmd))
        { s1 with
          exitstatus := if e = EXINT then SIGINT + 128 else 2
          world := E.freestdout s1.world } := by
    rw [hfin]
    unfold evalcommand_builtin
    by_cases hfl : flags = EV_BACKCMD
    · have hredir1 := hredir
      simp only [if_pos hfl] at hredir1
      cases backcmd <;>
        simp only [bind_apply, if_pos hfl, modW_apply, andThen_ok, hredir1, getS_apply, modS_apply,
          trycatch_raise _ _ _ _ _ hb, pure_apply]
    · have hredir1 := hredir
      simp only [if_neg hfl] at hredir1
      simp only [bind_apply, if_neg hfl, pure_apply, andThen_ok, hredir1, getS_apply, modS_apply,
        trycatch_raise _ _ _ _ _ hb, modW_apply]
  refine ⟨finish, ?_, ?_, ?_, ?_, ?_⟩
  · intro s4 hfl
    rw [hfin]
    simp only [bind_apply, ite_apply_state, modW_apply, pure_apply, if_neg hfl]
    split_ifs <;> rfl
  · intro s4 b hfl hbc
    rw [hfin]
    subst hbc
    simp only [bind_apply, ite_apply_state, modW_apply, pure_apply, if_pos hfl]
    split_ifs <;> exact ⟨_, _, rfl, rfl⟩
  · intro hs hx
    rw [hrun]
    simp only [bind_apply, ite_apply_state, if_pos hs, modS_apply, andThen_ok, if_pos hx,
      getS_apply, exitshell_apply, andThen_stop]
  · intro hx he1 hsp
    subst he1
    have hs : EXERROR ≠ EXSHELLPROC := by decide
    have hi : ¬ (EXERROR = EXINT) := by decide
    rw [hrun]
    simp only [bind_apply, ite_apply_state, if_pos hs, modS_apply, andThen_ok, hx, ne_eq,
      not_true_eq_false, if_false, pure_apply, if_pos he, if_neg hi, false_or, if_neg hsp]
  · intro hx hc
    rw [hrun]
    by_cases hs : e = EXSHELLPROC
    · simp only [bind_apply, ite_apply_state, hs, ne_eq, not_true_eq_false, if_false, pure_apply,
        andThen_ok, if_pos (hs ▸ he), if_pos (hs ▸ hc)]
    · have hx0 : flags &&& EV_EXIT = 0 := hx.resolve_right hs
      simp only [bind_apply, ite_apply_state, if_pos hs, modS_apply, andThen_ok, hx0, ne_eq,
        not_true_eq_false, if_false, pure_apply, if_pos he, if_pos hc]

/-- Witness for C21, amended: in the world of the counterexample, `break x` returns normally
with exit status 2, and `. x` ends with the call `raise(EXERROR)` made with exit status 2. -/
theorem evalcommand_builtin_caught_witness :
    observe (evalcommand_builtin
        noFileExt
        (evaltree noFileExt 2) 2
        [] 0 none 4 ["break", "x"] [] (fsInit "/bin"))
      = ("ok", 2, 0, 0, 0, 0, { vars := [("PATH", "/bin")], jobs := [], output := [], tried := [] })
    ∧ observe (evalcommand_builtin
        noFileExt
        (evaltree noFileExt 2) 2
        [] 0 none 1 [".", "x"] [] (fsInit "/bin"))
      = ("raise", EXERROR, 0, 0, 0, 0,
          { vars := [("PATH", "/bin")], jobs := [], output := [], tried := [] }) := by
  obtain ⟨fin1, hf1, _, _, hB1, _⟩ := evalcommand_builtin_caught
    noFileExt
    (evaltree noFileExt 2) 2
    [] 0 none 4 ["break", "x"] [] (fsInit "/bin") (fsInit "/bin")
    { fsInit "/bin" with cmdenviron := [], commandname := some "break", argptr := ["x"] } EXERROR
    rfl rfl (by decide)
  obtain ⟨fin2, hf2, _, _, _, hC2⟩ := evalcommand_builtin_caught
    noFileExt
    (evaltree noFileExt 2) 2
    [] 0 none 1 [".", "x"] [] (fsInit "/bin") (fsInit "/bin")
    { fsInit "/bin" with cmdenviron := [], commandname := some ".", argptr := ["x"] } EXERROR
    rfl rfl (by decide)
  have hf2a : ∀ s4, fin2 s4 = Out.ok none
      (if (1 : Int) ≠ noFileExt.EXECCMD then { s4 with world := noFileExt.popredir s4.world }
        else s4) := fun s4 => hf2 s4 (by decide)
  refine ⟨?_, ?_⟩
  · rw [hB1 (by decide) rfl (by decide), hf1 _ (by decide)]
    decide!
  · rw [hC2 (Or.inl (by decide)) (Or.inr (Or.inr (Or.inl rfl)))]
    simp only [hf2a]
    decide!

/-! ### The counters on the exit paths of a function and of a loop -/

/-- What `changepath` leaves: the table filtered by `clearcmdentry` with the threshold `fc`,
and `builtinloc` set to the position of the marker in the new path. -/
theorem changepath_apply {W : Type} (E : Ext W) (newval : String) (s : State W) :
    changepath E newval s = Out.ok ()
      { s with
        builtinloc := markerPos newval.data
        cmdtable := fun b =>
          if b < CMDTABLESIZE then
            (s.cmdtable b).filter (fun cmdp =>
              ! cleared E
                { s with builtinloc :=
                    if s.builtinloc < 0 ∧ 0 ≤ markerPos newval.data then markerPos newval.data
                    else s.builtinloc }
                (if 0 ≤ s.builtinloc ∧ markerPos newval.data < 0 then 0
                  else firstChange (E.pathval s.world).data newval.data) cmdp)
          else s.cmdtable b } := by
  unfold changepath
  by_cases h1 : s.builtinloc < 0 ∧ markerPos newval.data ≥ 0
  · have h2 : ¬ (0 ≤ s.builtinloc ∧ markerPos newval.data < 0) := by omega
    have h3 : ¬ (markerPos newval.data ≥ 0 ∧ markerPos newval.data < 0) := by omega
    have h4 : s.builtinloc < 0 ∧ 0 ≤ markerPos newval.data := h1
    simp only [bind_apply, getS_apply, andThen_ok, changepath_loop_eq, ite_apply_state,
      modS_apply, pure_apply, clearcmdentry, if_pos h1, if_neg h2, if_neg h3, if_pos h4]
  · have h4 : ¬ (s.builtinloc < 0 ∧ 0 ≤ markerPos newval.data) := h1
    by_cases h2 : s.builtinloc ≥ 0 ∧ markerPos newval.data < 0
    · have h5 : 0 ≤ s.builtinloc ∧ markerPos newval.data < 0 := h2
      simp only [bind_apply, getS_apply, andThen_ok, changepath_loop_eq, ite_apply_state,
        modS_apply, pure_apply, clearcmdentry, if_neg h1, if_pos h2, if_neg h4, if_pos h5]
    · have h5 : ¬ (0 ≤ s.builtinloc ∧ markerPos newval.data < 0) := h2
      simp only [bind_apply, getS_apply, andThen_ok, changepath_loop_eq, ite_apply_state,
        modS_apply, pure_apply, clearcmdentry, if_neg h1, if_neg h2, if_neg h4, if_neg h5]

theorem firstDiff_agree :
    ∀ (l1 l2 : List (List Char)) (d : Nat), firstDiff l1 l2 = some d →
      ∀ j, j < d → ∃ x, l1.get? j = some x ∧ l2.get? j = some x := by
  intro l1
  induction l1 with
  | nil =>
    intro l2 d h j hj
    cases l2 with
    | nil => cases h
    | cons b l2 => cases h; omega
  | cons a l1 ih =>
    intro l2 d h j hj
    cases l2 with
    | nil => cases h; omega
    | cons b l2 =>
      rw [firstDiff_cons_nonempty] at h
      by_cases hab : a = b
      · rw [if_pos hab] at h
        cases hd : firstDiff l1 l2 with
        | none => rw [hd] at h; cases h
        | some d1 =>
          rw [hd] at h
          simp only [Option.map_some', Option.some.injEq] at h
          subst h
          cases j with
          | zero => exact ⟨a, rfl, by rw [hab]; rfl⟩
          | succ j => exact ih l2 d1 hd j (by omega)
      · rw [if_neg hab] at h
        cases h
        omega

theorem firstDiff_none :
    ∀ (l1 l2 : List (List Char)), firstDiff l1 l2 = none → l1 = l2 := by
  intro l1
  induction l1 with
  | nil =>
    intro l2 h
    cases l2 with
    | nil => rfl
    | cons b l2 => cases h
  | cons a l1 ih =>
    intro l2 h
    cases l2 with
    | nil => cases h
    | cons b l2 =>
      rw [firstDiff_cons_nonempty] at h
      by_cases hab : a = b
      · rw [if_pos hab] at h
        cases hd : firstDiff l1 l2 with
        | none => rw [hab, ih l2 hd]
        | some d1 => rw [hd] at h; cases h
      · rw [if_neg hab] at h
        cases h

theorem markerIdx_lt : ∀ (l : List (List Char)) (j : Nat), markerIdx l = some j → j < l.length := by
  intro l
  induction l with
  | nil => intro j h; cases h
  | cons e l ih =>
    intro j h
    rw [markerIdx] at h
    by_cases hm : hasMarker e = true
    · rw [if_pos hm] at h
      cases h
      simp
    · rw [if_neg hm] at h
      cases hd : markerIdx l with
      | none => rw [hd] at h; cases h
      | some j1 =>
        rw [hd] at h
        simp only [Option.map_some', Option.some.injEq] at h
        subst h
        have := ih j1 hd
        simp only [List.length_cons]
        omega

theorem markerPos_lt (p : List Char) : markerPos p < ((pathElems p).length : Int) := by
  rcases markerPos_cases p with ⟨h, _⟩ | ⟨a, h, h2⟩
  · rw [h]
    have : (0 : Int) ≤ ((pathElems p).length : Int) := Int.natCast_nonneg _
    omega
  · rw [h]
    have := markerIdx_lt _ _ h2
    omega

theorem pathElems_colons (n : Nat) (l : List Char) :
    pathElems (List.replicate n ':' ++ l) = List.replicate n [] ++ pathElems l := by
  induction n with
  | zero => rfl
  | succ n ih =>
    rw [List.replicate_succ, List.cons_append, pathElems_colon, ih, List.replicate_succ,
      List.cons_append]

/-- Counterexample to C28 as stated.  The path `longPath` has 10000 elements and `ls` is cached
with the index 9999 of its last element, so the cache is consistent with the path.  The
assignment of the same path to `PATH` finds no change, for which `firstchange` is 9999, and
deletes the entry of `ls`, whose index is not below 9999. -/
theorem changepath_same_counterexample :
    (pathElems longPath.data).length = 10000
    ∧ longPathState.cmdtable (bucket "ls")
        = [{ param := Param.index 9999, cmdtype := CmdType.CMDNORMAL, rehash := false,
             cmdname := "ls" }]
    ∧ (fsExt 0).pathval longPathState.world = longPath
    ∧ ((changepath (fsExt 0) longPath longPathState).state longPathState).cmdtable (bucket "ls")
        = [] := by
  have hlen : (pathElems longPath.data).length = 10000 := by
    have h : longPath.data = List.replicate 9999 ':' ++ "/bin".data := rfl
    rw [h, pathElems_colons, List.length_append, List.length_replicate]
    rfl
  have htab : longPathState.cmdtable (bucket "ls")
      = [{ param := Param.index 9999, cmdtype := CmdType.CMDNORMAL, rehash := false,
           cmdname := "ls" }] := by
    unfold longPathState
    simp only [Function.update_same]
  have hpath : (fsExt 0).pathval longPathState.world = longPath := by
    unfold longPathState fsInit fsExt Sim.lookup
    simp
  refine ⟨hlen, htab, hpath, ?_⟩
  have hb : longPathState.builtinloc = -1 := rfl
  have hfc : firstChange longPath.data longPath.data = 9999 := by
    unfold firstChange
    rw [firstDiff_self]
    rfl
  rw [changepath_apply]
  simp only [Out.state, if_pos (bucket_lt "ls"), htab, hpath, hb, hfc, cleared, param_index]
  simp

/-- C28, amended.  Let the cache be consistent with the old path: the recorded index of every
External entry is the position of an element of the old path.  Then `changepath(new)` returns,
and each External entry it leaves in the table was there before and has a recorded index `i`
such that the old and the new path agree on the elements 0..`i`: each exists in both and is
the same.  When the new path equals the old one, the old path has at most 9999 elements and
`builtinloc` is the position of the marker `%builtin` in it, no entry is deleted. -/
theorem changepath_survivors {W : Type} (E : Ext W) (newval : String) (s : State W)
    (hcons : ∀ b, b < CMDTABLESIZE → ∀ e ∈ s.cmdtable b, e.cmdtype = CmdType.CMDNORMAL →
      0 ≤ param_index E e.param
        ∧ param_index E e.param < ((pathElems (E.pathval s.world).data).length : Int)) :
    ∃ s1 : State W, changepath E newval s = Out.ok () s1
      ∧ (∀ b, b < CMDTABLESIZE → ∀ e ∈ s1.cmdtable b, e.cmdtype = CmdType.CMDNORMAL →
          e ∈ s.cmdtable b
          ∧ ∀ j : Nat, (j : Int) ≤ param_index E e.param →
              ∃ x, (pathElems (E.pathval s.world).data).get? j = some x
                ∧ (pathElems newval.data).get? j = some x)
      ∧ (newval.data = (E.pathval s.world).data →
          (pathElems (E.pathval s.world).data).length ≤ 9999 →
          s.builtinloc = markerPos (E.pathval s.world).data →
          ∀ b, s1.cmdtable b = s.cmdtable b) := by
  refine ⟨_, changepath_apply E newval s, ?_, ?_⟩
  · intro b hb e he ht
    simp only [if_pos hb, List.mem_filter, cleared, ht, true_and, reduceCtorEq, false_and,
      or_false, Bool.not_eq_true', decide_eq_false_iff_not, not_le, ge_iff_le] at he
    obtain ⟨hmem, hlt⟩ := he
    refine ⟨hmem, fun j hj => ?_⟩
    obtain ⟨h0, hlen⟩ := hcons b hb e hmem ht
    by_cases hz : 0 ≤ s.builtinloc ∧ markerPos newval.data < 0
    · rw [if_pos hz] at hlt
      omega
    · rw [if_neg hz] at hlt
      unfold firstChange at hlt
      cases hd : firstDiff (pathElems (E.pathval s.world).data) (pathElems newval.data) with
      | none =>
        have heq := firstDiff_none _ _ hd
        have hj2 : j < (pathElems (E.pathval s.world).data).length := by omega
        exact ⟨_, List.get?_eq_get hj2, by rw [← heq]; exact List.get?_eq_get hj2⟩
      | some d =>
        rw [hd] at hlt
        simp only [Option.elim_some] at hlt
        exact firstDiff_agree _ _ d hd j (by omega)
  · intro hsame hlen hloc b
    by_cases hb : b < CMDTABLESIZE
    · have hm1 := markerPos_lt (E.pathval s.world).data
      have hm2 := markerPos_ge (E.pathval s.world).data
      have hfc : firstChange (E.pathval s.world).data newval.data = 9999 := by
        rw [hsame]
        unfold firstChange
        rw [firstDiff_self]
        rfl
      have hz : ¬ (0 ≤ s.builtinloc ∧ markerPos newval.data < 0) := by
        rw [hsame, hloc]
        omega
      have hy : ¬ (s.builtinloc < 0 ∧ 0 ≤ markerPos newval.data) := by
        rw [hsame, hloc]
        omega
      simp only [if_pos hb, if_neg hz, if_neg hy, hfc]
      rw [List.filter_eq_self]
      intro e he
      simp only [cleared, Bool.not_eq_true', decide_eq_false_iff_not, not_or, not_and, not_le,
        ge_iff_le]
      refine ⟨fun ht => ?_, fun _ => ?_⟩
      · have := (hcons b hb e he ht).2
        omega
      · rw [hloc]
        omega
    · simp only [if_neg hb]

/-- Witness for C28, amended: with `PATH=/bin:/usr/bin`, `ls` cached with index 0 and `cc`
with index 1, the assignment `PATH=/bin:/opt` leaves the entry of `ls`, whose element `/bin`
is in both paths, and no entry of `cc`. -/
theorem changepath_survivors_witness :
    (∃ s1 : State Sim,
      changepath (fsExt 0) "/bin:/opt" (cacheStep (CacheOp.find_command "cc" true)
        (cacheStep (CacheOp.find_command "ls" true) (fsInit "/bin:/usr/bin"))) = Out.ok () s1
      ∧ ∀ b, b < CMDTABLESIZE → ∀ e ∈ s1.cmdtable b, e.cmdtype = CmdType.CMDNORMAL →
          ∀ j : Nat, (j : Int) ≤ param_index (fsExt 0) e.param →
            ∃ x, (pathElems "/bin:/usr/bin".data).get? j = some x
              ∧ (pathElems "/bin:/opt".data).get? j = some x)
    ∧ cacheview (cacheStep (CacheOp.changepath "/bin:/opt") (cacheStep (CacheOp.find_command "cc" true)
        (cacheStep (CacheOp.find_command "ls" true) (fsInit "/bin:/usr/bin")))) "ls"
        = [(bucket "ls", CmdType.CMDNORMAL, some 0, false)]
    ∧ cacheview (cacheStep (CacheOp.changepath "/bin:/opt") (cacheStep (CacheOp.find_command "cc" true)
        (cacheStep (CacheOp.find_command "ls" true) (fsInit "/bin:/usr/bin")))) "cc" = [] := by
  refine ⟨?_, by decide!, by decide!⟩
  obtain ⟨s1, h1, h2, _⟩ := changepath_survivors (fsExt 0) "/bin:/opt"
    (cacheStep (CacheOp.find_command "cc" true)
      (cacheStep (CacheOp.find_command "ls" true) (fsInit "/bin:/usr/bin")))
    (by decide!)
  exact ⟨s1, h1, fun b hb e he ht j hj => (h2 b hb e he ht).2 j hj⟩

/-! ### Reading characters (input.c) -/

theorem deref_back {W : Type} (st : InState W) (p : Ptr) (pl : Int) :
    ({ st with parsenleft := pl, parsenextc := { p with off := p.off + 1 } } : InState W).deref
      { mem := p.mem, off := p.off + 1 - 1 } = st.deref p := by
  simp only [InState.deref, add_sub_cancel_right]

/-- What `return *parsenextc++;` returns: the character before the new position. -/
theorem nextchar_inv {W : Type} (st st1 : InState W) (c : Option Nat)
    (h : nextchar st = Out.ok c st1) :
    st1 = { st with parsenextc := { st.parsenextc with off := st.parsenextc.off + 1 } }
    ∧ c = some (st1.deref { st1.parsenextc with off := st1.parsenextc.off - 1 }) := by
  unfold nextchar at h
  injection h with hc hs
  subst hs
  refine ⟨rfl, ?_⟩
  rw [← hc]
  simp only [InState.deref, add_sub_cancel_right]

theorem nextchar_delivered {W : Type} (st st1 : InState W) (c : Option Nat)
    (hl : 0 ≤ st.parsenleft) (h : nextchar st = Out.ok c st1) : Delivered c st1 := by
  obtain ⟨hs, hc⟩ := nextchar_inv st st1 c h
  refine Or.inl ⟨?_, hc⟩
  rw [hs]
  exact hl

theorem preadbuffer_fill_delivered {W : Type} (R : InExt W) (k : Nat) :
    ∀ (st st1 : InState W) (c : Option Nat), st.pushedstring = none →
      preadbuffer_fill R k st = Out.ok c st1 → Delivered c st1 := by
  induction k with
  | zero => intro st st1 c _ h; simp [preadbuffer_fill] at h
  | succ k ih =>
    intro st st1 c hps h
    unfold preadbuffer_fill at h
    dsimp only at h
    split at h
    · split_ifs at h
      · refine ih _ _ _ ?_ h
        exact hps
      · injection h with hc hs
        subst hs
        exact Or.inr ⟨hc.symm, (by decide : EOF_NLEFT < 0), hps, Or.inl rfl⟩
    · rename_i bytes hr
      split_ifs at h with hlen
      · injection h with hc hs
        subst hs
        exact Or.inr ⟨hc.symm, (by decide : EOF_NLEFT < 0), hps, Or.inl rfl⟩
      · split at h
        · refine nextchar_delivered _ _ _ ?_ h
          show (0 : Int) ≤ (bytes.length : Int) - 1
          omega
        · split_ifs at h with hq
          · refine ih _ _ _ ?_ h
            exact hps
          · refine nextchar_delivered _ _ _ ?_ h
            dsimp only
            omega

theorem preadbuffer_read_delivered {W : Type} (R : InExt W) (k : Nat) (st st1 : InState W)
    (c : Option Nat) (hps : st.pushedstring = none) (hl : st.parsenleft < 0)
    (h : preadbuffer_read R k st = Out.ok c st1) : Delivered c st1 := by
  unfold preadbuffer_read at h
  split_ifs at h with hc
  · injection h with hc1 hs
    subst hs
    exact Or.inr ⟨hc1.symm, hl, hps, hc⟩
  · refine preadbuffer_fill_delivered R k _ _ _ ?_ h
    exact hps

theorem pgetc_delivered {W : Type} (R : InExt W) (k : Nat) (st st1 : InState W)
    (c : Option Nat) (h : pgetc R k st = Out.ok c st1) : Delivered c st1 := by
  unfold pgetc at h
  split_ifs at h with hl
  · exact nextchar_delivered _ _ _ (by simpa using hl) h
  · unfold preadbuffer at h
    dsimp only at h
    split at h
    · split_ifs at h with hp
      · exact nextchar_delivered _ _ _ (by simpa using hp) h
      · refine preadbuffer_read_delivered R k _ _ _ rfl ?_ h
        show st.pushednleft - 1 < 0
        omega
    · rename_i hps
      refine preadbuffer_read_delivered R k _ _ _ ?_ ?_ h
      · exact hps
      · show st.parsenleft - 1 < 0
        omega

/-- After `pungetc`, `pgetc` delivers again what has just been delivered, without a read. -/
theorem pgetc_pungetc_of_delivered {W : Type} (R : InExt W) (k : Nat) (st1 : InState W)
    (c : Option Nat) (h : Delivered c st1) :
    ∃ st2, pgetc R k (pungetc st1) = Out.ok c st2
      ∧ (c ≠ none → st2 = st1)
      ∧ st2 = { st1 with parsenextc :=
                  { st1.parsenextc with off := if c = none then st1.parsenextc.off - 1
                                               else st1.parsenextc.off } } := by
  rcases h with ⟨hl, hc⟩ | ⟨hc, hl, hps, hcond⟩
  · have hne : c ≠ none := by rw [hc]; exact Option.some_ne_none _
    refine ⟨st1, ?_, fun _ => rfl, ?_⟩
    · unfold pgetc pungetc
      rw [if_pos (by dsimp only; omega)]
      unfold nextchar
      rw [hc]
      congr 1
      cases st1 with
      | mk pl pn ps pnl fd buf w =>
        cases pn with
        | mk mem off => simp
    · rw [if_neg hne]
  · subst hc
    refine ⟨_, ?_, fun hne => absurd rfl hne, rfl⟩
    unfold pgetc pungetc
    rw [if_neg (by dsimp only; omega)]
    unfold preadbuffer
    dsimp only
    rw [hps]
    dsimp only
    unfold preadbuffer_read
    rw [if_pos (by dsimp only; rw [add_sub_cancel_right]; exact hcond)]
    simp

/-- C27: in every input state in which `pgetc` returns a value `c`, a character or `PEOF`
(whatever the source, so also for a file source after `read` returned 0 and for a string source
that is used up), `pungetc` followed by `pgetc` returns `c` again, and does so without a read of
the descriptor: it returns with any bound on the number of reads, the bound 0 included, and in
the world as it was.  After a character the state is the one before `pungetc`; after `PEOF` only
`parsenextc` has moved back by one. -/
theorem pungetc_then_pgetc {W : Type} (R : InExt W) (fuel fuel2 : Nat) (st st1 : InState W)
    (c : Option Nat) (h : pgetc R fuel st = Out.ok c st1) :
    ∃ st2, pgetc R fuel2 (pungetc st1) = Out.ok c st2
      ∧ pgetc R 0 (pungetc st1) = Out.ok c st2
      ∧ st2.world = st1.world
      ∧ (c ≠ none → st2 = st1)
      ∧ st2 = { st1 with parsenextc :=
                  { st1.parsenextc with off := if c = none then st1.parsenextc.off - 1
                                               else st1.parsenextc.off } } := by
  have hd := pgetc_delivered R fuel st st1 c h
  obtain ⟨st2, h2, hne, hst⟩ := pgetc_pungetc_of_delivered R fuel2 st1 c hd
  obtain ⟨st3, h3, _, hst3⟩ := pgetc_pungetc_of_delivered R 0 st1 c hd
  refine ⟨st2, h2, ?_, ?_, hne, hst⟩
  · rw [h3, hst3, hst]
  · rw [hst]

/-- Witness for C27: a file whose first read gives `a` and whose second read gives 0 bytes.
The first `pgetc` returns `a`, and so does `pgetc` after `pungetc`; the second returns `PEOF`,
and so does `pgetc` after `pungetc`, although a read would now give `b`. -/
theorem pungetc_then_pgetc_witness :
    observeIn (pgetc scriptIn 5 (fileSource [ReadResult.got [97], ReadResult.got [], ReadResult.got [98]]))
      = some (some 97, 0, 1, [ReadResult.got [], ReadResult.got [98]])
    ∧ (∃ st1 st2,
        pgetc scriptIn 5 (fileSource [ReadResult.got [97], ReadResult.got [], ReadResult.got [98]])
          = Out.ok (some 97) st1
        ∧ pgetc scriptIn 0 (pungetc st1) = Out.ok (some 97) st2 ∧ st2 = st1)
    ∧ (∃ st1 st2,
        pgetc scriptIn 5 { fileSource [ReadResult.got [], ReadResult.got [98]] with
            parsenextc := { mem := none, off := 1 } } = Out.ok none st1
        ∧ pgetc scriptIn 0 (pungetc st1) = Out.ok none st2
        ∧ st2.world = [ReadResult.got [98]]) := by
  refine ⟨by decide!, ?_, ?_⟩
  · obtain ⟨st2, _, h0, _, hne, _⟩ := pungetc_then_pgetc scriptIn 5 0
      (fileSource [ReadResult.got [97], ReadResult.got [], ReadResult.got [98]]) _ (some 97) rfl
    exact ⟨_, st2, rfl, h0, hne (Option.some_ne_none _)⟩
  · obtain ⟨st2, _, h0, hw, _, _⟩ := pungetc_then_pgetc scriptIn 5 0
      { fileSource [ReadResult.got [], ReadResult.got [98]] with
          parsenextc := { mem := none, off := 1 } } _ none rfl
    exact ⟨_, st2, rfl, h0, hw⟩

/-! ### End of file -/

theorem preadbuffer_fill_buf {W : Type} (R : InExt W) (k : Nat) :
    ∀ (st st1 : InState W) (c : Option Nat), st.buf ≠ none →
      preadbuffer_fill R k st = Out.ok c st1 → st1.buf ≠ none := by
  induction k with
  | zero => intro st st1 c _ h; simp [preadbuffer_fill] at h
  | succ k ih =>
    intro st st1 c hb h
    unfold preadbuffer_fill at h
    dsimp only at h
    split at h
    · split_ifs at h
      · refine ih _ _ _ ?_ h
        exact hb
      · injection h with hc hs
        subst hs
        exact hb
    · split_ifs at h with hlen
      · injection h with hc hs
        subst hs
        exact hb
      · split at h
        · rw [(nextchar_inv _ _ _ h).1]
          exact Option.some_ne_none _
        · split_ifs at h with hq
          · refine ih _ _ _ ?_ h
            exact Option.some_ne_none _
          · rw [(nextchar_inv _ _ _ h).1]
            exact Option.some_ne_none _

/-- A file source stays a file source under `pgetc`. -/
theorem pgetc_buf {W : Type} (R : InExt W) (k : Nat) (st st1 : InState W) (c : Option Nat)
    (hb : st.buf ≠ none) (h : pgetc R k st = Out.ok c st1) : st1.buf ≠ none := by
  have hread : ∀ (st : InState W), st.buf ≠ none → preadbuffer_read R k st = Out.ok c st1 →
      st1.buf ≠ none := by
    intro st hb h
    unfold preadbuffer_read at h
    split_ifs at h
    · injection h with hc hs
      subst hs
      exact hb
    · refine preadbuffer_fill_buf R k _ _ _ ?_ h
      exact hb
  unfold pgetc at h
  split_ifs at h with hl
  · rw [(nextchar_inv _ _ _ h).1]
    exact hb
  · unfold preadbuffer at h
    dsimp only at h
    split at h
    · split_ifs at h with hp
      · rw [(nextchar_inv _ _ _ h).1]
        exact hb
      · refine hread _ ?_ h
        exact hb
    · refine hread _ ?_ h
      exact hb

/-- At the end of a file, with nothing pushed back, `pgetc` is the part of `preadbuffer` that
reads. -/
theorem pgetc_at_eof {W : Type} (R : InExt W) (k : Nat) (st : InState W)
    (hl : st.parsenleft = EOF_NLEFT) (hps : st.pushedstring = none) (hb : st.buf ≠ none) :
    pgetc R k st = preadbuffer_fill R k
      { st with parsenleft := EOF_NLEFT - 1, world := R.flushout (R.flushout st.world) } := by
  unfold pgetc
  rw [if_neg (by rw [hl]; decide)]
  unfold preadbuffer
  dsimp only
  rw [hps]
  dsimp only
  unfold preadbuffer_read
  rw [if_neg (by dsimp only; rw [hl]; simp only [hb, or_false]; decide)]
  rw [hl]

theorem pgetcs_at_eof {W : Type} (R : InExt W) (k : Nat) :
    ∀ (n : Nat) (st : InState W), st.parsenleft = EOF_NLEFT → st.pushedstring = none →
      st.buf ≠ none →
      (∀ i, i < n → (readsource R st.fd
          (R.flushout (R.flushout (eofWorld R st.fd i st.world)))).1 = ReadResult.got []) →
      ∃ st1, pgetcs R (k + 1) n st = Out.ok (List.replicate n none) st1
        ∧ st1.parsenleft = EOF_NLEFT ∧ st1.pushedstring = none ∧ st1.buf = st.buf
        ∧ st1.fd = st.fd ∧ st1.world = eofWorld R st.fd n st.world := by
  intro n
  induction n with
  | zero => intro st hl hps _ _; exact ⟨st, rfl, hl, hps, rfl, rfl, rfl⟩
  | succ n ih =>
    intro st hl hps hb hread
    have h0 := hread 0 (Nat.succ_pos n)
    have hstep : pgetc R (k + 1) st = Out.ok none
        { st with parsenleft := EOF_NLEFT, parsenextc := { mem := none, off := 0 },
                  world := (readsource R st.fd (R.flushout (R.flushout st.world))).2 } := by
      rw [pgetc_at_eof R (k + 1) st hl hps hb]
      unfold preadbuffer_fill
      dsimp only
      simp only [eofWorld] at h0
      rw [h0]
      simp
    obtain ⟨st1, h1, hl1, hps1, hb1, hfd1, hw1⟩ := ih
      { st with parsenleft := EOF_NLEFT, parsenextc := { mem := none, off := 0 },
                world := (readsource R st.fd (R.flushout (R.flushout st.world))).2 }
      rfl hps hb (fun i hi => hread (i + 1) (Nat.succ_lt_succ hi))
    refine ⟨st1, ?_, hl1, hps1, hb1, hfd1, hw1⟩
    unfold pgetcs
    rw [hstep, andThen_ok, h1, andThen_ok]
    rfl

/-- Counterexample to C24: a file whose first read returns 0 and whose next read returns `a`
(a terminal after control-D, or a file that has grown).  The first `pgetc` returns `PEOF`; the
second one, with no `pungetc`, no pop and nothing else in between, reads again and returns
`a`. -/
theorem pgetc_eof_counterexample :
    observeIn (pgetc scriptIn 5 (fileSource [ReadResult.got [], ReadResult.got [97]]))
      = some (none, EOF_NLEFT, 0, [ReadResult.got [97]])
    ∧ observeIn (pgetcs scriptIn 5 2 (fileSource [ReadResult.got [], ReadResult.got [97]]))
      = some ([none, some 97], 0, 1, []) := by
  constructor <;> decide!

/-- C24, amended: once `pgetc` has returned `PEOF` on a file source (as it does when `read`
returned 0), a later `pgetc` on that source, with no pop and no `pungetc` in between, calls
`read` again: it is the reading part of `preadbuffer`, and with the bound 0 on the number of
reads it does not return.  Such calls return `PEOF` as long as each of their reads returns 0
too: for every `n`, if the `n` reads that follow return 0, then the `n` calls of `pgetc` that
follow all return `PEOF`, having read `n` times. -/
theorem pgetc_after_eof {W : Type} (R : InExt W) (fuel k n : Nat) (st0 st : InState W)
    (h : pgetc R fuel st0 = Out.ok none st) (hb : st0.buf ≠ none)
    (hread : ∀ i, i < n → (readsource R st.fd
        (R.flushout (R.flushout (eofWorld R st.fd i st.world)))).1 = ReadResult.got []) :
    st.parsenleft = EOF_NLEFT
    ∧ (∀ j, pgetc R j st = preadbuffer_fill R j
        { st with parsenleft := EOF_NLEFT - 1, world := R.flushout (R.flushout st.world) })
    ∧ pgetc R 0 st = Out.timeout
    ∧ ∃ st1, pgetcs R (k + 1) n st = Out.ok (List.replicate n none) st1
        ∧ st1.parsenleft = EOF_NLEFT ∧ st1.world = eofWorld R st.fd n st.world := by
  have hb1 := pgetc_buf R fuel st0 st none hb h
  have hd := pgetc_delivered R fuel st0 st none h
  rcases hd with ⟨_, hc⟩ | ⟨_, _, hps, hcond⟩
  · cases hc
  · have hl : st.parsenleft = EOF_NLEFT := hcond.resolve_right hb1
    refine ⟨hl, fun j => pgetc_at_eof R j st hl hps hb1, ?_, ?_⟩
    · rw [pgetc_at_eof R 0 st hl hps hb1]
      rfl
    · obtain ⟨st1, h1, hl1, _, _, _, hw1⟩ := pgetcs_at_eof R k n st hl hps hb1 hread
      exact ⟨st1, h1, hl1, hw1⟩

/-- Witness for C24: a file whose reads return 0 three times and `a` then.  After the first
`PEOF` the next two calls of `pgetc` return `PEOF` too, each after a read. -/
theorem pgetc_after_eof_witness :
    ∃ st st1,
      pgetc scriptIn 5 (fileSource [ReadResult.got [], ReadResult.got [], ReadResult.got [],
        ReadResult.got [97]]) = Out.ok none st
      ∧ pgetcs scriptIn 1 2 st = Out.ok [none, none] st1
      ∧ st1.world = [ReadResult.got [97]] := by
  obtain ⟨_, _, _, st1, h1, _, hw⟩ := pgetc_after_eof scriptIn 5 0 2
    (fileSource [ReadResult.got [], ReadResult.got [], ReadResult.got [], ReadResult.got [97]])
    _ rfl (by decide) (by decide)
  exact ⟨_, st1, rfl, h1, hw⟩

/-! ### NUL characters in the input -/

theorem getD_of_drop {b : List Nat} {p x : Nat} {t : List Nat} (h : b.drop p = x :: t) :
    b.getD p 0 = x := by
  have h1 : (b.drop p)[0]? = some x := by rw [h]; simp
  rw [List.getElem?_drop] at h1
  simp only [add_zero] at h1
  simp [List.getD_eq_getElem?_getD, h1]

theorem drop_succ_of_drop {b : List Nat} {p x : Nat} {t : List Nat} (h : b.drop p = x :: t) :
    b.drop (p + 1) = t := by
  have h1 := congrArg (List.drop 1) h
  rw [List.drop_drop] at h1
  exact h1

theorem lt_length_of_drop {b : List Nat} {p x : Nat} {t : List Nat} (h : b.drop p = x :: t) :
    p < b.length := by
  by_contra hc
  rw [List.drop_of_length_le (Nat.le_of_not_lt hc)] at h
  cases h

/-- The first loop of `preadbuffer` stops after the first NUL. -/
theorem nulscan_found : ∀ (pre : List Nat), (∀ x ∈ pre, x ≠ 0) →
    ∀ (b : List Nat) (p : Nat) (i : Int) (k : Nat) (post : List Nat),
      b.drop p = pre ++ 0 :: post → pre.length < k → (pre.length : Int) < i →
      nulscan b k p i = some (p + pre.length + 1, i - pre.length) := by
  intro pre
  induction pre with
  | nil =>
    intro _ b p i k post hd hk _
    obtain ⟨k, rfl⟩ : ∃ j, k = j + 1 := ⟨k - 1, by simp at hk; omega⟩
    unfold nulscan
    rw [if_pos (getD_of_drop hd)]
    simp
  | cons x pre ih =>
    intro hpre b p i k post hd hk hi
    obtain ⟨k, rfl⟩ : ∃ j, k = j + 1 := ⟨k - 1, by omega⟩
    simp only [List.length_cons, Nat.cast_add, Nat.cast_one] at hk hi
    unfold nulscan
    rw [if_neg (by rw [getD_of_drop hd]; exact hpre x (List.mem_cons_self _ _)),
      if_neg (by omega)]
    rw [ih (fun y hy => hpre y (List.mem_cons_of_mem _ hy)) b (p + 1) (i - 1) k post
      (drop_succ_of_drop hd) (by omega) (by omega)]
    simp only [List.length_cons, Nat.cast_add, Nat.cast_one, Option.some.injEq, Prod.mk.injEq]
    constructor <;> omega

/-- The first loop of `preadbuffer` returns when there is no NUL. -/
theorem nulscan_none : ∀ (pre : List Nat), pre ≠ [] → (∀ x ∈ pre, x ≠ 0) →
    ∀ (b : List Nat) (p : Nat) (i : Int) (k : Nat) (post : List Nat),
      b.drop p = pre ++ post → pre.length ≤ k → i = pre.length →
      nulscan b k p i = none := by
  intro pre
  induction pre with
  | nil => intro h; exact absurd rfl h
  | cons x pre ih =>
    intro _ hpre b p i k post hd hk hi
    simp only [List.length_cons, Nat.cast_add, Nat.cast_one] at hk hi
    obtain ⟨k, rfl⟩ : ∃ j, k = j + 1 := ⟨k - 1, by omega⟩
    unfold nulscan
    rw [if_neg (by rw [getD_of_drop hd]; exact hpre x (List.mem_cons_self _ _))]
    by_cases hp : pre = []
    · subst hp
      rw [if_pos (by simp at hi; omega)]
    · have hlen : 0 < pre.length := List.length_pos.mpr hp
      rw [if_neg (by omega)]
      exact ih hp (fun y hy => hpre y (List.mem_cons_of_mem _ hy)) b (p + 1) (i - 1) k post
        (drop_succ_of_drop hd) (by omega) (by omega)

theorem take_set_succ (b : List Nat) (q x : Nat) (hq : q < b.length) :
    (b.set q x).take (q + 1) = b.take q ++ [x] := by
  have h1 : (b.set q x).take q = b.take q := by
    refine List.ext_getElem? fun i => ?_
    rw [List.getElem?_take, List.getElem?_take]
    split
    · rw [List.getElem?_set_ne (by omega)]
    · rfl
  rw [List.take_succ, h1]
  simp [List.getElem?_set, hq]

/-- The second loop of `preadbuffer` moves the bytes other than NUL down. -/
theorem nulcopy_spec : ∀ (src : List Nat) (b : List Nat) (p q : Nat) (i : Int) (k : Nat)
    (post : List Nat), b.drop p = src ++ post → q < p → i = (src.length : Int) + 1 →
    src.length ≤ k →
    (nulcopy k b p q i).2 = q + (src.filter (fun c => decide (c ≠ 0))).length
    ∧ (nulcopy k b p q i).1.take (nulcopy k b p q i).2
        = b.take q ++ src.filter (fun c => decide (c ≠ 0)) := by
  intro src
  induction src with
  | nil =>
    intro b p q i k post _ _ hi _
    subst hi
    cases k with
    | zero => simp [nulcopy]
    | succ k => simp [nulcopy]
  | cons x src ih =>
    intro b p q i k post hd hq hi hk
    simp only [List.length_cons, Nat.cast_add, Nat.cast_one] at hk hi
    obtain ⟨k, rfl⟩ : ∃ j, k = j + 1 := ⟨k - 1, by omega⟩
    have hx := getD_of_drop hd
    have hplt := lt_length_of_drop hd
    unfold nulcopy
    rw [if_pos (by omega), hx]
    by_cases hx0 : x = 0
    · subst hx0
      rw [if_neg (by simp)]
      have h := ih b (p + 1) q (i - 1) k post (drop_succ_of_drop hd) (by omega) (by omega)
        (by omega)
      simpa using h
    · rw [if_pos hx0]
      have hd2 : (b.set q x).drop (p + 1) = src ++ post := by
        rw [List.drop_set_of_lt _ _ (by omega)]
        exact drop_succ_of_drop hd
      have h := ih (b.set q x) (p + 1) (q + 1) (i - 1) k post hd2 (by omega) (by omega)
        (by omega)
      rw [take_set_succ b q x (by omega)] at h
      have hf : (x :: src).filter (fun c => decide (c ≠ 0))
          = x :: src.filter (fun c => decide (c ≠ 0)) := by
        simp [List.filter_cons, hx0]
      rw [hf]
      refine ⟨?_, ?_⟩
      · rw [h.1, List.length_cons]; omega
      · rw [h.2]; simp

/-- Reading on from a buffer that holds the characters `cs` at the position `off`. -/
theorem pgetcs_buffer {W : Type} (R : InExt W) (fuel : Nat) : ∀ (cs : List Nat) (off : Nat)
    (ps : Option Ptr) (pnl fd : Int) (B : List Nat) (w : W) (post : List Nat),
    B.drop off = cs ++ post →
    pgetcs R fuel cs.length
        { parsenleft := cs.length, parsenextc := { mem := none, off := off }, pushedstring := ps,
          pushednleft := pnl, fd := fd, buf := some B, world := w }
      = Out.ok (cs.map some)
        { parsenleft := 0, parsenextc := { mem := none, off := ((off + cs.length : Nat) : Int) },
          pushedstring := ps, pushednleft := pnl, fd := fd, buf := some B, world := w } := by
  intro cs
  induction cs with
  | nil => intro off ps pnl fd B w post _; rfl
  | cons c cs ih =>
    intro off ps pnl fd B w post hd
    have hc := getD_of_drop hd
    have h := ih (off + 1) ps pnl fd B w post (drop_succ_of_drop hd)
    simp only [List.length_cons, List.map_cons]
    unfold pgetcs pgetc
    rw [if_pos (by dsimp only; push_cast; omega)]
    unfold nextchar
    simp only [andThen_ok, InState.deref, Nat.cast_nonneg, if_true, Int.toNat_ofNat, hc]
    have e1 : ((cs.length + 1 : Nat) : Int) - 1 = (cs.length : Int) := by push_cast; omega
    have e2 : ((off : Nat) : Int) + 1 = ((off + 1 : Nat) : Int) := by push_cast; rfl
    rw [e1, e2, h, andThen_ok]
    have e3 : off + 1 + cs.length = off + (cs.length + 1) := by omega
    rw [e3]

/-- With nothing pushed back and no character left, `pgetc` on a file source that is not at a
pushed-back end of file is the reading part of `preadbuffer`. -/
theorem pgetc_reads {W : Type} (R : InExt W) (k : Nat) (st : InState W)
    (hl : st.parsenleft ≤ 0) (hne : st.parsenleft - 1 ≠ EOF_NLEFT)
    (hps : st.pushedstring = none) (hb : st.buf ≠ none) :
    pgetc R k st = preadbuffer_fill R k
      { st with parsenleft := st.parsenleft - 1, world := R.flushout (R.flushout st.world) } := by
  unfold pgetc
  rw [if_neg (by omega)]
  unfold preadbuffer
  dsimp only
  rw [hps]
  dsimp only
  unfold preadbuffer_read
  rw [if_neg (by dsimp only; simp only [hb, or_false]; exact hne)]

theorem filter_eq_self_of_ne (pre : List Nat) (h : ∀ x ∈ pre, x ≠ 0) :
    pre.filter (fun c => decide (c ≠ 0)) = pre := by
  rw [List.filter_eq_self]
  intro x hx
  simpa using h x hx

/-- A list either has no NUL or splits at its first NUL. -/
theorem split_at_nul : ∀ (bytes : List Nat), (∀ x ∈ bytes, x ≠ 0)
    ∨ ∃ pre post, bytes = pre ++ 0 :: post ∧ ∀ x ∈ pre, x ≠ 0 := by
  intro bytes
  induction bytes with
  | nil => exact Or.inl (fun x hx => by cases hx)
  | cons y ys ih =>
    by_cases hy : y = 0
    · subst hy
      exact Or.inr ⟨[], ys, rfl, fun x hx => by cases hx⟩
    · rcases ih with h | ⟨pre, post, he, hp⟩
      · refine Or.inl (fun x hx => ?_)
        rcases List.mem_cons.mp hx with rfl | hx
        · exact hy
        · exact h x hx
      · refine Or.inr ⟨y :: pre, post, by rw [he]; rfl, fun x hx => ?_⟩
        rcases List.mem_cons.mp hx with rfl | hx
        · exact hy
        · exact hp x hx

/-- What the two loops of `preadbuffer` make of the bytes of one read: either no byte other than
NUL is left and the read is done again, or the bytes other than NUL are at the start of the
buffer, `parsenleft` is their number less one, and the first of them is returned. -/
theorem preadbuffer_fill_got {W : Type} (R : InExt W) (k : Nat) (st : InState W)
    (bytes : List Nat) (w1 : W) (hread : readsource R st.fd st.world = (ReadResult.got bytes, w1))
    (hn : bytes ≠ []) :
    ∃ B : List Nat,
      (bytes.filter (fun c => decide (c ≠ 0)) = [] →
        preadbuffer_fill R (k + 1) st = preadbuffer_fill R k
          { st with parsenextc := { mem := none, off := 0 }, world := w1, buf := some B,
                    parsenleft := (bytes.length : Int) - 1 })
      ∧ (bytes.filter (fun c => decide (c ≠ 0)) ≠ [] →
        B.take (bytes.filter (fun c => decide (c ≠ 0))).length
          = bytes.filter (fun c => decide (c ≠ 0))
        ∧ preadbuffer_fill R (k + 1) st = nextchar
          { st with parsenextc := { mem := none, off := 0 }, world := w1, buf := some B,
                    parsenleft := ((bytes.filter (fun c => decide (c ≠ 0))).length : Int) - 1 }) := by
  have hlen : bytes.length ≠ 0 := fun h => hn (List.length_eq_zero.mp h)
  rcases split_at_nul bytes with hall | ⟨pre, post, he, hpre⟩
  · have hf := filter_eq_self_of_ne bytes hall
    have hs := nulscan_none bytes hn hall (bytes ++ (st.buf.getD []).drop bytes.length) 0
      bytes.length bytes.length ((st.buf.getD []).drop bytes.length) (by simp) (le_refl _) rfl
    refine ⟨bytes ++ (st.buf.getD []).drop bytes.length, fun h => ?_, fun _ => ⟨?_, ?_⟩⟩
    · rw [hf] at h
      exact absurd h hn
    · rw [hf]
      simp
    · rw [hf, preadbuffer_fill]
      simp only [hread, if_neg hlen, hs]
  · have hlt : pre.length < bytes.length := by rw [he]; simp
    have hs := nulscan_found pre hpre (bytes ++ (st.buf.getD []).drop bytes.length) 0
      bytes.length bytes.length (post ++ (st.buf.getD []).drop bytes.length)
      (by rw [he]; simp) hlt (by exact_mod_cast hlt)
    have hi : (bytes.length : Int) - pre.length = (post.length : Int) + 1 := by
      rw [he]; simp only [List.length_append, List.length_cons]; push_cast; omega
    have hcp := nulcopy_spec post (bytes ++ (st.buf.getD []).drop bytes.length)
      (0 + pre.length + 1) (0 + pre.length + 1 - 1) ((bytes.length : Int) - pre.length)
      ((bytes.length : Int) - pre.length).toNat ((st.buf.getD []).drop bytes.length)
      (by rw [he]; simp) (by omega) hi (by rw [hi]; omega)
    have hf : bytes.filter (fun c => decide (c ≠ 0)) = pre ++ post.filter (fun c => decide (c ≠ 0)) := by
      rw [he, List.filter_append, filter_eq_self_of_ne pre hpre]
      simp [List.filter_cons]
    have htk : (bytes ++ (st.buf.getD []).drop bytes.length).take (0 + pre.length + 1 - 1) = pre := by
      rw [he]; simp
    rw [htk] at hcp
    have hq : (nulcopy ((bytes.length : Int) - pre.length).toNat
        (bytes ++ (st.buf.getD []).drop bytes.length) (0 + pre.length + 1)
        (0 + pre.length + 1 - 1) ((bytes.length : Int) - pre.length)).2
        = (bytes.filter (fun c => decide (c ≠ 0))).length := by
      rw [hcp.1, hf, List.length_append]; omega
    refine ⟨(nulcopy ((bytes.length : Int) - pre.length).toNat
        (bytes ++ (st.buf.getD []).drop bytes.length) (0 + pre.length + 1)
        (0 + pre.length + 1 - 1) ((bytes.length : Int) - pre.length)).1, fun h => ?_,
        fun h => ⟨?_, ?_⟩⟩
    · rw [preadbuffer_fill]
      simp only [hread, if_neg hlen, hs]
      rw [if_pos (by rw [hq, h]; rfl)]
    · rw [← hq, hcp.2, hf]
    · rw [preadbuffer_fill]
      simp only [hread, if_neg hlen, hs]
      rw [if_neg (by rw [hq]; exact fun h0 => h (List.length_eq_zero.mp h0)), hq]

/-- C23: take a file source with nothing pushed back and no character left, so that `pgetc`
reads, and let the read return a buffer of `n > 0` bytes.  If some of the bytes are not NUL,
the calls of `pgetc` that follow, as many as there are such bytes, return exactly the bytes other
than NUL in their order, with that one read; `parsenleft` is 0 then, so the buffer has no further
character to give and the next `pgetc` reads again.  If all the bytes are NUL, `pgetc` delivers
nothing from them and goes on with another read. -/
theorem pgetc_nul_elision {W : Type} (R : InExt W) (k : Nat) (st : InState W)
    (bytes : List Nat) (w1 : W)
    (hl : st.parsenleft ≤ 0) (hne : st.parsenleft - 1 ≠ EOF_NLEFT)
    (hps : st.pushedstring = none) (hb : st.buf ≠ none)
    (hread : readsource R st.fd (R.flushout (R.flushout st.world)) = (ReadResult.got bytes, w1))
    (hn : 0 < bytes.length) :
    ∃ B : List Nat,
      (nonNul bytes ≠ [] →
        pgetcs R (k + 1) (nonNul bytes).length st
          = Out.ok ((nonNul bytes).map some)
              { st with parsenleft := 0, parsenextc := ⟨none, ((nonNul bytes).length : Int)⟩, buf := some B, world := w1 }
        ∧ ∀ j,
          pgetc R j
              { st with parsenleft := 0, parsenextc := ⟨none, ((nonNul bytes).length : Int)⟩, buf := some B, world := w1 }
            = preadbuffer_fill R j
              { st with parsenleft := -1, parsenextc := ⟨none, ((nonNul bytes).length : Int)⟩, buf := some B, world := R.flushout (R.flushout w1) })
      ∧ (nonNul bytes = [] →
        pgetc R (k + 1) st = preadbuffer_fill R k
          { st with parsenleft := (bytes.length : Int) - 1, parsenextc := ⟨none, 0⟩, buf := some B, world := w1 }) := by
  have hn1 : bytes ≠ [] := List.length_pos.mp hn
  obtain ⟨B, hnul, hsome⟩ := preadbuffer_fill_got R k
    { st with parsenleft := st.parsenleft - 1, world := R.flushout (R.flushout st.world) }
    bytes w1 hread hn1
  unfold nonNul
  refine ⟨B, fun h => ⟨?_, fun j => ?_⟩, fun h => ?_⟩
  · obtain ⟨htk, hfill⟩ := hsome h
    obtain ⟨c, cs, hcs⟩ := List.exists_cons_of_ne_nil h
    have hB : B.drop 0 = c :: (cs ++ B.drop (c :: cs).length) := by
      rw [← hcs, List.drop_zero]
      conv_lhs => rw [← List.take_append_drop (bytes.filter (fun c => decide (c ≠ 0))).length B, htk]
      rw [hcs]
      rfl
    rw [hcs, List.length_cons]
    unfold pgetcs
    rw [pgetc_reads R (k + 1) st hl hne hps hb, hfill, hcs]
    unfold nextchar
    simp only [andThen_ok, InState.deref, le_refl, if_true, Int.toNat_zero, getD_of_drop hB,
      List.length_cons, Nat.cast_add, Nat.cast_one, add_sub_cancel_right, zero_add, List.map_cons]
    have h1 := pgetcs_buffer R (k + 1) cs 1 st.pushedstring st.pushednleft st.fd B w1
      (B.drop (c :: cs).length) (drop_succ_of_drop hB)
    simp only [Nat.cast_one] at h1
    rw [h1, andThen_ok]
    congr 3
    push_cast
    omega
  · exact pgetc_reads R j _ (le_refl _) (by decide : (0 : Int) - 1 ≠ EOF_NLEFT) hps
      (Option.some_ne_none _)
  · rw [pgetc_reads R (k + 1) st hl hne hps hb]
    exact hnul h

/-- Witness for C23: a read that returns the four bytes `a`, NUL, `b`, NUL: two calls of
`pgetc` return `a` and `b`; and a read that returns two NUL bytes, after which `pgetc` reads
again and returns the `c` of the next read. -/
theorem pgetc_nul_elision_witness :
    observeIn (pgetcs scriptIn 3 2 (fileSource [ReadResult.got [97, 0, 98, 0], ReadResult.got [99]]))
      = some ([some 97, some 98], 0, 2, [ReadResult.got [99]])
    ∧ observeIn (pgetc scriptIn 3 (fileSource [ReadResult.got [0, 0], ReadResult.got [99]]))
      = some (some 99, 0, 1, [])
    ∧ (∃ B, pgetcs scriptIn 3 2 (fileSource [ReadResult.got [97, 0, 98, 0], ReadResult.got [99]])
        = Out.ok [some 97, some 98]
            { fileSource [ReadResult.got [97, 0, 98, 0], ReadResult.got [99]] with parsenleft := 0, parsenextc := ⟨none, 2⟩, buf := some B, world := [ReadResult.got [99]] }) := by
  refine ⟨by decide!, by decide!, ?_⟩
  obtain ⟨B, h, _⟩ := pgetc_nul_elision scriptIn 2
    (fileSource [ReadResult.got [97, 0, 98, 0], ReadResult.got [99]]) [97, 0, 98, 0]
    [ReadResult.got [99]] (by decide) (by decide) rfl (by decide) rfl (by decide)
  exact ⟨B, (h (by decide)).1⟩

/-! ### The descriptors of a pipeline -/

section
variable {W : Type} {E : Ext W} {P : State W → Prop}

theorem holds_stop_any {α : Type} (r : Stop) :
    Holds P (fun _ _ => True) (stopM r : M W α) := ⟨fun _ _ => trivial⟩

theorem holds_same_world (F : StatFrame E P) {f : State W → State W}
    (h : ∀ s, (f s).world = s.world) : Holds P (fun _ _ => True) (modS f) :=
  holds_modS fun s hs => F.keep s _ (h s) hs

theorem sframe_cmdlookup (F : StatFrame E P) (name : String) (add : Bool) :
    Holds P (fun _ _ => True) (cmdlookup name add : M W (Option (Nat × Nat))) := by
  constructor
  intro s h
  unfold cmdlookup
  dsimp only
  split_ifs <;> exact F.keep s _ rfl h

theorem sframe_delete_cmd_entry (F : StatFrame E P) :
    Holds P (fun _ _ => True) (delete_cmd_entry : M W Unit) := by
  constructor
  intro s h
  unfold delete_cmd_entry
  dsimp only
  split_ifs
  · exact F.keep s _ rfl h
  · exact h

theorem sframe_find_command_success (F : StatFrame E P) (cmdp : Option (Nat × Nat)) :
    Holds P (fun _ _ => True) (find_command_success cmdp : M W CmdEntry) := by
  unfold find_command_success
  repeat' first
    | intro _
    | exact holds_pure _ | exact holds_getS
    | exact holds_stop_any _
    | exact holds_same_world F (fun _ => rfl)
    | apply holds_bind | split

theorem sframe_find_command_install (F : StatFrame E P) (name : String)
    (cmdtype : CmdType) (i : Int) :
    Holds P (fun _ _ => True) (find_command_install name cmdtype i : M W CmdEntry) := by
  unfold find_command_install
  repeat' first
    | intro _
    | exact holds_pure _ | exact holds_getS
    | exact holds_stop_any _
    | exact sframe_cmdlookup F _ _
    | exact sframe_find_command_success F _
    | exact holds_same_world F (fun _ => rfl)
    | apply holds_bind | split

/-- The path search over a path without `%` markers keeps a property of the world that `stat`
keeps. -/
theorem sframe_find_command_loop_nopct (F : StatFrame E P)
    (rcf : String → M W Unit) (name : String) (cmdp : Option (Nat × Nat)) (prev : Int) :
    ∀ (k : Nat) (path : Option (List Char)) (index e : Int),
      (∀ cs, path = some cs → '%' ∉ cs) →
      Holds P (fun _ _ => True) (find_command_loop E rcf name cmdp prev k path index e) := by
  intro k
  induction k with
  | zero => intro path index e _; unfold find_command_loop; exact holds_timeout
  | succ k ih =>
    intro path index e hpath
    constructor
    intro s hs
    cases path with
    | none => rw [find_command_loop_none]; exact hs
    | some cs =>
      have hpct := hpath cs rfl
      have hrest : ∀ cs1, (match cs.dropWhile (fun c => decide (c ≠ ':')) with
            | _ :: rest => some rest
            | [] => none) = some cs1 → '%' ∉ cs1 := by
        intro cs1 h1
        rcases dropWhile_colon cs with hd | ⟨rest, hd⟩
        · rw [hd] at h1; cases h1
        · rw [hd] at h1
          cases h1
          exact nopct_dropWhile cs _ hpct hd
      rw [find_command_loop_step E rcf name cmdp prev k cs index e s hpct]
      split_ifs with h1 h2
      · exact (ih _ _ _ hrest).run _ (F.keep s _ rfl hs)
      · exact (holds_bind (sframe_find_command_success F cmdp)
          (fun r => holds_pure (some r, e))).run _ (F.keep s _ rfl hs)
      · cases (E.stat (candidate (cs.takeWhile (fun c => decide (c ≠ ':'))) name) s.world).1 with
        | error errno => exact (ih _ _ _ hrest).run _ (F.stat s _ _ rfl hs)
        | ok statb =>
          dsimp only
          split_ifs
          · exact (holds_bind (sframe_find_command_install F name CmdType.CMDNORMAL (index + 1))
              (fun r => holds_pure (some r, EACCES))).run _ (F.stat s _ _ rfl hs)
          · exact (ih _ _ _ hrest).run _ (F.stat s _ _ rfl hs)

/-- A search that prints nothing, over a path without `%` markers, keeps a property of the
world that `stat` keeps. -/
theorem sframe_find_command_quiet (F : StatFrame E P)
    (rcf : String → M W Unit) (hpath : ∀ w, '%' ∉ (E.pathval w).data) (name : String) :
    Holds P (fun _ _ => True) (find_command E rcf name false) := by
  unfold find_command
  simp only [Bool.false_eq_true, if_false]
  repeat' first
    | intro _
    | exact holds_pure _ | exact holds_getS
    | exact sframe_cmdlookup F _ _
    | exact sframe_find_command_success F _
    | exact sframe_find_command_install F _ _ _
    | exact sframe_find_command_loop_nopct F rcf _ _ _ _ _ _ _
        (fun cs h => by cases h; exact hpath _)
    | exact sframe_delete_cmd_entry F
    | apply holds_bind | apply holds_ite | dsimp only | split

end

/-- The property that what is seen of the world is what it is in the world `w0`. -/
theorem sframe_view {W : Type} (E : Ext W) (V : FdView W) (L : FdLaws E V) (w0 : W) :
    StatFrame E (fun t : State W => V.trace t.world = V.trace w0 ∧ V.opened t.world = V.opened w0) :=
  ⟨fun s s1 h hs => by rw [h]; exact hs,
   fun s s1 name h hs => by
    rw [h, (L.stat name s.world).1, (L.stat name s.world).2]
    exact hs⟩

/-- The look at a stage that has a word returns and, over a path without `%` markers, leaves
the descriptors and the record of events alone. -/
theorem prehash_view {W : Type} (E : Ext W) (V : FdView W) (L : FdLaws E V)
    (rcf : String → M W Unit) (n : Option Node)
    (s : State W) (hw : hasWord n = true) (hpath : ∀ w, '%' ∉ (E.pathval w).data) :
    ∃ s1 : State W, prehash E rcf n s = Out.ok () s1
      ∧ V.trace s1.world = V.trace s.world ∧ V.opened s1.world = V.opened s.world := by
  rcases n with _ | node
  · cases hw
  cases node with
  | ncmd b args redirect =>
    cases args with
    | nil => cases hw
    | cons arg rest =>
      unfold prehash
      dsimp only
      split_ifs
      · obtain ⟨r, s1, hr⟩ := find_command_returns E rcf arg.text false s (hpath _)
        have h := (sframe_find_command_quiet (sframe_view E V L s.world) rcf hpath arg.text).run s
          ⟨rfl, rfl⟩
        rw [hr] at h
        refine ⟨s1, ?_, h⟩
        rw [bind_apply, hr]
        rfl
      · exact ⟨s, rfl, rfl, rfl⟩
  | _ => exact ⟨s, rfl, rfl, rfl⟩

/-- In the parent shell, when every call of `pipe` and of `fork` succeeds, the loop of
`evalpipe` returns; its events are those of `stageEvents`, every descriptor it closes is `prevfd`
or comes from one of its calls of `pipe` and is open, and in the end the descriptors that are
open are those that were open apart from `prevfd`. -/
theorem evalpipe_loop_view {W : Type} (E : Ext W) (V : FdView W) (L : FdLaws E V)
    (rcf : String → M W Unit) (ev : Option Node → Nat → M W Unit) (jp : Nat) (backgnd : Int)
    (hpath : ∀ w, '%' ∉ (E.pathval w).data) (hpipe : ∀ w, (E.pipe w).1 ≠ none)
    (hfork : ∀ n w, ∃ pid w1, E.forkshell jp n backgnd w = Out.ok pid w1 ∧ pid ≠ 0) :
    ∀ (rest : List (Option Node)) (n : Option Node) (prevfd pip0 : Int) (s : State W)
      (S0 : Set Int),
      (∀ m ∈ n :: rest, hasWord m = true) →
      (prevfd ≥ 0 → prevfd ∉ S0) →
      V.opened s.world = (if prevfd ≥ 0 then insert prevfd S0 else S0) →
      ∃ (s1 : State W) (ps : List (Int × Int)),
        evalpipe_loop E rcf ev jp backgnd (n :: rest) prevfd pip0 s = Out.ok () s1
        ∧ ps.length = rest.length
        ∧ V.trace s1.world = V.trace s.world ++ stageEvents prevfd ps
        ∧ fdrun (if prevfd ≥ 0 then [prevfd] else []) (stageEvents prevfd ps) = some []
        ∧ V.opened s1.world = S0 := by
  intro rest
  induction rest with
  | nil =>
    intro n prevfd pip0 s S0 hst hnot hop
    obtain ⟨s1, h1, ht1, ho1⟩ := prehash_view E V L rcf n s (hst n (List.mem_cons_self _ _)) hpath
    obtain ⟨pid, w1, hf, hpid⟩ := hfork n s1.world
    have hl := liftW_ok (E.forkshell jp n backgnd) s1 pid w1 hf
    obtain ⟨hfo, hft⟩ := L.fork jp n backgnd s1.world pid w1 hf hpid
    have hneg : ¬ ((-1 : Int) ≥ 0) := by decide
    by_cases hprev : prevfd ≥ 0
    · refine ⟨{ s1 with world := E.close prevfd w1 }, [], ?_, rfl, ?_, ?_, ?_⟩
      · simp only [evalpipe_loop, bind_apply, h1, andThen_ok, List.isEmpty_nil, Bool.true_eq_false,
          if_false, pure_apply, hl, if_neg hpid, if_pos hprev, modW_apply, if_neg hneg]
      · show V.trace (E.close prevfd w1) = _
        rw [(L.close prevfd w1).2, hft, ht1]
        simp [stageEvents, hprev]
      · simp [stageEvents, fdrun, hprev]
      · show V.opened (E.close prevfd w1) = _
        rw [(L.close prevfd w1).1, hfo, ho1, hop, if_pos hprev]
        ext x
        simp only [Set.mem_diff, Set.mem_insert_iff, Set.mem_singleton_iff]
        constructor
        · rintro ⟨h | h, hx⟩
          · exact absurd h hx
          · exact h
        · intro h
          exact ⟨Or.inr h, fun hx => hnot hprev (hx ▸ h)⟩
    · refine ⟨{ s1 with world := w1 }, [], ?_, rfl, ?_, ?_, ?_⟩
      · simp only [evalpipe_loop, bind_apply, h1, andThen_ok, List.isEmpty_nil, Bool.true_eq_false,
          if_false, pure_apply, hl, if_neg hpid, if_neg hprev, modW_apply, if_neg hneg]
      · show V.trace w1 = _
        rw [hft, ht1]
        simp [stageEvents, hprev]
      · simp [stageEvents, fdrun, hprev]
      · show V.opened w1 = _
        rw [hfo, ho1, hop, if_neg hprev]
  | cons m rest ih =>
    intro n prevfd pip0 s S0 hst hnot hop
    obtain ⟨s1, h1, ht1, ho1⟩ := prehash_view E V L rcf n s (hst n (List.mem_cons_self _ _)) hpath
    cases hp : (E.pipe s1.world).1 with
    | none => exact absurd hp (hpipe _)
    | some fds =>
      obtain ⟨r, wr⟩ := fds
      obtain ⟨hr0, hw0, hrw, hro, hwo, hpo, hpt⟩ := L.pipe s1.world r wr hp
      obtain ⟨pid, w1, hf, hpid⟩ := hfork n (E.pipe s1.world).2
      have hl := liftW_ok (E.forkshell jp n backgnd) { s1 with world := (E.pipe s1.world).2 }
        pid w1 hf
      obtain ⟨hfo, hft⟩ := L.fork jp n backgnd (E.pipe s1.world).2 pid w1 hf hpid
      have hst1 : ∀ x ∈ m :: rest, hasWord x = true := fun x hx => hst x (List.mem_cons_of_mem _ hx)
      have hrS : r ∉ S0 := by
        intro h
        apply hro
        rw [ho1, hop]
        split_ifs
        · exact Set.mem_insert_of_mem _ h
        · exact h
      have hwS : wr ∉ S0 := by
        intro h
        apply hwo
        rw [ho1, hop]
        split_ifs
        · exact Set.mem_insert_of_mem _ h
        · exact h
      by_cases hprev : prevfd ≥ 0
      · have hrp : r ≠ prevfd := by
          intro h
          apply hro
          rw [ho1, hop, if_pos hprev, h]
          exact Set.mem_insert _ _
        have hwp : wr ≠ prevfd := by
          intro h
          apply hwo
          rw [ho1, hop, if_pos hprev, h]
          exact Set.mem_insert _ _
        have hop5 : V.opened (E.close wr (E.close prevfd w1))
            = (if r ≥ 0 then insert r S0 else S0) := by
          rw [(L.close wr _).1, (L.close prevfd w1).1, hfo, hpo, ho1, hop, if_pos hprev,
            if_pos hr0]
          ext x
          simp only [Set.mem_diff, Set.mem_union, Set.mem_insert_iff, Set.mem_singleton_iff]
          constructor
          · rintro ⟨⟨(h | h) | (h | h), hx1⟩, hx2⟩
            · exact absurd h hx1
            · exact Or.inr h
            · exact Or.inl h
            · exact absurd h hx2
          · rintro (h | h)
            · exact ⟨⟨Or.inr (Or.inl h), fun hx => hrp (h ▸ hx)⟩, fun hx => hrw (h ▸ hx)⟩
            · exact ⟨⟨Or.inl (Or.inr h), fun hx => hnot hprev (hx ▸ h)⟩, fun hx => hwS (hx ▸ h)⟩
        obtain ⟨s2, ps, h2, hlen, htr, hrun, hop2⟩ := ih m r r
          { s1 with world := E.close wr (E.close prevfd w1) } S0 hst1 (fun _ => hrS) hop5
        refine ⟨s2, (r, wr) :: ps, ?_, by simp [hlen], ?_, ?_, hop2⟩
        · rw [← h2]
          simp only [evalpipe_loop, bind_apply, h1, andThen_ok, List.isEmpty_cons, if_true,
            getS_apply, modW_apply, hp, pure_apply, hl, if_neg hpid, if_pos hprev, if_pos hw0]
        · rw [htr]
          show V.trace (E.close wr (E.close prevfd w1)) ++ _ = _
          rw [(L.close wr _).2, (L.close prevfd w1).2, hft, hpt, ht1]
          simp [stageEvents, hprev]
        · rw [if_pos hr0] at hrun
          simp [stageEvents, fdrun, hprev, hrun, List.erase_cons, hrp, hwp, hrw, hrw.symm,
            hrp.symm, hwp.symm]
      · have hop5 : V.opened (E.close wr w1) = (if r ≥ 0 then insert r S0 else S0) := by
          rw [(L.close wr _).1, hfo, hpo, ho1, hop, if_neg hprev, if_pos hr0]
          ext x
          simp only [Set.mem_diff, Set.mem_union, Set.mem_insert_iff, Set.mem_singleton_iff]
          constructor
          · rintro ⟨h | (h | h), hx⟩
            · exact Or.inr h
            · exact Or.inl h
            · exact absurd h hx
          · rintro (h | h)
            · exact ⟨Or.inr (Or.inl h), fun hx => hrw (h ▸ hx)⟩
            · exact ⟨Or.inl h, fun hx => hwS (hx ▸ h)⟩
        obtain ⟨s2, ps, h2, hlen, htr, hrun, hop2⟩ := ih m r r
          { s1 with world := E.close wr w1 } S0 hst1 (fun _ => hrS) hop5
        refine ⟨s2, (r, wr) :: ps, ?_, by simp [hlen], ?_, ?_, hop2⟩
        · rw [← h2]
          simp only [evalpipe_loop, bind_apply, h1, andThen_ok, List.isEmpty_cons, if_true,
            getS_apply, modW_apply, hp, pure_apply, hl, if_neg hpid, if_neg hprev, if_pos hw0]
        · rw [htr]
          show V.trace (E.close wr w1) ++ _ = _
          rw [(L.close wr _).2, hft, hpt, ht1]
          simp [stageEvents, hprev]
        · rw [if_pos hr0] at hrun
          simp [stageEvents, fdrun, hprev, hrun, List.erase_cons, hrw, hrw.symm]

theorem countForks_stageEvents : ∀ (ps : List (Int × Int)) (prevfd : Int),
    countForks (stageEvents prevfd ps) = ps.length + 1 := by
  intro ps
  induction ps with
  | nil => intro prevfd; unfold stageEvents countForks; split_ifs <;> simp
  | cons p ps ih =>
    intro prevfd
    have h := ih p.1
    unfold countForks at h ⊢
    unfold stageEvents
    split_ifs <;> simp [h]

theorem countPipes_stageEvents : ∀ (ps : List (Int × Int)) (prevfd : Int),
    countPipes (stageEvents prevfd ps) = ps.length := by
  intro ps
  induction ps with
  | nil => intro prevfd; unfold stageEvents countPipes; split_ifs <;> simp
  | cons p ps ih =>
    intro prevfd
    have h := ih p.1
    unfold countPipes at h ⊢
    unfold stageEvents
    split_ifs <;> simp [h]

/-- C22, evaluated at a failing input: the pipeline `>f | true`, whose first stage is a simple
command without a word, in the small world with descriptors, where every call of `pipe` and of
`forkshell` succeeds.  `prehash` reads the text of the first word of the stage, which is not
there (a NULL pointer in C), and the shell stops there: there is no fork and no call of `pipe`,
where the claim has two forks and one call of `pipe`, and `evalpipe` does not return.  The same
command `>f` evaluated on its own returns: `evalcommand` tests the list of words. -/
theorem evalpipe_noword_session :
    observe (evalpipe fdExt (readcmdfile fdExt (evaltree fdExt 2) 2) (evaltree fdExt 2) 0
        [some (Node.ncmd 0 [] [{ type := RedirType.NTO, fd := 1, fname := { text := "f" },
                                 dupfd := -1, expfname := none }]), simCmd ["true"]]
        { simInit with world := { simInit.world with fds := [0, 1, 2] } })
      = ("fault", 0, 0, 0, 0, 0,
          { vars := [], jobs := [], output := [], tried := [], fds := [0, 1, 2], events := [] })
    ∧ (observe (evaltree fdExt 3
        (some (Node.ncmd 0 [] [{ type := RedirType.NTO, fd := 1, fname := { text := "f" },
                                 dupfd := -1, expfname := none }])) 0
        { simInit with world := { simInit.world with fds := [0, 1, 2] } })).1 = "ok" := by
  refine ⟨by decide!, by decide!⟩

/-- The descriptors of a pipeline: for every pipeline of `k >= 1` stages, each with a first word, over a `PATH`
without `%` markers, in a world where every call of `pipe` succeeds, every call of `forkshell`
returns in the parent and the wait for a foreground job returns: `evalpipe` returns, and its
events in the parent are those of `stageEvents` for some `k - 1` pairs of descriptors, so there
are exactly `k` forks and exactly `k - 1` calls of `pipe`, none of them for the last stage.
Followed from an empty list, the events close only descriptors that these calls of `pipe`
returned and that are still open, and leave none of them open: each is closed exactly once.
The set of the open descriptors is the one on entry. -/
theorem evalpipe_descriptors {W : Type} (E : Ext W) (V : FdView W) (L : FdLaws E V)
    (rcf : String → M W Unit) (ev : Option Node → Nat → M W Unit) (backgnd : Int)
    (cmdlist : List (Option Node)) (s : State W)
    (hk : 1 ≤ cmdlist.length)
    (hpath : ∀ w, '%' ∉ (E.pathval w).data) (hpipe : ∀ w, (E.pipe w).1 ≠ none)
    (hfork : ∀ jp n w, ∃ pid w1, E.forkshell jp n backgnd w = Out.ok pid w1 ∧ pid ≠ 0)
    (hwait : backgnd = 0 → ∀ jp w, ∃ st w1, E.waitforjob jp w = Out.ok st w1)
    (hst : ∀ n ∈ cmdlist, hasWord n = true) :
    ∃ (s1 : State W) (ps : List (Int × Int)),
      evalpipe E rcf ev backgnd cmdlist s = Out.ok () s1
      ∧ ps.length = cmdlist.length - 1
      ∧ V.trace s1.world = V.trace s.world ++ stageEvents (-1) ps
      ∧ countForks (stageEvents (-1) ps) = cmdlist.length
      ∧ countPipes (stageEvents (-1) ps) = cmdlist.length - 1
      ∧ fdrun [] (stageEvents (-1) ps) = some []
      ∧ V.opened s1.world = V.opened s.world := by
  obtain ⟨n, rest, rfl⟩ : ∃ n rest, cmdlist = n :: rest := by
    cases cmdlist with
    | nil => simp at hk
    | cons n rest => exact ⟨n, rest, rfl⟩
  have hneg : ¬ ((-1 : Int) ≥ 0) := by decide
  obtain ⟨hmt, hmo⟩ := L.makejob (some (Node.npipe backgnd (n :: rest))) (n :: rest).length s.world
  obtain ⟨s0, ps, h0, hlen, htr, hrun, hop⟩ := evalpipe_loop_view E V L rcf ev
    (E.makejob (some (Node.npipe backgnd (n :: rest))) (n :: rest).length s.world).1 backgnd
    hpath hpipe (hfork _) rest n (-1) 0
    { s with world := (E.makejob (some (Node.npipe backgnd (n :: rest))) (n :: rest).length
        s.world).2 }
    (V.opened s.world) hst (fun h => absurd h hneg) (by rw [if_neg hneg]; exact hmo)
  rw [if_neg hneg] at hrun
  have hcf := countForks_stageEvents ps (-1)
  have hcp := countPipes_stageEvents ps (-1)
  have htr0 : V.trace s0.world = V.trace s.world ++ stageEvents (-1) ps := by
    rw [htr]
    show V.trace (E.makejob _ _ s.world).2 ++ _ = _
    rw [hmt]
  by_cases hb : backgnd = 0
  · obtain ⟨st, w, hw⟩ := hwait hb
      (E.makejob (some (Node.npipe backgnd (n :: rest))) (n :: rest).length s.world).1 s0.world
    obtain ⟨hwt, hwo⟩ := L.waitforjob _ _ _ _ hw
    refine ⟨{ s0 with world := w, exitstatus := st }, ps, ?_, by simp [hlen], ?_,
      by rw [hcf, hlen]; rfl, by rw [hcp, hlen]; rfl, hrun, ?_⟩
    · unfold evalpipe
      simp only [bind_apply, makejob, andThen_ok, h0, if_pos hb, waitjob, liftW_ok _ s0 st w hw,
        modS_apply]
    · show V.trace w = _
      rw [hwt, htr0]
    · show V.opened w = _
      rw [hwo, hop]
  · refine ⟨s0, ps, ?_, by simp [hlen], htr0, by rw [hcf, hlen]; rfl, by rw [hcp, hlen]; rfl,
      hrun, hop⟩
    unfold evalpipe
    simp only [bind_apply, makejob, andThen_ok, h0, if_neg hb, pure_apply]

theorem le_foldl_max : ∀ (l : List Int) (a : Int), a ≤ l.foldl max a := by
  intro l
  induction l with
  | nil => intro a; exact le_rfl
  | cons x l ih => intro a; exact le_trans (le_max_left a x) (ih (max a x))

theorem mem_le_foldl_max : ∀ (l : List Int) (a x : Int), x ∈ l → x ≤ l.foldl max a := by
  intro l
  induction l with
  | nil => intro a x h; cases h
  | cons y l ih =>
    intro a x h
    rcases List.mem_cons.mp h with rfl | h
    · exact le_trans (le_max_right a x) (le_foldl_max l (max a x))
    · exact ih (max a y) x h

/-- The small world with descriptors keeps the laws of descriptors. -/
theorem fdLaws_sim : FdLaws fdExt simView where
  stat := fun _ _ => ⟨rfl, rfl⟩
  makejob := fun _ _ _ => ⟨rfl, rfl⟩
  waitforjob := fun jp w st w1 h => by
    have hw : w1 = w := by
      injection h with _ h2
      exact h2.symm
    rw [hw]
    exact ⟨rfl, rfl⟩
  pipe := fun w r wr h => by
    have h1 : (w.fds.foldl max 2 + 1, w.fds.foldl max 2 + 2) = (r, wr) := Option.some.inj h
    injection h1 with hr hwr
    subst hr
    subst hwr
    have h2 := le_foldl_max w.fds 2
    refine ⟨by omega, by omega, by omega, ?_, ?_, ?_, rfl⟩
    · intro hm
      have := mem_le_foldl_max w.fds 2 _ hm
      omega
    · intro hm
      have := mem_le_foldl_max w.fds 2 _ hm
      omega
    · ext x
      show x ∈ (w.fds.foldl max 2 + 1) :: (w.fds.foldl max 2 + 2) :: w.fds ↔ _
      simp only [List.mem_cons, Set.mem_union, Set.mem_insert_iff, Set.mem_singleton_iff]
      constructor
      · rintro (h | h | h)
        · exact Or.inr (Or.inl h)
        · exact Or.inr (Or.inr h)
        · exact Or.inl h
      · rintro (h | h | h)
        · exact Or.inr (Or.inr h)
        · exact Or.inl h
        · exact Or.inr (Or.inl h)
  close := fun fd w => by
    refine ⟨?_, rfl⟩
    ext x
    show x ∈ w.fds.filter (fun y => decide (y ≠ fd)) ↔ _
    simp only [List.mem_filter, decide_eq_true_eq, Set.mem_diff, Set.mem_singleton_iff]
    rfl
  fork := fun jp n bg w pid w1 h _ => by
    have hw : w1 = { w with jobs := w.jobs ++ [Sim.program n], events := w.events ++ [FdEvent.fork] } := by
      injection h with _ h2
      exact h2.symm
    rw [hw]
    exact ⟨rfl, rfl⟩

/-- An instance of the theorem on the descriptors of a pipeline: `true | true | true` in the small world with descriptors, where 0, 1 and 2
are open.  The two calls of `pipe` return 3 and 4, then 4 (closed in between) and 5; there are
three forks, and 0, 1 and 2 are what is open in the end. -/
theorem evalpipe_descriptors_witness :
    (observe (evalpipe fdExt (readcmdfile fdExt (evaltree fdExt 2) 2) (evaltree fdExt 2) 0
        [simCmd ["true"], simCmd ["true"], simCmd ["true"]]
        { simInit with world := { simInit.world with fds := [0, 1, 2] } })).2.2.2.2.2.2
      = { vars := [], jobs := ["true", "true", "true"], output := [], tried := [], fds := [0, 1, 2],
          events := [FdEvent.pipe 3 4, FdEvent.fork, FdEvent.close 4, FdEvent.pipe 4 5,
            FdEvent.fork, FdEvent.close 3, FdEvent.close 5, FdEvent.fork, FdEvent.close 4] }
    ∧ ∃ (s1 : State Sim) (ps : List (Int × Int)),
      evalpipe fdExt (readcmdfile fdExt (evaltree fdExt 2) 2) (evaltree fdExt 2) 0
        [simCmd ["true"], simCmd ["true"], simCmd ["true"]]
        { simInit with world := { simInit.world with fds := [0, 1, 2] } } = Out.ok () s1
      ∧ countForks (stageEvents (-1) ps) = 3
      ∧ countPipes (stageEvents (-1) ps) = 2
      ∧ fdrun [] (stageEvents (-1) ps) = some []
      ∧ simView.opened s1.world = { fd | fd ∈ [0, 1, 2] } := by
  refine ⟨by decide!, ?_⟩
  obtain ⟨s1, ps, h, _, _, hf, hp, hr, ho⟩ := evalpipe_descriptors fdExt simView fdLaws_sim
    (readcmdfile fdExt (evaltree fdExt 2) 2) (evaltree fdExt 2) 0
    [simCmd ["true"], simCmd ["true"], simCmd ["true"]]
    { simInit with world := { simInit.world with fds := [0, 1, 2] } }
    (by decide) (fun _ => (by decide : '%' ∉ "/bin".data))
    (fun w => (by simp [fdExt] : (fdExt.pipe w).1 ≠ none))
    (fun _ _ _ => ⟨1, _, rfl, by decide⟩) (fun _ _ _ => ⟨_, _, rfl⟩) (by decide)
  exact ⟨s1, ps, h, hf, hp, hr, ho⟩

/-! ### A `for` loop whose body runs the previous command again -/

/-- C8, evaluated at a failing input.  In the small world with a file system, in an interactive
shell whose previous command is the loop `while true; do true <x; done`, the loop
`for i in a; do lc; done` is evaluated from a state with `loopnest = 0` and no skip marker.
The word expands to the one-element list `a`; the body `lc` is evaluated once, after `a` has
been assigned to `i`, and it never sets the skip marker.  `lccmd` evaluates the previous
command, whose body raises `EXERROR` while `loopnest` is 2; the frame that `evalcommand` sets up
around a built-in catches the exception and, `lc` not being one of `bltin`, `.`, `eval` and
`exec`, does not raise it again.  So the body returns normally, `evalfor` decrements `loopnest`
once, and the `for` loop returns normally with `loopnest` at 1, not at the 0 it had before. -/
theorem evalfor_lc_session :
    ({ fsInit "/bin" with iflag := true, prevcmd := failingLoop, curcmd := some (Node.nfor [{ text := "a" }] (simCmd ["lc"]) "i") } : State Sim).loopnest = 0
    ∧ observe (evaltree (fsExt 0) 7 (some (Node.nfor [{ text := "a" }] (simCmd ["lc"]) "i")) 0
        { fsInit "/bin" with iflag := true, prevcmd := failingLoop, curcmd := some (Node.nfor [{ text := "a" }] (simCmd ["lc"]) "i") })
      = ("ok", 2, 0, 0, 1, 0,
          { vars := [("_", "lc"), ("_", "true"), ("i", "a"), ("PATH", "/bin")], jobs := [],
            output := [], tried := [] }) := by
  refine ⟨by decide!, by decide!⟩

end Nash
